import Mathlib

/-!
# SuspendedList: an ordered sequence under pairwise precedence rules

A shallow embedding of `src/index.js` (the same code is split over
`src/misc.js`, `src/positionRules.js` and `src/src/suspendedList.js`).

Modelling conventions.

* Items and keys are values of one type `α` with decidable equality, exactly
  as in JavaScript where the serializer maps a value to a value.  Keys are
  used as property names of plain objects, and the source calls them
  `lhsString`, `rhsString`, `itemString`: the model takes a key to be a
  string, its own property name.  Three property names behave in a way of
  their own on the objects of the rule index, `hasOwnProperty`, `__proto__`
  and `size`; the class `PropertyName` tells which keys they are.
* A JavaScript `Set` is a duplicate-free list in insertion order.
* A plain object used as a dictionary is an association list in insertion
  order.  A value assigned to `__proto__` does not become an own property
  but the prototype of the object; it is kept in the same list under that
  key.  The call `obj.hasOwnProperty(k)` is `hasOwnProperty`, which throws
  once the object has an own property of that name.
* Array indices are natural numbers; `indexOf`/`lastIndexOf` return `none`
  for the JavaScript result `-1`.  The target index of
  `_moveStackToRightOfTarget` is an integer because the code computes
  `targetIndex - 1`.
* The methods mutate their object in place and may throw while it is partly
  updated, so every operation returns the object as it stands at the end
  together with how the call ended.
* `_applyRuleXBeforeY`, `_moveStackToRightOfTarget` and `_applyRulesForItem`
  call each other; the model carries a bound on the depth of calls and
  reports `Status.outOfFuel` when it is reached.
-/

namespace Suspended

variable {α : Type} [DecidableEq α]

/-- The function `identity(input)`, the default serializer. -/
def identity (input : α) : α := input

/-! ## JavaScript containers -/

/-- JavaScript `Set.prototype.add`: a present key keeps its place, a new key goes last. -/
def setAdd (s : List α) (k : α) : List α :=
  if k ∈ s then s else s ++ [k]

/-- JavaScript `Set.prototype.delete`. -/
def setDelete (s : List α) (k : α) : List α :=
  s.filter (fun a => decide (a ≠ k))

/-- What a property name means on a plain object whose prototype is
`Object.prototype` or a Set: `hasOwnProperty` is the inherited method the
index calls on its dictionaries, `__proto__` is the accessor that reads and
replaces the prototype, `size` is a getter without setter of `Set.prototype`;
every other name is ordinary as far as the code of the index goes (an
inherited method under such a name is never called by it). -/
inductive PropertyKind where
  | ordinary
  | hasOwnProperty
  | proto
  | size
deriving DecidableEq, Repr

/-- Keys as property names: `kind` tells which keys are the names
`hasOwnProperty`, `__proto__` and `size`. -/
class PropertyName (α : Type) where
  kind : α → PropertyKind

instance : PropertyName String where
  kind k :=
    if k = "hasOwnProperty" then .hasOwnProperty
    else if k = "__proto__" then .proto
    else if k = "size" then .size
    else .ordinary

variable [PropertyName α]

/-- The entry of a dictionary under the name `k`.  For an own property this is
the value `obj[k]` reads.  The entry under `__proto__` is the Set that was
assigned to `obj.__proto__`, which is what `obj.__proto__` reads.  `none`
says that `obj[k]` is not a Set (it is `undefined`, an inherited method, or
`Object.prototype`) or that reading it throws (the getter `size` of a Set
prototype): all the code does with such a value is call `.delete` on it,
which is a `TypeError` in each case. -/
def objGet {β : Type} : List (α × β) → α → Option β
  | [], _ => none
  | (k', v) :: rest, k => if k' = k then some v else objGet rest k

/-- The entry under `k` is set to `v`: an existing entry keeps its place. -/
def objSet {β : Type} : List (α × β) → α → β → List (α × β)
  | [], k, v => [(k, v)]
  | (k', v') :: rest, k, v =>
    if k' = k then (k, v) :: rest else (k', v') :: objSet rest k v

/-- The statement `delete obj[k]`. -/
def objDelete {β : Type} (o : List (α × β)) (k : α) : List (α × β) :=
  o.filter (fun p => decide (p.1 ≠ k))

/-- The object has an own property named `hasOwnProperty`, so that
`obj.hasOwnProperty` is that property (a Set) and not the method of
`Object.prototype`. -/
def shadowsHasOwnProperty {β : Type} (o : List (α × β)) : Bool :=
  o.any (fun p => decide (PropertyName.kind p.1 = .hasOwnProperty))

/-- The prototype of the object is a Set: a Set has been assigned to
`obj.__proto__`. -/
def hasSetPrototype {β : Type} (o : List (α × β)) : Bool :=
  o.any (fun p => decide (PropertyName.kind p.1 = .proto))

/-- The call `obj.hasOwnProperty(k)`; `none` is the `TypeError` of calling a
Set as a function.  `__proto__` is never an own property. -/
def hasOwnProperty {β : Type} (o : List (α × β)) (k : α) : Option Bool :=
  if shadowsHasOwnProperty o then none
  else if PropertyName.kind k = .proto then some false
  else some (objGet o k).isSome

/-- The assignment `obj[k] = v` for a `k` that is not an own property of
`obj`; `none` is the `TypeError` strict code gets when it assigns to `size`
on an object that inherits the getter from a Set.  Assigning to `__proto__`
replaces the prototype; any other name becomes an own property. -/
def assignNew {β : Type} (o : List (α × β)) (k : α) (v : β) : Option (List (α × β)) :=
  if PropertyName.kind k = .size ∧ hasSetPrototype o = true then none
  else some (objSet o k v)

/-- JavaScript `Object.assign({}, source)`: the own properties of `source` in a
new object; the prototype is not copied, and a value that is a reference is
copied as a reference. -/
def objAssign {β : Type} (source : List (α × β)) : List (α × β) :=
  source.filter (fun p => decide (PropertyName.kind p.1 ≠ .proto))

/-- JavaScript `Array.prototype.indexOf`: first index holding `x`, `none` for `-1`. -/
def indexOf : List α → α → Option Nat
  | [], _ => none
  | a :: rest, x => if a = x then some 0 else (indexOf rest x).map (· + 1)

/-- JavaScript `Array.prototype.lastIndexOf`: last index holding `x`, `none` for `-1`. -/
def lastIndexOf : List α → α → Option Nat
  | [], _ => none
  | a :: rest, x =>
    match lastIndexOf rest x with
    | some i => some (i + 1)
    | none => if a = x then some 0 else none

/-- The start position `Array.prototype.splice` derives from its first
argument: a negative start counts from the end, and the result is clamped
to `[0, length]`. -/
def spliceStart (len : Nat) (start : Int) : Nat :=
  if start < 0 then (len + start).toNat else min start.toNat len

/-- JavaScript `Array.prototype.splice(start, deleteCount, ...items)`, the array
afterwards. -/
def splice (list : List α) (start : Int) (deleteCount : Nat) (items : List α) : List α :=
  let s := spliceStart list.length start
  list.take s ++ items ++ list.drop (s + min deleteCount (list.length - s))

/-! ## PositionRules -/

/-- The class `PositionRules`: `_rulesLHS[k]` is the set of keys that must
come after `k`, `_rulesRHS[k]` the set of keys that must come before `k`. -/
structure PositionRules (α : Type) where
  _serializer : α → α
  _rulesLHS : List (α × List α)
  _rulesRHS : List (α × List α)

/-- A `PositionRules` object at the end of a method call; `threw` says that
the call ended in a `TypeError`. -/
structure RulesOutcome (α : Type) where
  rules : PositionRules α
  threw : Bool

namespace PositionRules

/-- The constructor `new PositionRules(serializer)`. -/
def new (serializer : α → α) : PositionRules α :=
  { _serializer := serializer, _rulesLHS := [], _rulesRHS := [] }

/-- One `if`/`else` of `addRule` on one of the two dictionaries: when `dict`
has no own property `key`, a new Set holding `member` is assigned to
`dict[key]`; otherwise `member` is added to the Set `dict[key]`.  `none` is a
`TypeError`; the dictionary is then as before. -/
def addToSet (dict : List (α × List α)) (key member : α) : Option (List (α × List α)) :=
  match hasOwnProperty dict key with
  | none => none
  | some false => assignNew dict key (setAdd [] member)
  | some true => some (objSet dict key (setAdd ((objGet dict key).getD []) member))

/-- The method `PositionRules.addRule(lhs, rhs)`. -/
def addRule (r : PositionRules α) (lhs rhs : α) : RulesOutcome α :=
  let lhsString := r._serializer lhs
  let rhsString := r._serializer rhs
  match addToSet r._rulesLHS lhsString rhsString with
  | none => ⟨r, true⟩
  | some rulesLHS =>
    match addToSet r._rulesRHS rhsString lhsString with
    | none => ⟨{ r with _rulesLHS := rulesLHS }, true⟩
    | some rulesRHS => ⟨{ r with _rulesLHS := rulesLHS, _rulesRHS := rulesRHS }, false⟩

/-- The statement `dict[key].delete(member)` for an entry that is there. -/
def deleteFromSet (dict : List (α × List α)) (key member : α) : List (α × List α) :=
  match objGet dict key with
  | some s => objSet dict key (setDelete s member)
  | none => dict

/-- The method `PositionRules.removeRule(lhs, rhs)`. -/
def removeRule (r : PositionRules α) (lhs rhs : α) : RulesOutcome α :=
  let lhsString := r._serializer lhs
  let rhsString := r._serializer rhs
  match hasOwnProperty r._rulesLHS lhsString with
  | none => ⟨r, true⟩
  | some hasLHS =>
    let rulesLHS := if hasLHS then deleteFromSet r._rulesLHS lhsString rhsString else r._rulesLHS
    match hasOwnProperty r._rulesRHS rhsString with
    | none => ⟨{ r with _rulesLHS := rulesLHS }, true⟩
    | some hasRHS =>
      let rulesRHS :=
        if hasRHS then deleteFromSet r._rulesRHS rhsString lhsString else r._rulesRHS
      ⟨{ r with _rulesLHS := rulesLHS, _rulesRHS := rulesRHS }, false⟩

/-- The loop `set.forEach(k => other[k].delete(itemString))` of
`removeRulesForItem`: the dictionary `other` at the end and whether the loop
threw the `TypeError` of calling `.delete` on a value that is not a Set. -/
def deleteFromEach (other : List (α × List α)) (itemString : α) :
    List α → List (α × List α) × Bool
  | [] => (other, false)
  | k :: rest =>
    match objGet other k with
    | none => (other, true)
    | some s => deleteFromEach (objSet other k (setDelete s itemString)) itemString rest

/-- The first `if` statement of `removeRulesForItem`: the rules in which the
key is the predecessor are removed. -/
def removeAsPredecessor (r : PositionRules α) (itemString : α) : RulesOutcome α :=
  match hasOwnProperty r._rulesLHS itemString with
  | none => ⟨r, true⟩
  | some false => ⟨r, false⟩
  | some true =>
    let deleted := deleteFromEach r._rulesRHS itemString ((objGet r._rulesLHS itemString).getD [])
    if deleted.2 then ⟨{ r with _rulesRHS := deleted.1 }, true⟩
    else ⟨{ r with _rulesLHS := objDelete r._rulesLHS itemString, _rulesRHS := deleted.1 }, false⟩

/-- The second `if` statement of `removeRulesForItem`: the rules in which the
key is the successor are removed. -/
def removeAsSuccessor (r : PositionRules α) (itemString : α) : RulesOutcome α :=
  match hasOwnProperty r._rulesRHS itemString with
  | none => ⟨r, true⟩
  | some false => ⟨r, false⟩
  | some true =>
    let deleted := deleteFromEach r._rulesLHS itemString ((objGet r._rulesRHS itemString).getD [])
    if deleted.2 then ⟨{ r with _rulesLHS := deleted.1 }, true⟩
    else ⟨{ r with _rulesLHS := deleted.1, _rulesRHS := objDelete r._rulesRHS itemString }, false⟩

/-- The method `PositionRules.removeRulesForItem(item)`. -/
def removeRulesForItem (r : PositionRules α) (item : α) : RulesOutcome α :=
  let itemString := r._serializer item
  let first := r.removeAsPredecessor itemString
  if first.threw then first else first.rules.removeAsSuccessor itemString

/-- The method `PositionRules.getLeftBoundsForItem(rhs)`; `none` is a `TypeError`. -/
def getLeftBoundsForItem (r : PositionRules α) (rhs : α) : Option (List α) :=
  let rhsString := r._serializer rhs
  match hasOwnProperty r._rulesRHS rhsString with
  | none => none
  | some true => some ((objGet r._rulesRHS rhsString).getD [])
  | some false => some []

/-- The method `PositionRules.getRightBoundsForItem(lhs)`; `none` is a `TypeError`. -/
def getRightBoundsForItem (r : PositionRules α) (lhs : α) : Option (List α) :=
  let lhsString := r._serializer lhs
  match hasOwnProperty r._rulesLHS lhsString with
  | none => none
  | some true => some ((objGet r._rulesLHS lhsString).getD [])
  | some false => some []

/-- The method `PositionRules.copy()` as far as contents go: `Object.assign`
copies the own properties, so the copy has the same keys with the same sets.
The Set objects themselves are shared with the original; that is visible only
in the model with references below (`RulesObject`). -/
def copy (r : PositionRules α) : PositionRules α :=
  { _serializer := r._serializer
    _rulesLHS := objAssign r._rulesLHS
    _rulesRHS := objAssign r._rulesRHS }

end PositionRules

/-! ## Movement limits -/

/-- The object built by `createLeftRightMovementLimit`; `none` is `null`. -/
structure LeftRightMovementLimit where
  left : Option Nat
  right : Option Nat
deriving DecidableEq, Repr

/-- One scanning loop of `calculateLeftRightMovementLimits`: the items are
given in the order the loop visits them, and the result is the number of
items visited before the first one that `bounds.has`.  For the forward loop
that number is `forwardsIndex - i - 1`, for the backward loop
`i - backwardsIndex - 1`. -/
def scanForBound (bounds : List α) : List α → Option Nat
  | [] => none
  | a :: rest => if a ∈ bounds then some 0 else (scanForBound bounds rest).map (· + 1)

/-- The body of the outer loop of `calculateLeftRightMovementLimits` at
index `i` holding `item`; `none` is the `TypeError` of one of the two
getters. -/
def limitAt (list : List α) (rules : PositionRules α) (i : Nat) (item : α) :
    Option LeftRightMovementLimit :=
  match rules.getLeftBoundsForItem item with
  | none => none
  | some leftBounds =>
    match rules.getRightBoundsForItem item with
    | none => none
    | some rightBounds =>
      some { left := scanForBound leftBounds (list.take i).reverse
             right := scanForBound rightBounds (list.drop (i + 1)) }

/-- The results of the passes of a loop in order, unless one of them threw. -/
def collect {β : Type} : List (Option β) → Option (List β)
  | [] => some []
  | none :: _ => none
  | some b :: rest => (collect rest).map (b :: ·)

/-- The function `calculateLeftRightMovementLimits(list, rules)`; `none` is a
`TypeError`. -/
def calculateLeftRightMovementLimits (list : List α) (rules : PositionRules α) :
    Option (List LeftRightMovementLimit) :=
  collect (list.mapIdx (fun i item => limitAt list rules i item))

/-! ## SuspendedList -/

/-- How a method call ends. `conflict` is `ConflictingRulesError` with the two
keys of its message, `typeError` a JavaScript `TypeError`, and `outOfFuel`
says that the call did not finish within the given depth. -/
inductive Status (α : Type) where
  | ok
  | conflict (xString yString : Option α)
  | typeError
  | outOfFuel
deriving DecidableEq, Repr

/-- The array `this._list` at the end of a call, and how the call ended. -/
structure Result (α : Type) where
  list : List α
  status : Status α
deriving DecidableEq, Repr

/-- Two statements in sequence: the second runs on the array the first
leaves, unless the first threw (or ran out of fuel). -/
def Result.andThen (r : Result α) (next : List α → Result α) : Result α :=
  match r.status with
  | .ok => next r.list
  | _ => r

/-- The method `SuspendedList._canMoveXAfterY(xIndex, yIndex, limits)` with `limits`
given; `none` is the `TypeError` of `limits[xIndex].right` when `xIndex` is
not an index of `limits`. -/
def _canMoveXAfterY (xIndex : Nat) (yIndex : Int) (limits : List LeftRightMovementLimit) :
    Option Bool :=
  match limits[xIndex]? with
  | none => none
  | some limit =>
    let distanceToY : Int := yIndex - xIndex
    match limit.right with
    | none => some true
    | some xRightLimit => if (xRightLimit : Int) ≥ distanceToY then some true else some false

mutual

/-- The loop `rightBounds.forEach(...)` of `SuspendedList._applyRulesForItem(item)`
over the right bounds still to visit. -/
def forEachRightBound (rules : PositionRules α) (item : α) :
    Nat → List α → List α → Result α
  | 0, list, _ => ⟨list, .outOfFuel⟩
  | _ + 1, list, [] => ⟨list, .ok⟩
  | fuel + 1, list, rightBound :: rest =>
    (applyRuleLoop rules item rightBound fuel list true).andThen fun list1 =>
      forEachRightBound rules item fuel list1 rest

/-- The method `SuspendedList._applyRuleXBeforeY(x, y)`. With `first = true` this is the
entry of the method, where a missing `x` or `y` returns at once; with
`first = false` it is the test of the `while` loop after an iteration, where
`-1` takes part in the comparison `xIndex > yIndex` as a number (and a
missing `y` leads to `limits[-1].right`, a `TypeError`). -/
def applyRuleLoop (rules : PositionRules α) (x y : α) :
    Nat → List α → Bool → Result α
  | 0, list, _ => ⟨list, .outOfFuel⟩
  | fuel + 1, list, first =>
    match lastIndexOf list x, indexOf list y with
    | some xIndex, some yIndex =>
      if xIndex > yIndex then
        (moveStack rules fuel list [yIndex] xIndex).andThen fun list1 =>
          applyRuleLoop rules x y fuel list1 false
      else ⟨list, .ok⟩
    | none, _ => ⟨list, .ok⟩
    | some _, none => if first then ⟨list, .ok⟩ else ⟨list, .typeError⟩

/-- The method `SuspendedList._moveStackToRightOfTarget(stack, targetIndex)`. The stack
is kept top first: its head is `stack[stack.length - 1]`. -/
def moveStack (rules : PositionRules α) :
    Nat → List α → List Nat → Int → Result α
  | 0, list, _, _ => ⟨list, .outOfFuel⟩
  | _ + 1, list, [], _ => ⟨list, .ok⟩
  | fuel + 1, list, nextItemIndex :: rest, targetIndex =>
    match calculateLeftRightMovementLimits list rules with
    | none => ⟨list, .typeError⟩
    | some limits =>
      let distanceToTarget : Int := targetIndex - nextItemIndex
      if distanceToTarget = 0 then
        let xString := (rest.head?.bind (fun previousItemIndex => list[previousItemIndex]?)).map
          rules._serializer
        let yString := list[nextItemIndex]?.map rules._serializer
        ⟨list, .conflict xString yString⟩
      else
        match _canMoveXAfterY nextItemIndex targetIndex limits, list[nextItemIndex]? with
        | some true, some nextItem =>
          -- this.removeAtIndex(nextItemIndex); this.insert(nextItem, targetIndex)
          let list1 := splice list nextItemIndex 1 []
          let list2 := splice list1 targetIndex 0 [nextItem]
          match rules.getRightBoundsForItem nextItem with
          | none => ⟨list2, .typeError⟩
          | some rightBounds =>
            (forEachRightBound rules nextItem fuel list2 rightBounds).andThen fun list3 =>
              moveStack rules fuel list3 rest (targetIndex - 1)
        | some false, _ =>
          let rightLimitOfItem := (limits[nextItemIndex]?.bind (·.right)).getD 0
          let indexOfRightBound := nextItemIndex + rightLimitOfItem + 1
          moveStack rules fuel list (indexOfRightBound :: nextItemIndex :: rest) targetIndex
        | _, _ => ⟨list, .typeError⟩

end

/-- The method `SuspendedList._applyRuleXBeforeY(x, y)`. -/
def _applyRuleXBeforeY (rules : PositionRules α) (fuel : Nat) (list : List α) (x y : α) :
    Result α :=
  applyRuleLoop rules x y fuel list true

/-- The method `SuspendedList._applyRulesForItem(item)`. -/
def _applyRulesForItem (rules : PositionRules α) (fuel : Nat) (list : List α) (item : α) :
    Result α :=
  match rules.getRightBoundsForItem item with
  | none => ⟨list, .typeError⟩
  | some rightBounds => forEachRightBound rules item fuel list rightBounds

/-- The method `SuspendedList._moveStackToRightOfTarget(stack, targetIndex)`. -/
def _moveStackToRightOfTarget (rules : PositionRules α) (fuel : Nat) (list : List α)
    (stack : List Nat) (targetIndex : Int) : Result α :=
  moveStack rules fuel list stack targetIndex

/-- The class `SuspendedList`. -/
structure SuspendedList (α : Type) where
  _serializer : α → α
  _list : List α
  _rules : PositionRules α

/-- A `SuspendedList` after a method call, and how the call ended. -/
structure Outcome (α : Type) where
  state : SuspendedList α
  status : Status α

namespace SuspendedList

/-- The constructor `new SuspendedList(serializer)`. -/
def new (serializer : α → α) : SuspendedList α :=
  { _serializer := serializer, _list := [], _rules := PositionRules.new serializer }

/-- The method `SuspendedList.toArray()`. -/
def toArray (s : SuspendedList α) : List α := s._list

/-- A call of a method of `this._rules` as the last statement of a method:
the rule index it leaves, and a `TypeError` when it threw. -/
def afterRules (s : SuspendedList α) (o : RulesOutcome α) : Outcome α :=
  ⟨{ s with _rules := o.rules }, if o.threw then .typeError else .ok⟩

/-- The method `SuspendedList.addRuleXBeforeY(x, y)`: `addRule` is called only when
`_applyRuleXBeforeY` returns. -/
def addRuleXBeforeY (fuel : Nat) (s : SuspendedList α) (x y : α) : Outcome α :=
  let r := _applyRuleXBeforeY s._rules fuel s._list x y
  match r.status with
  | .ok => afterRules { s with _list := r.list } (s._rules.addRule x y)
  | status => ⟨{ s with _list := r.list }, status⟩

/-- The method `SuspendedList.addRuleXAfterY(x, y)`. -/
def addRuleXAfterY (fuel : Nat) (s : SuspendedList α) (x y : α) : Outcome α :=
  addRuleXBeforeY fuel s y x

/-- The method `SuspendedList.removeRuleXBeforeY(x, y)`. -/
def removeRuleXBeforeY (s : SuspendedList α) (x y : α) : Outcome α :=
  afterRules s (s._rules.removeRule x y)

/-- The method `SuspendedList.removeRuleXAfterY(x, y)`. -/
def removeRuleXAfterY (s : SuspendedList α) (x y : α) : Outcome α :=
  afterRules s (s._rules.removeRule y x)

/-- The method `SuspendedList.removeRulesForItem(item)`. -/
def removeRulesForItem (s : SuspendedList α) (item : α) : Outcome α :=
  afterRules s (s._rules.removeRulesForItem item)

/-- The tail of `pushLeft`, `pushRight` and `insert`: `_applyRulesForItem`
on the array that already holds the new item. -/
def applyAfterInsertion (fuel : Nat) (s : SuspendedList α) (list : List α) (item : α) :
    Outcome α :=
  let r := _applyRulesForItem s._rules fuel list item
  ⟨{ s with _list := r.list }, r.status⟩

/-- The method `SuspendedList.pushLeft(item)`. -/
def pushLeft (fuel : Nat) (s : SuspendedList α) (item : α) : Outcome α :=
  applyAfterInsertion fuel s (item :: s._list) item

/-- The method `SuspendedList.pushRight(item)`. -/
def pushRight (fuel : Nat) (s : SuspendedList α) (item : α) : Outcome α :=
  applyAfterInsertion fuel s (s._list ++ [item]) item

/-- The method `SuspendedList.insert(item, index)`. -/
def insert (fuel : Nat) (s : SuspendedList α) (item : α) (index : Int) : Outcome α :=
  applyAfterInsertion fuel s (splice s._list index 0 [item]) item

/-- The method `SuspendedList.remove(item)`. -/
def remove (s : SuspendedList α) (item : α) : SuspendedList α :=
  match indexOf s._list item with
  | some index => { s with _list := splice s._list index 1 [] }
  | none => s

/-- The method `SuspendedList.removeAtIndex(index)`. -/
def removeAtIndex (s : SuspendedList α) (index : Int) : SuspendedList α :=
  { s with _list := splice s._list index 1 [] }

end SuspendedList

/-! ## Vocabulary of the specification -/

/-- The call finished within the depth it was given. -/
def Result.Done (r : Result α) : Prop := r.status ≠ .outOfFuel

/-- The call returned normally. -/
def Result.Returned (r : Result α) : Prop := r.status = .ok

/-- The call threw `ConflictingRulesError`. -/
def Result.Conflict (r : Result α) : Prop := ∃ xString yString, r.status = .conflict xString yString

/-- Every occurrence of `p` in `list` is at a smaller index than every
occurrence of `s`. -/
def Precedes (list : List α) (p s : α) : Prop :=
  ∀ i, i < list.length → ∀ j, j < list.length →
    list[i]? = some p → list[j]? = some s → i < j

instance (list : List α) (p s : α) : Decidable (Precedes list p s) := by
  unfold Precedes; infer_instance

/-- The Set `getRightBoundsForItem(lhs)` returns, empty when the call throws. -/
def PositionRules.rightBounds (r : PositionRules α) (lhs : α) : List α :=
  (r.getRightBoundsForItem lhs).getD []

/-- The Set `getLeftBoundsForItem(rhs)` returns, empty when the call throws. -/
def PositionRules.leftBounds (r : PositionRules α) (rhs : α) : List α :=
  (r.getLeftBoundsForItem rhs).getD []

/-- The limit of the item at index `i` computed from the Sets the two getters
return. -/
def limitOf (list : List α) (rules : PositionRules α) (i : Nat) (item : α) :
    LeftRightMovementLimit :=
  { left := scanForBound (rules.leftBounds item) (list.take i).reverse
    right := scanForBound (rules.rightBounds item) (list.drop (i + 1)) }

/-- The array `calculateLeftRightMovementLimits(list, rules)` returns when it
returns. -/
def limitsOf (list : List α) (rules : PositionRules α) : List LeftRightMovementLimit :=
  list.mapIdx (fun i item => limitOf list rules i item)

/-- The rule "`p` before `s`" is stored: `s` is among the right bounds the
index returns for `p`.  This is the set `calculateLeftRightMovementLimits`
and `_applyRulesForItem` read. -/
def Stored (rules : PositionRules α) (p s : α) : Prop :=
  s ∈ rules.rightBounds p

instance (rules : PositionRules α) (p s : α) : Decidable (Stored rules p s) := by
  unfold Stored; infer_instance

/-- Every stored rule whose two items occur in `list` holds in `list`. -/
def AllRulesHold (rules : PositionRules α) (list : List α) : Prop :=
  ∀ p ∈ list, ∀ s ∈ list, Stored rules p s → Precedes list p s

instance (rules : PositionRules α) (list : List α) : Decidable (AllRulesHold rules list) := by
  unfold AllRulesHold; infer_instance

/-- The same invariant read off the array from left to right: no item is
stored as having to come before an item standing at or before it. -/
def NoViolation (rules : PositionRules α) (list : List α) : Prop :=
  list.Pairwise (fun a b => ¬ Stored rules b a) ∧ ∀ a ∈ list, ¬ Stored rules a a

/-- The array after `removeAtIndex(e)` and `insert(a, t)` (before the rules of
`a` are applied), for `e < t` inside the array. -/
def moved (l : List α) (e t : Nat) (a : α) : List α :=
  l.take e ++ ((l.drop (e + 1)).take (t - e) ++ a :: l.drop (t + 1))

/-- One link of a chain of stored rules over items of `list`. -/
def Link (rules : PositionRules α) (list : List α) (a b : α) : Prop :=
  Stored rules a b ∧ a ∈ list ∧ b ∈ list

/-- The list `[a, b, c, d, e]` of the tests, built by `pushRight` on a new
`SuspendedList` with the default serializer. -/
def abcde (fuel : Nat) : SuspendedList String :=
  let s0 : SuspendedList String := SuspendedList.new identity
  let s1 := (SuspendedList.pushRight fuel s0 "a").state
  let s2 := (SuspendedList.pushRight fuel s1 "b").state
  let s3 := (SuspendedList.pushRight fuel s2 "c").state
  let s4 := (SuspendedList.pushRight fuel s3 "d").state
  (SuspendedList.pushRight fuel s4 "e").state

/-- The list `[a, b, c, d, e]` of the tests after `addRuleXBeforeY(p1, s1)` and
`addRuleXBeforeY(p2, s2)`, two rules that already hold in it. -/
def abcdeWithRules (p1 s1 p2 s2 : String) : SuspendedList String :=
  (SuspendedList.addRuleXBeforeY 2
    (SuspendedList.addRuleXBeforeY 2 (abcde 1) p1 s1).state p2 s2).state

/-- The rules "`a` before `b`" and "`b` before `a`", both recorded, as happens
when neither item is in the array yet. -/
def cyclicRules : PositionRules String :=
  (((PositionRules.new identity).addRule "a" "b").rules.addRule "b" "a").rules

/-! ## The rule index read by key -/

/-- The getters can be called: neither dictionary has an own property named
`hasOwnProperty`. -/
def PositionRules.Readable (r : PositionRules α) : Prop :=
  shadowsHasOwnProperty r._rulesLHS = false ∧ shadowsHasOwnProperty r._rulesRHS = false

instance (r : PositionRules α) : Decidable r.Readable := by
  unfold PositionRules.Readable; infer_instance

/-- The set a dictionary holds under the name `k`, empty when it holds
none. -/
def setOf (o : List (α × List α)) (k : α) : List α :=
  match objGet o k with
  | some s => s
  | none => []

/-- The set `_rulesLHS[k]`, the keys that must come after key `k` (the
`mustFollow[k]` of the specification); empty when the object has no
property `k`. -/
def PositionRules.mustFollow (r : PositionRules α) (k : α) : List α :=
  setOf r._rulesLHS k

/-- The set `_rulesRHS[k]`, the keys that must come before key `k` (the
`mustPrecede[k]` of the specification); empty when the object has no
property `k`. -/
def PositionRules.mustPrecede (r : PositionRules α) (k : α) : List α :=
  setOf r._rulesRHS k

/-- The key is neither the name `hasOwnProperty` nor the name `__proto__`. -/
def PlainKey (k : α) : Prop :=
  PropertyName.kind k ≠ .hasOwnProperty ∧ PropertyName.kind k ≠ .proto

instance (k : α) : Decidable (PlainKey k) := by
  unfold PlainKey; infer_instance

/-- A dictionary as `{}` is meant to be used: its prototype is
`Object.prototype` and it has no own property named `hasOwnProperty`. -/
def PlainDict {β : Type} (o : List (α × β)) : Prop :=
  ∀ p ∈ o, PlainKey p.1

instance {β : Type} (o : List (α × β)) : Decidable (PlainDict o) := by
  unfold PlainDict; infer_instance

/-- Both dictionaries of the index are plain. -/
def PositionRules.Plain (r : PositionRules α) : Prop :=
  PlainDict r._rulesLHS ∧ PlainDict r._rulesRHS

instance (r : PositionRules α) : Decidable r.Plain := by
  unfold PositionRules.Plain; infer_instance

/-- The symmetry invariant of the index: `b` must follow `a` exactly when `a`
must precede `b`. -/
def PositionRules.Symmetric (r : PositionRules α) : Prop :=
  ∀ a b, b ∈ r.mustFollow a ↔ a ∈ r.mustPrecede b

/-- The indexes obtained from `new PositionRules(serializer)` by finitely
many calls of `addRule`, `removeRule` and `removeRulesForItem`, where no rule
is added for a key `hasOwnProperty` or `__proto__`. -/
inductive PositionRules.Reachable (serializer : α → α) : PositionRules α → Prop where
  | new : PositionRules.Reachable serializer (PositionRules.new serializer)
  | addRule {r : PositionRules α} (lhs rhs : α) :
      PositionRules.Reachable serializer r →
      PlainKey (serializer lhs) → PlainKey (serializer rhs) →
      PositionRules.Reachable serializer (r.addRule lhs rhs).rules
  | removeRule {r : PositionRules α} (lhs rhs : α) :
      PositionRules.Reachable serializer r →
      PositionRules.Reachable serializer (r.removeRule lhs rhs).rules
  | removeRulesForItem {r : PositionRules α} (item : α) :
      PositionRules.Reachable serializer r →
      PositionRules.Reachable serializer (r.removeRulesForItem item).rules

/-! ## More methods of SuspendedList -/

/-- The identifier `thjs` read by `copy()`: no variable of that name is
declared anywhere in the module, so evaluating it throws a `ReferenceError`;
`none` is that error. -/
def thjs : Option (SuspendedList α) := none

/-- The method `SuspendedList.copy()`; `none` is the `ReferenceError` thrown
by its first statement `new SuspendedList(thjs._serializer)`. -/
def SuspendedList.copy (s : SuspendedList α) : Option (SuspendedList α) :=
  match (thjs : Option (SuspendedList α)) with
  | none => none
  | some t => some { _serializer := t._serializer, _list := s._list, _rules := s._rules.copy }

/-- The method `SuspendedList.popLeft()`: the value of `this._list.shift()`
and the object afterwards. -/
def SuspendedList.popLeft (s : SuspendedList α) : Option α × SuspendedList α :=
  (s._list.head?, { s with _list := s._list.tail })

/-- The method `SuspendedList.popRight()`: the value of `this._list.pop()`
and the object afterwards. -/
def SuspendedList.popRight (s : SuspendedList α) : Option α × SuspendedList α :=
  (s._list.getLast?, { s with _list := s._list.dropLast })

/-! ## PositionRules with its Set objects by reference -/

/-- The Set objects allocated so far; a Set is known by its index here. -/
abbrev Heap (α : Type) := List (List α)

/-- A `PositionRules` object whose dictionaries hold references to Set
objects on a heap, so that two objects can hold the same Set, as the original
and the result of `copy()` do. -/
structure RulesObject (α : Type) where
  _serializer : α → α
  _rulesLHS : List (α × Nat)
  _rulesRHS : List (α × Nat)

/-- The heap and a `RulesObject` at the end of a method call; `threw` says
that the call ended in a `TypeError`. -/
structure HeapOutcome (α : Type) where
  heap : Heap α
  rules : RulesObject α
  threw : Bool

namespace RulesObject

/-- The constructor `new PositionRules(serializer)`. -/
def new (serializer : α → α) : RulesObject α :=
  { _serializer := serializer, _rulesLHS := [], _rulesRHS := [] }

/-- The method `PositionRules.copy()`. -/
def copy (r : RulesObject α) : RulesObject α :=
  { _serializer := r._serializer
    _rulesLHS := objAssign r._rulesLHS
    _rulesRHS := objAssign r._rulesRHS }

/-- One `if`/`else` of `addRule`: when `dict` has no own property `key` a new
Set holding `member` is assigned to `dict[key]`; otherwise `member` is added
to the Set `dict[key]` refers to, in place.  `none` is a `TypeError`. -/
def addToSet (heap : Heap α) (dict : List (α × Nat)) (key member : α) :
    Option (Heap α × List (α × Nat)) :=
  match hasOwnProperty dict key with
  | none => none
  | some false =>
    (assignNew dict key heap.length).map (fun dict1 => (heap ++ [setAdd [] member], dict1))
  | some true =>
    match objGet dict key with
    | some ref => some (heap.set ref (setAdd (heap.getD ref []) member), objSet dict key ref)
    | none => none

/-- The method `PositionRules.addRule(lhs, rhs)`. -/
def addRule (heap : Heap α) (r : RulesObject α) (lhs rhs : α) : HeapOutcome α :=
  let lhsString := r._serializer lhs
  let rhsString := r._serializer rhs
  match addToSet heap r._rulesLHS lhsString rhsString with
  | none => ⟨heap, r, true⟩
  | some afterLHS =>
    match addToSet afterLHS.1 r._rulesRHS rhsString lhsString with
    | none => ⟨afterLHS.1, { r with _rulesLHS := afterLHS.2 }, true⟩
    | some afterRHS =>
      ⟨afterRHS.1, { r with _rulesLHS := afterLHS.2, _rulesRHS := afterRHS.2 }, false⟩

/-- The method `PositionRules.getLeftBoundsForItem(rhs)`, read in `heap`;
`none` is a `TypeError`. -/
def getLeftBoundsForItem (heap : Heap α) (r : RulesObject α) (rhs : α) : Option (List α) :=
  let rhsString := r._serializer rhs
  match hasOwnProperty r._rulesRHS rhsString with
  | none => none
  | some true => (objGet r._rulesRHS rhsString).map (fun ref => heap.getD ref [])
  | some false => some []

/-- The method `PositionRules.getRightBoundsForItem(lhs)`, read in `heap`;
`none` is a `TypeError`. -/
def getRightBoundsForItem (heap : Heap α) (r : RulesObject α) (lhs : α) : Option (List α) :=
  let lhsString := r._serializer lhs
  match hasOwnProperty r._rulesLHS lhsString with
  | none => none
  | some true => (objGet r._rulesLHS lhsString).map (fun ref => heap.getD ref [])
  | some false => some []

end RulesObject

/-! ## More vocabulary of the specification -/

/-- The array after the item `a` at index `i` has been moved `d` positions to
the left, the other items keeping their order. -/
def movedLeft (l : List α) (i d : Nat) (a : α) : List α :=
  l.take (i - d) ++ a :: ((l.take i).drop (i - d) ++ l.drop (i + 1))

/-- A serializer a caller can pass to the constructor: the key of an item is
its first character, so that `a1` and `a2` have the same key `a`. -/
def firstLetter (item : String) : String := String.mk (item.data.take 1)

/-! ## States holding a rule for the key `hasOwnProperty` or `__proto__` -/

/-- A new list with the default serializer after
`addRuleXBeforeY('hasOwnProperty', 'b')`: neither item is in the array, the
call returns and the rule is recorded. -/
def shadowedList : SuspendedList String :=
  (SuspendedList.addRuleXBeforeY 1 (SuspendedList.new identity) "hasOwnProperty" "b").state

/-- A new index with the default serializer after `addRule('hasOwnProperty', 'q')`. -/
def shadowedRules : PositionRules String :=
  ((PositionRules.new identity).addRule "hasOwnProperty" "q").rules

/-- A new index with the default serializer after `addRule('__proto__', 'b')`. -/
def protoRules : PositionRules String :=
  ((PositionRules.new identity).addRule "__proto__" "b").rules

/-! # Theorems -/

set_option linter.unusedSectionVars false

/-! ## Sequencing and fuel -/

theorem andThen_of_ok {r : Result α} {k : List α → Result α} (h : r.status = .ok) :
    r.andThen k = k r.list := by
  unfold Result.andThen
  simp [h]

theorem andThen_of_not_ok {r : Result α} {k : List α → Result α} (h : r.status ≠ .ok) :
    r.andThen k = r := by
  unfold Result.andThen
  cases hs : r.status with
  | ok => exact absurd hs h
  | conflict a b => rfl
  | typeError => rfl
  | outOfFuel => rfl

theorem andThen_mono {r r' : Result α} {k k' : List α → Result α}
    (hr : r.Done → r' = r) (hk : ∀ l, (k l).Done → k' l = k l)
    (h : (r.andThen k).Done) : r'.andThen k' = r.andThen k := by
  by_cases hs : r.status = .ok
  · have h1 : r' = r := hr (by simp [Result.Done, hs])
    rw [h1, andThen_of_ok hs, andThen_of_ok hs]
    rw [andThen_of_ok hs] at h
    exact hk _ h
  · rw [andThen_of_not_ok hs] at h
    have h1 : r' = r := hr h
    rw [h1, andThen_of_not_ok hs, andThen_of_not_ok hs]

theorem fuel_succ (rules : PositionRules α) : ∀ fuel : Nat,
    (∀ item list bounds, (forEachRightBound rules item fuel list bounds).Done →
      forEachRightBound rules item (fuel + 1) list bounds =
        forEachRightBound rules item fuel list bounds) ∧
    (∀ x y list first, (applyRuleLoop rules x y fuel list first).Done →
      applyRuleLoop rules x y (fuel + 1) list first =
        applyRuleLoop rules x y fuel list first) ∧
    (∀ list stack target, (moveStack rules fuel list stack target).Done →
      moveStack rules (fuel + 1) list stack target =
        moveStack rules fuel list stack target) := by
  intro fuel
  induction fuel with
  | zero =>
    refine ⟨?_, ?_, ?_⟩
    · intro item list bounds h; simp [forEachRightBound, Result.Done] at h
    · intro x y list first h; simp [applyRuleLoop, Result.Done] at h
    · intro list stack target h; simp [moveStack, Result.Done] at h
  | succ n ih =>
    obtain ⟨ih1, ih2, ih3⟩ := ih
    refine ⟨?_, ?_, ?_⟩
    · intro item list bounds h
      cases bounds with
      | nil => simp [forEachRightBound]
      | cons rb rest =>
        rw [forEachRightBound] at h
        conv_lhs => rw [forEachRightBound]
        conv_rhs => rw [forEachRightBound]
        exact andThen_mono (ih2 _ _ _ _) (fun l => ih1 _ l _) h
    · intro x y list first h
      rw [applyRuleLoop] at h
      conv_lhs => rw [applyRuleLoop]
      conv_rhs => rw [applyRuleLoop]
      split
      · rename_i xi yi hx hy
        simp only [hx, hy] at h
        split
        · rename_i hgt
          simp only [hgt, if_true] at h
          exact andThen_mono (ih3 _ _ _) (fun l => ih2 _ _ l _) h
        · rfl
      · rfl
      · rfl
    · intro list stack target h
      cases stack with
      | nil => simp [moveStack]
      | cons e rest =>
        rw [moveStack] at h
        conv_lhs => rw [moveStack]
        conv_rhs => rw [moveStack]
        simp only at h ⊢
        split
        · rfl
        · rename_i limits hlim
          simp only [hlim] at h
          split
          · rfl
          · rename_i hne
            simp only [hne, if_false] at h
            split
            · rename_i item hc hi
              simp only [hc, hi] at h
              split
              · rfl
              · rename_i bounds hb
                simp only [hb] at h
                exact andThen_mono (ih1 _ _ _) (fun l => ih3 l _ _) h
            · rename_i hc
              simp only [hc] at h
              exact ih3 _ _ _ h
            · rfl

/-- A call that finished gives the same result with any larger fuel. -/
theorem applyRuleLoop_fuel_mono (rules : PositionRules α) (x y : α) (list : List α) (first : Bool)
    (fuel extra : Nat) (h : (applyRuleLoop rules x y fuel list first).Done) :
    applyRuleLoop rules x y (fuel + extra) list first =
      applyRuleLoop rules x y fuel list first := by
  induction extra with
  | zero => rfl
  | succ k ih =>
    have h1 := (fuel_succ rules (fuel + k)).2.1 x y list first (by rw [ih]; exact h)
    rw [← Nat.add_assoc, h1, ih]

theorem moveStack_fuel_mono (rules : PositionRules α) (list : List α) (stack : List Nat)
    (target : Int) (fuel extra : Nat) (h : (moveStack rules fuel list stack target).Done) :
    moveStack rules (fuel + extra) list stack target = moveStack rules fuel list stack target := by
  induction extra with
  | zero => rfl
  | succ k ih =>
    have h1 := (fuel_succ rules (fuel + k)).2.2 list stack target (by rw [ih]; exact h)
    rw [← Nat.add_assoc, h1, ih]

theorem forEachRightBound_fuel_mono (rules : PositionRules α) (item : α) (list bounds : List α)
    (fuel extra : Nat) (h : (forEachRightBound rules item fuel list bounds).Done) :
    forEachRightBound rules item (fuel + extra) list bounds =
      forEachRightBound rules item fuel list bounds := by
  induction extra with
  | zero => rfl
  | succ k ih =>
    have h1 := (fuel_succ rules (fuel + k)).1 item list bounds (by rw [ih]; exact h)
    rw [← Nat.add_assoc, h1, ih]

/-! ## splice -/

theorem spliceStart_natCast (len e : Nat) : spliceStart len (e : Int) = min e len := by
  unfold spliceStart
  have : ¬ ((e : Int) < 0) := by omega
  simp [this]

theorem splice_remove (l : List α) (e : Nat) (he : e < l.length) :
    splice l (e : Int) 1 [] = l.take e ++ l.drop (e + 1) := by
  unfold splice
  rw [spliceStart_natCast]
  have h1 : min e l.length = e := by omega
  have h2 : min 1 (l.length - e) = 1 := by omega
  simp [h1, h2]

theorem splice_insert (l : List α) (start : Int) (a : α) :
    splice l start 0 [a] =
      l.take (spliceStart l.length start) ++ a :: l.drop (spliceStart l.length start) := by
  unfold splice
  simp

theorem list_split_at (l : List α) (e : Nat) (a : α) (h : l[e]? = some a) :
    l = l.take e ++ a :: l.drop (e + 1) := by
  obtain ⟨he, ha⟩ := List.getElem?_eq_some.mp h
  conv_lhs => rw [← List.take_append_drop e l, List.drop_eq_getElem_cons he, ha]

theorem splice_move_perm (l : List α) (e : Nat) (t : Int) (a : α) (h : l[e]? = some a) :
    (splice (splice l e 1 []) t 0 [a]).Perm l := by
  obtain ⟨he, _⟩ := List.getElem?_eq_some.mp h
  rw [splice_remove l e he, splice_insert]
  have h1 := list_split_at l e a h
  set m := l.take e ++ l.drop (e + 1) with hm
  set s := spliceStart m.length t
  calc (m.take s ++ a :: m.drop s).Perm (a :: (m.take s ++ m.drop s)) := List.perm_middle
    _ = a :: m := by rw [List.take_append_drop]
    _ = a :: (l.take e ++ l.drop (e + 1)) := by rw [hm]
    _ |>.Perm (l.take e ++ a :: l.drop (e + 1)) := List.perm_middle.symm
    _ = l := h1.symm

/-! ## The items of the array are never created or lost -/

theorem andThen_perm {r : Result α} {k : List α → Result α} {l : List α}
    (hr : r.list.Perm l) (hk : ∀ l1, ((k l1).list).Perm l1) :
    ((r.andThen k).list).Perm l := by
  by_cases hs : r.status = .ok
  · rw [andThen_of_ok hs]
    exact (hk _).trans hr
  · rw [andThen_of_not_ok hs]
    exact hr

theorem engine_perm (rules : PositionRules α) : ∀ fuel : Nat,
    (∀ item list bounds, ((forEachRightBound rules item fuel list bounds).list).Perm list) ∧
    (∀ x y list first, ((applyRuleLoop rules x y fuel list first).list).Perm list) ∧
    (∀ list stack target, ((moveStack rules fuel list stack target).list).Perm list) := by
  intro fuel
  induction fuel with
  | zero =>
    refine ⟨?_, ?_, ?_⟩
    · intro item list bounds; simp [forEachRightBound]
    · intro x y list first; simp [applyRuleLoop]
    · intro list stack target; simp [moveStack]
  | succ n ih =>
    obtain ⟨ih1, ih2, ih3⟩ := ih
    refine ⟨?_, ?_, ?_⟩
    · intro item list bounds
      cases bounds with
      | nil => simp [forEachRightBound]
      | cons rb rest =>
        rw [forEachRightBound]
        exact andThen_perm (ih2 _ _ _ _) (fun l => ih1 _ l _)
    · intro x y list first
      rw [applyRuleLoop]
      split
      · split
        · exact andThen_perm (ih3 _ _ _) (fun l => ih2 _ _ l _)
        · exact List.Perm.refl _
      · exact List.Perm.refl _
      · split <;> exact List.Perm.refl _
    · intro list stack target
      cases stack with
      | nil => simp [moveStack]
      | cons e rest =>
        rw [moveStack]
        simp only
        split
        · exact List.Perm.refl _
        · split
          · exact List.Perm.refl _
          · split
            · rename_i item hc hi
              split
              · exact splice_move_perm _ _ _ _ hi
              · exact andThen_perm ((ih1 _ _ _).trans (splice_move_perm _ _ _ _ hi))
                  (fun l => ih3 l _ _)
            · exact ih3 _ _ _
            · exact List.Perm.refl _

/-! ## indexOf and lastIndexOf -/

theorem indexOf_eq_none (l : List α) (x : α) : indexOf l x = none ↔ x ∉ l := by
  induction l with
  | nil => simp [indexOf]
  | cons a rest ih =>
    unfold indexOf
    by_cases h : a = x
    · simp [h]
    · simp [h, ih, Ne.symm h]

theorem indexOf_eq_some (l : List α) (x : α) (i : Nat) :
    indexOf l x = some i ↔ l[i]? = some x ∧ ∀ j, j < i → l[j]? ≠ some x := by
  induction l generalizing i with
  | nil => simp [indexOf]
  | cons a rest ih =>
    unfold indexOf
    by_cases h : a = x
    · simp only [h, if_true, Option.some.injEq]
      constructor
      · intro hi
        subst hi
        simp
      · rintro ⟨h1, h2⟩
        cases i with
        | zero => rfl
        | succ k => exact absurd (by simp) (h2 0 (Nat.succ_pos k))
    · simp only [h, if_false, Option.map_eq_some']
      constructor
      · rintro ⟨k, hk, rfl⟩
        obtain ⟨h1, h2⟩ := (ih k).mp hk
        refine ⟨by simpa using h1, ?_⟩
        intro j hj
        cases j with
        | zero => simpa using h
        | succ j => simpa using h2 j (by omega)
      · rintro ⟨h1, h2⟩
        cases i with
        | zero => simp at h1; exact absurd h1 h
        | succ k =>
          refine ⟨k, (ih k).mpr ⟨by simpa using h1, ?_⟩, rfl⟩
          intro j hj
          simpa using h2 (j + 1) (by omega)

theorem lastIndexOf_eq_none (l : List α) (x : α) : lastIndexOf l x = none ↔ x ∉ l := by
  induction l with
  | nil => simp [lastIndexOf]
  | cons a rest ih =>
    unfold lastIndexOf
    cases hr : lastIndexOf rest x with
    | some i =>
      have : x ∈ rest := by
        by_contra hc
        rw [ih.mpr hc] at hr
        exact Option.noConfusion hr
      simp [this]
    | none =>
      have hn := ih.mp hr
      by_cases h : a = x
      · simp [h]
      · simp [h, hn, Ne.symm h]

theorem lastIndexOf_eq_some (l : List α) (x : α) (i : Nat) :
    lastIndexOf l x = some i ↔ l[i]? = some x ∧ ∀ j, i < j → l[j]? ≠ some x := by
  induction l generalizing i with
  | nil => simp [lastIndexOf]
  | cons a rest ih =>
    unfold lastIndexOf
    cases hr : lastIndexOf rest x with
    | some k =>
      obtain ⟨h1, h2⟩ := (ih k).mp hr
      simp only [Option.some.injEq]
      constructor
      · intro hi
        subst hi
        refine ⟨by simpa using h1, ?_⟩
        intro j hj
        cases j with
        | zero => omega
        | succ j => simpa using h2 j (by omega)
      · rintro ⟨h3, h4⟩
        cases i with
        | zero => exact absurd (by simpa using h1) (h4 (k + 1) (by omega))
        | succ m =>
          have h5 : rest[m]? = some x := by simpa using h3
          rcases Nat.lt_trichotomy k m with hlt | heq | hgt
          · exact absurd h5 (h2 m hlt)
          · rw [heq]
          · exact absurd (by simpa using h1) (h4 (k + 1) (by omega))
    | none =>
      have hn := (lastIndexOf_eq_none rest x).mp hr
      by_cases h : a = x
      · simp only [h, if_true, Option.some.injEq]
        constructor
        · intro hi
          subst hi
          refine ⟨by simp, ?_⟩
          intro j hj
          cases j with
          | zero => omega
          | succ j =>
            intro hc
            exact hn (List.mem_iff_getElem?.mpr ⟨j, by simpa using hc⟩)
        · rintro ⟨h3, _⟩
          cases i with
          | zero => rfl
          | succ m => exact absurd (List.mem_iff_getElem?.mpr ⟨m, by simpa using h3⟩) hn
      · simp only [h, if_false]
        constructor
        · intro hc; exact Option.noConfusion hc
        · rintro ⟨h3, _⟩
          cases i with
          | zero => simp at h3; exact absurd h3 h
          | succ m => exact absurd (List.mem_iff_getElem?.mpr ⟨m, by simpa using h3⟩) hn

theorem indexOf_isSome_of_mem {l : List α} {x : α} (h : x ∈ l) : ∃ i, indexOf l x = some i := by
  cases hc : indexOf l x with
  | none => exact absurd h ((indexOf_eq_none l x).mp hc)
  | some i => exact ⟨i, rfl⟩

theorem lastIndexOf_isSome_of_mem {l : List α} {x : α} (h : x ∈ l) :
    ∃ i, lastIndexOf l x = some i := by
  cases hc : lastIndexOf l x with
  | none => exact absurd h ((lastIndexOf_eq_none l x).mp hc)
  | some i => exact ⟨i, rfl⟩

/-! ## Precedes -/

theorem precedes_iff (l : List α) (p s : α) :
    Precedes l p s ↔ ∀ i j : Nat, l[i]? = some p → l[j]? = some s → i < j := by
  unfold Precedes
  constructor
  · intro h i j hi hj
    obtain ⟨h1, _⟩ := List.getElem?_eq_some.mp hi
    obtain ⟨h2, _⟩ := List.getElem?_eq_some.mp hj
    exact h i h1 j h2 hi hj
  · intro h i _ j _ hi hj
    exact h i j hi hj

theorem precedes_iff_indexOf (l : List α) (p s : α) :
    Precedes l p s ↔
      ∀ xi yi, lastIndexOf l p = some xi → indexOf l s = some yi → xi < yi := by
  rw [precedes_iff]
  constructor
  · intro h xi yi hx hy
    exact h xi yi ((lastIndexOf_eq_some l p xi).mp hx).1 ((indexOf_eq_some l s yi).mp hy).1
  · intro h i j hi hj
    obtain ⟨xi, hx⟩ := lastIndexOf_isSome_of_mem (List.mem_iff_getElem?.mpr ⟨i, hi⟩)
    obtain ⟨yi, hy⟩ := indexOf_isSome_of_mem (List.mem_iff_getElem?.mpr ⟨j, hj⟩)
    have h1 := h xi yi hx hy
    have h2 : i ≤ xi := by
      by_contra hc
      exact ((lastIndexOf_eq_some l p xi).mp hx).2 i (by omega) hi
    have h3 : yi ≤ j := by
      by_contra hc
      exact ((indexOf_eq_some l s yi).mp hy).2 j (by omega) hj
    omega

/-! ## Sets and dictionaries -/

theorem setAdd_mem (s : List α) (k : α) : k ∈ setAdd s k := by
  unfold setAdd
  by_cases h : k ∈ s <;> simp [h]

theorem setAdd_idem (s : List α) (k : α) : setAdd (setAdd s k) k = setAdd s k := by
  unfold setAdd
  by_cases h : k ∈ s <;> simp [h]

theorem objGet_objSet_same {β : Type} (o : List (α × β)) (k : α) (v : β) :
    objGet (objSet o k v) k = some v := by
  induction o with
  | nil => simp [objSet, objGet]
  | cons p rest ih =>
    obtain ⟨k', v'⟩ := p
    unfold objSet
    by_cases h : k' = k
    · simp [h, objGet]
    · simp [h, objGet, ih]

theorem objSet_objSet_same {β : Type} (o : List (α × β)) (k : α) (v w : β) :
    objSet (objSet o k v) k w = objSet o k w := by
  induction o with
  | nil => simp [objSet]
  | cons p rest ih =>
    obtain ⟨k', v'⟩ := p
    unfold objSet
    by_cases h : k' = k
    · simp [h, objSet]
    · simp [h, objSet, ih]

/-! ## What a normal return of the enforcement loop says -/

theorem andThen_ok {r : Result α} {k : List α → Result α} (h : (r.andThen k).status = .ok) :
    r.status = .ok ∧ r.andThen k = k r.list := by
  by_cases hs : r.status = .ok
  · exact ⟨hs, andThen_of_ok hs⟩
  · rw [andThen_of_not_ok hs] at h
    exact absurd h hs

theorem applyRuleLoop_exit (rules : PositionRules α) (x y : α) :
    ∀ (fuel : Nat) (list : List α) (first : Bool),
      (applyRuleLoop rules x y fuel list first).status = .ok →
      ∀ xi yi, lastIndexOf (applyRuleLoop rules x y fuel list first).list x = some xi →
        indexOf (applyRuleLoop rules x y fuel list first).list y = some yi → xi ≤ yi := by
  intro fuel
  induction fuel with
  | zero => intro list first h; simp [applyRuleLoop] at h
  | succ n ih =>
    intro list first h
    rw [applyRuleLoop] at h ⊢
    cases hx : lastIndexOf list x with
    | none =>
      simp only [hx]
      intro xi yi hx' _
      exact Option.noConfusion hx'
    | some xi =>
      cases hy : indexOf list y with
      | none =>
        simp only [hx, hy] at h ⊢
        by_cases hf : first = true
        · simp only [hf, if_true]
          intro xi' yi' _ hy'
          have e : (none : Option Nat) = some yi' := by
            first | exact hy' | exact hy.symm.trans hy'
          exact Option.noConfusion e
        · simp [hf] at h
      | some yi =>
        simp only [hx, hy] at h ⊢
        by_cases hgt : xi > yi
        · simp only [hgt, if_true] at h ⊢
          obtain ⟨_, h2⟩ := andThen_ok h
          rw [h2] at h ⊢
          exact ih _ _ h
        · simp only [hgt, if_false]
          intro xi' yi' hx' hy'
          have e1 : some xi = some xi' := by
            first | exact hx' | exact hx.symm.trans hx'
          have e2 : some yi = some yi' := by
            first | exact hy' | exact hy.symm.trans hy'
          simp only [Option.some.injEq] at e1 e2
          omega

/-- On a list where the last `x` is not after the first `y`, the method
returns at once. -/
theorem applyRuleLoop_noop (rules : PositionRules α) (x y : α) (fuel : Nat) (list : List α)
    (h : ∀ xi yi, lastIndexOf list x = some xi → indexOf list y = some yi → xi ≤ yi) :
    applyRuleLoop rules x y (fuel + 1) list true = ⟨list, .ok⟩ := by
  rw [applyRuleLoop]
  split
  · rename_i xi yi hx hy
    have := h xi yi hx hy
    have hgt : ¬ xi > yi := by omega
    simp [hgt]
  · rfl
  · rfl

/-! ## The invariant "all stored rules hold" -/

theorem allRulesHold_iff_noViolation (rules : PositionRules α) (l : List α) :
    AllRulesHold rules l ↔ NoViolation rules l := by
  unfold AllRulesHold NoViolation
  constructor
  · intro h
    constructor
    · rw [List.pairwise_iff_getElem]
      intro i j hi hj hij hst
      have hp := h l[j] (List.getElem_mem _) l[i] (List.getElem_mem _) hst
      rw [precedes_iff] at hp
      have := hp j i (List.getElem?_eq_getElem hj) (List.getElem?_eq_getElem hi)
      omega
    · intro a ha hst
      have hp := h a ha a ha hst
      rw [precedes_iff] at hp
      obtain ⟨i, hi⟩ := List.mem_iff_getElem?.mp ha
      have := hp i i hi hi
      omega
  · rintro ⟨hpw, hdiag⟩ p hp s hs hst
    rw [precedes_iff]
    intro i j hi hj
    obtain ⟨hi', hpi⟩ := List.getElem?_eq_some.mp hi
    obtain ⟨hj', hsj⟩ := List.getElem?_eq_some.mp hj
    rcases Nat.lt_trichotomy i j with hlt | heq | hgt
    · exact hlt
    · subst heq
      rw [hpi] at hsj
      subst hsj
      exact absurd hst (hdiag p hp)
    · have := (List.pairwise_iff_getElem.mp hpw) j i hj' hi' hgt
      rw [hpi, hsj] at this
      exact absurd hst this

/-- Moving one item to the right across items none of which it has to
precede keeps the invariant. -/
theorem noViolation_move (rules : PositionRules α) (A B C : List α) (a : α)
    (h : NoViolation rules (A ++ a :: (B ++ C))) (hB : ∀ b ∈ B, ¬ Stored rules a b) :
    NoViolation rules (A ++ (B ++ a :: C)) := by
  unfold NoViolation at h ⊢
  obtain ⟨hpw, hdiag⟩ := h
  constructor
  · simp only [List.pairwise_append, List.pairwise_cons, List.mem_append, List.mem_cons] at hpw ⊢
    obtain ⟨hA, ⟨haBC, hB', hC, hBC⟩, hA2⟩ := hpw
    refine ⟨hA, ⟨hB', ⟨?_, hC⟩, ?_⟩, ?_⟩
    · intro c hc; exact haBC c (Or.inr hc)
    · intro b hb c hc
      rcases hc with rfl | hc
      · exact hB b hb
      · exact hBC b hb c hc
    · intro c hc d hd
      rcases hd with hd | rfl | hd
      · exact hA2 c hc d (Or.inr (Or.inl hd))
      · exact hA2 c hc d (Or.inl rfl)
      · exact hA2 c hc d (Or.inr (Or.inr hd))
  · intro c hc
    apply hdiag
    simp only [List.mem_append, List.mem_cons] at hc ⊢
    tauto

/-! ## The scanning loop and the limits -/

theorem scanForBound_eq_none (bs l : List α) :
    scanForBound bs l = none ↔ ∀ a ∈ l, a ∉ bs := by
  induction l with
  | nil => simp [scanForBound]
  | cons a rest ih =>
    unfold scanForBound
    by_cases h : a ∈ bs
    · simp [h]
    · simp [h, ih]

theorem scanForBound_eq_some (bs l : List α) (k : Nat) :
    scanForBound bs l = some k ↔
      (∃ b, l[k]? = some b ∧ b ∈ bs) ∧ ∀ a ∈ l.take k, a ∉ bs := by
  induction l generalizing k with
  | nil => simp [scanForBound]
  | cons a rest ih =>
    unfold scanForBound
    by_cases h : a ∈ bs
    · simp only [h, if_true, Option.some.injEq]
      constructor
      · intro hk
        subst hk
        simp [h]
      · rintro ⟨_, h2⟩
        cases k with
        | zero => rfl
        | succ m => exact absurd h (h2 a (by simp))
    · simp only [h, if_false, Option.map_eq_some']
      constructor
      · rintro ⟨m, hm, rfl⟩
        obtain ⟨h1, h2⟩ := (ih m).mp hm
        refine ⟨by simpa using h1, ?_⟩
        intro c hc
        simp only [List.take_succ_cons, List.mem_cons] at hc
        rcases hc with rfl | hc
        · exact h
        · exact h2 c hc
      · rintro ⟨h1, h2⟩
        cases k with
        | zero =>
          simp only [List.getElem?_cons_zero, Option.some.injEq, exists_eq_left'] at h1
          exact absurd h1 h
        | succ m =>
          refine ⟨m, (ih m).mpr ⟨by simpa using h1, ?_⟩, rfl⟩
          intro c hc
          exact h2 c (by simp [hc])

theorem getRight_of_readable (rules : PositionRules α) (hr : rules.Readable) (x : α) :
    rules.getRightBoundsForItem x = some (rules.rightBounds x) := by
  unfold PositionRules.rightBounds
  have h : ∃ b, rules.getRightBoundsForItem x = some b := by
    unfold PositionRules.getRightBoundsForItem hasOwnProperty
    simp only [hr.1, Bool.false_eq_true, if_false]
    by_cases hk : PropertyName.kind (rules._serializer x) = PropertyKind.proto
    · simp [hk]
    · simp only [hk, if_false]
      cases (objGet rules._rulesLHS (rules._serializer x)).isSome <;> simp
  obtain ⟨b, hb⟩ := h
  rw [hb]
  rfl

theorem getLeft_of_readable (rules : PositionRules α) (hr : rules.Readable) (x : α) :
    rules.getLeftBoundsForItem x = some (rules.leftBounds x) := by
  unfold PositionRules.leftBounds
  have h : ∃ b, rules.getLeftBoundsForItem x = some b := by
    unfold PositionRules.getLeftBoundsForItem hasOwnProperty
    simp only [hr.2, Bool.false_eq_true, if_false]
    by_cases hk : PropertyName.kind (rules._serializer x) = PropertyKind.proto
    · simp [hk]
    · simp only [hk, if_false]
      cases (objGet rules._rulesRHS (rules._serializer x)).isSome <;> simp
  obtain ⟨b, hb⟩ := h
  rw [hb]
  rfl

theorem getRight_of_not_readable_left (rules : PositionRules α)
    (h : shadowsHasOwnProperty rules._rulesLHS = true) (x : α) :
    rules.getRightBoundsForItem x = none := by
  unfold PositionRules.getRightBoundsForItem hasOwnProperty
  simp [h]

theorem getLeft_of_not_readable_right (rules : PositionRules α)
    (h : shadowsHasOwnProperty rules._rulesRHS = true) (x : α) :
    rules.getLeftBoundsForItem x = none := by
  unfold PositionRules.getLeftBoundsForItem hasOwnProperty
  simp [h]

theorem limitAt_of_readable (rules : PositionRules α) (hr : rules.Readable) (l : List α)
    (i : Nat) (a : α) : limitAt l rules i a = some (limitOf l rules i a) := by
  unfold limitAt limitOf
  rw [getLeft_of_readable rules hr, getRight_of_readable rules hr]

theorem collect_map_some {β : Type} (l : List β) : collect (l.map some) = some l := by
  induction l with
  | nil => rfl
  | cons b rest ih => simp [collect, ih]

theorem limits_of_readable (rules : PositionRules α) (hr : rules.Readable) (l : List α) :
    calculateLeftRightMovementLimits l rules = some (limitsOf l rules) := by
  unfold calculateLeftRightMovementLimits limitsOf
  have h : (fun i item => limitAt l rules i item) =
      (fun i item => some (limitOf l rules i item)) := by
    funext i item
    exact limitAt_of_readable rules hr l i item
  rw [h, ← collect_map_some (List.mapIdx (fun i item => limitOf l rules i item) l)]
  congr 1
  apply List.ext_getElem?
  intro i
  rw [List.getElem?_mapIdx, List.getElem?_map, List.getElem?_mapIdx]
  cases l[i]? <;> rfl

theorem collect_none {β : Type} (l : List (Option β)) (h : none ∈ l) : collect l = none := by
  induction l with
  | nil => simp at h
  | cons o rest ih =>
    cases o with
    | none => rfl
    | some b =>
      have h1 : none ∈ rest := by simpa using h
      simp [collect, ih h1]

theorem limits_of_not_readable (rules : PositionRules α) (hr : ¬ rules.Readable) (l : List α)
    (hl : l ≠ []) : calculateLeftRightMovementLimits l rules = none := by
  unfold calculateLeftRightMovementLimits
  apply collect_none
  obtain ⟨a, rest, rfl⟩ := List.exists_cons_of_ne_nil hl
  rw [List.mem_iff_getElem?]
  refine ⟨0, ?_⟩
  rw [List.getElem?_mapIdx]
  simp only [List.getElem?_cons_zero, Option.map_some', Option.some.injEq]
  unfold limitAt
  by_cases h2 : shadowsHasOwnProperty rules._rulesRHS = true
  · rw [getLeft_of_not_readable_right rules h2]
  · have h1 : shadowsHasOwnProperty rules._rulesLHS = true := by
      by_contra hc
      exact hr ⟨by simpa using hc, by simpa using h2⟩
    rw [getRight_of_not_readable_left rules h1]
    split <;> rfl

theorem limits_getElem? (l : List α) (rules : PositionRules α) (e : Nat) :
    (limitsOf l rules)[e]? = (l[e]?).map (limitOf l rules e) := by
  unfold limitsOf
  exact List.getElem?_mapIdx

/-- The right limit of the item at index `e`. -/
theorem limits_right (l : List α) (rules : PositionRules α) (e : Nat) (a : α)
    (h : l[e]? = some a) :
    (limitsOf l rules)[e]?.bind (·.right) =
      scanForBound (rules.rightBounds a) (l.drop (e + 1)) := by
  rw [limits_getElem?, h]
  rfl

theorem canMove_eq (l : List α) (rules : PositionRules α) (e : Nat) (t : Int) (a : α)
    (h : l[e]? = some a) :
    _canMoveXAfterY e t (limitsOf l rules) =
      match scanForBound (rules.rightBounds a) (l.drop (e + 1)) with
      | none => some true
      | some k => if (k : Int) ≥ t - e then some true else some false := by
  unfold _canMoveXAfterY
  rw [limits_getElem?, h]
  rfl

/-! ## One move of `_moveStackToRightOfTarget` -/

theorem splice_move_eq (l : List α) (e t : Nat) (a : α) (h : l[e]? = some a)
    (het : e < t) (ht : t < l.length) :
    splice (splice l e 1 []) (t : Int) 0 [a] = moved l e t a := by
  obtain ⟨he, _⟩ := List.getElem?_eq_some.mp h
  rw [splice_remove l e he, splice_insert, spliceStart_natCast]
  have hlen : (l.take e ++ l.drop (e + 1)).length = l.length - 1 := by
    simp only [List.length_append, List.length_take, List.length_drop]
    omega
  have hmin : min t (l.take e ++ l.drop (e + 1)).length = t := by
    rw [hlen]; omega
  rw [hmin]
  have hA : (l.take e).length = e := by
    simp only [List.length_take]; omega
  unfold moved
  rw [List.take_append_eq_append_take, List.drop_append_eq_append_drop, hA]
  have h1 : List.take t (List.take e l) = List.take e l := by
    rw [List.take_take]
    congr 1
    omega
  have h2 : List.drop t (List.take e l) = [] := by
    apply List.drop_eq_nil_of_le
    rw [hA]; omega
  have h3 : List.drop (t - e) (List.drop (e + 1) l) = List.drop (t + 1) l := by
    rw [List.drop_drop]
    congr 1
    omega
  rw [h1, h2, h3]
  simp

theorem list_eq_split (l : List α) (e t : Nat) (a : α) (h : l[e]? = some a) (het : e < t) :
    l = l.take e ++ a :: ((l.drop (e + 1)).take (t - e) ++ l.drop (t + 1)) := by
  have h1 := list_split_at l e a h
  have h3 : List.drop (t + 1) l = List.drop (t - e) (List.drop (e + 1) l) := by
    rw [List.drop_drop]
    congr 1
    omega
  rw [h3, List.take_append_drop]
  exact h1

theorem moved_noViolation (rules : PositionRules α) (l : List α) (e t : Nat) (a : α)
    (h : l[e]? = some a) (het : e < t) (hv : NoViolation rules l)
    (hfree : ∀ b ∈ (l.drop (e + 1)).take (t - e), ¬ Stored rules a b) :
    NoViolation rules (moved l e t a) := by
  have h1 := list_eq_split l e t a h het
  rw [h1] at hv
  exact noViolation_move rules _ _ _ a hv hfree

theorem moved_length (l : List α) (e t : Nat) (a : α) (het : e < t) (ht : t < l.length) :
    (moved l e t a).length = l.length := by
  unfold moved
  simp only [List.length_append, List.length_take, List.length_drop, List.length_cons]
  omega

/-- Below the index it was taken from, a move changes nothing. -/
theorem moved_getElem?_below (l : List α) (e t : Nat) (a : α) (j : Nat) (hj : j < e)
    (ht : t < l.length) (het : e < t) :
    (moved l e t a)[j]? = l[j]? := by
  unfold moved
  rw [List.getElem?_append_left (by simp only [List.length_take]; omega)]
  rw [List.getElem?_take]
  simp [hj]

/-- Between the two indices of a move every item stands one position lower. -/
theorem moved_getElem?_between (l : List α) (e t : Nat) (a : α) (j : Nat) (hej : e ≤ j)
    (hjt : j < t) (ht : t < l.length) :
    (moved l e t a)[j]? = l[j + 1]? := by
  unfold moved
  have hA : (l.take e).length = e := by
    simp only [List.length_take]; omega
  have hB : ((l.drop (e + 1)).take (t - e)).length = t - e := by
    simp only [List.length_take, List.length_drop]; omega
  rw [List.getElem?_append_right (by rw [hA]; omega), hA]
  rw [List.getElem?_append_left (by rw [hB]; omega)]
  rw [List.getElem?_take]
  have : j - e < t - e := by omega
  simp only [this, if_true]
  rw [List.getElem?_drop]
  congr 1
  omega

/-- The item that stood at the target index stands one position lower after
the move. -/
theorem moved_getElem?_target (l : List α) (e t : Nat) (a : α) (het : e < t)
    (ht : t < l.length) :
    (moved l e t a)[t - 1]? = l[t]? := by
  unfold moved
  have hA : (l.take e).length = e := by
    simp only [List.length_take]; omega
  have hB : ((l.drop (e + 1)).take (t - e)).length = t - e := by
    simp only [List.length_take, List.length_drop]; omega
  rw [List.getElem?_append_right (by rw [hA]; omega), hA]
  rw [List.getElem?_append_left (by rw [hB]; omega)]
  rw [List.getElem?_take]
  have : t - 1 - e < t - e := by omega
  simp only [this, if_true]
  rw [List.getElem?_drop]
  congr 1
  omega

theorem moved_getElem?_new (l : List α) (e t : Nat) (a : α) (het : e < t)
    (ht : t < l.length) :
    (moved l e t a)[t]? = some a := by
  unfold moved
  have hA : (l.take e).length = e := by
    simp only [List.length_take]; omega
  have hB : ((l.drop (e + 1)).take (t - e)).length = t - e := by
    simp only [List.length_take, List.length_drop]; omega
  rw [List.getElem?_append_right (by rw [hA]; omega), hA]
  rw [List.getElem?_append_right (by rw [hB]), hB]
  simp

theorem moved_drop (l : List α) (e t : Nat) (a : α) (het : e < t) (ht : t < l.length) :
    (moved l e t a).drop t = a :: l.drop (t + 1) := by
  unfold moved
  have hA : (l.take e).length = e := by
    simp only [List.length_take]; omega
  have hB : ((l.drop (e + 1)).take (t - e)).length = t - e := by
    simp only [List.length_take, List.length_drop]; omega
  rw [List.drop_append_eq_append_drop, hA, List.drop_append_eq_append_drop, hB]
  have h1 : List.drop t (List.take e l) = [] := by
    apply List.drop_eq_nil_of_le
    rw [hA]; omega
  have h2 : List.drop (t - e) (List.take (t - e) (List.drop (e + 1) l)) = [] := by
    apply List.drop_eq_nil_of_le
    rw [hB]
  have h3 : t - e - (t - e) = 0 := by omega
  rw [h1, h2, h3]
  simp

/-- The item at the target index is among the items a move crosses. -/
theorem target_mem_crossed (l : List α) (e t : Nat) (x : α) (het : e < t)
    (hx : l[t]? = some x) : x ∈ (l.drop (e + 1)).take (t - e) := by
  rw [List.mem_iff_getElem?]
  refine ⟨t - e - 1, ?_⟩
  rw [List.getElem?_take]
  have : t - e - 1 < t - e := by omega
  simp only [this, if_true]
  rw [List.getElem?_drop]
  have : e + 1 + (t - e - 1) = t := by omega
  rw [this]
  exact hx

/-! ## The branches of `_moveStackToRightOfTarget` -/

theorem moveStack_nil (rules : PositionRules α) (n : Nat) (l : List α) (t : Int) :
    moveStack rules (n + 1) l [] t = ⟨l, .ok⟩ := by
  rw [moveStack]

theorem moveStack_conflict (rules : PositionRules α) (hr : rules.Readable) (n : Nat) (l : List α) (e : Nat)
    (rest : List Nat) :
    (moveStack rules (n + 1) l (e :: rest) (e : Int)).list = l ∧
    (moveStack rules (n + 1) l (e :: rest) (e : Int)).Conflict := by
  rw [moveStack, limits_of_readable rules hr]
  simp [Result.Conflict]

/-- The items the move of index `e` to index `t` crosses are free of right
bounds of the moved item exactly when `_canMoveXAfterY` allows the move. -/
theorem free_or_bound (rules : PositionRules α) (l : List α) (e t : Nat) (a : α) :
    (∀ b ∈ (l.drop (e + 1)).take (t - e), ¬ Stored rules a b) ∨
    ∃ k c, scanForBound (rules.rightBounds a) (l.drop (e + 1)) = some k ∧
      k < t - e ∧ l[e + k + 1]? = some c ∧ Stored rules a c := by
  cases hs : scanForBound (rules.rightBounds a) (l.drop (e + 1)) with
  | none =>
    left
    intro b hb
    exact (scanForBound_eq_none _ _).mp hs b (List.mem_of_mem_take hb)
  | some k =>
    obtain ⟨⟨c, hc, hcb⟩, hfree⟩ := (scanForBound_eq_some _ _ k).mp hs
    by_cases hk : k < t - e
    · right
      refine ⟨k, c, rfl, hk, ?_, hcb⟩
      rw [List.getElem?_drop] at hc
      have : e + 1 + k = e + k + 1 := by omega
      rw [← this]
      exact hc
    · left
      intro b hb
      apply hfree b
      have hle : t - e ≤ k := by omega
      exact (List.take_subset_take_left _ hle) hb

theorem moveStack_move (rules : PositionRules α) (hr : rules.Readable) (n : Nat) (l : List α) (e t : Nat)
    (rest : List Nat) (a : α) (h : l[e]? = some a) (het : e < t) (ht : t < l.length)
    (hfree : ∀ b ∈ (l.drop (e + 1)).take (t - e), ¬ Stored rules a b) :
    moveStack rules (n + 1) l (e :: rest) (t : Int) =
      (forEachRightBound rules a n (moved l e t a) (rules.rightBounds a)).andThen
        fun list3 => moveStack rules n list3 rest ((t - 1 : Nat) : Int) := by
  rw [moveStack, limits_of_readable rules hr]
  simp only
  have hne : ¬ ((t : Int) - (e : Int) = 0) := by omega
  simp only [hne, if_false]
  have hcan : _canMoveXAfterY e t (limitsOf l rules) = some true := by
    rw [canMove_eq l rules e t a h]
    cases hs : scanForBound (rules.rightBounds a) (l.drop (e + 1)) with
    | none => rfl
    | some k =>
      obtain ⟨⟨c, hc, hcb⟩, _⟩ := (scanForBound_eq_some _ _ k).mp hs
      have hk : ¬ k < t - e := by
        intro hk
        apply hfree c _ hcb
        rw [List.mem_iff_getElem?]
        refine ⟨k, ?_⟩
        rw [List.getElem?_take]
        simp [hk, hc]
      have : (k : Int) ≥ (t : Int) - (e : Int) := by omega
      simp [this]
  simp only [hcan, h, getRight_of_readable rules hr]
  rw [splice_move_eq l e t a h het ht]
  have : (t : Int) - 1 = ((t - 1 : Nat) : Int) := by omega
  rw [this]

theorem moveStack_push (rules : PositionRules α) (hr : rules.Readable) (n : Nat) (l : List α) (e t : Nat)
    (rest : List Nat) (a : α) (h : l[e]? = some a) (het : e < t) (k : Nat)
    (hs : scanForBound (rules.rightBounds a) (l.drop (e + 1)) = some k)
    (hk : k < t - e) :
    moveStack rules (n + 1) l (e :: rest) (t : Int) =
      moveStack rules n l ((e + k + 1) :: e :: rest) (t : Int) := by
  rw [moveStack, limits_of_readable rules hr]
  simp only
  have hne : ¬ ((t : Int) - (e : Int) = 0) := by omega
  simp only [hne, if_false]
  have hcan : _canMoveXAfterY e t (limitsOf l rules) = some false := by
    rw [canMove_eq l rules e t a h, hs]
    have : ¬ ((k : Int) ≥ (t : Int) - (e : Int)) := by omega
    simp [this]
  simp only [hcan]
  rw [limits_right l rules e a h, hs]
  rfl

/-! ## Under the invariant, `insert` moves nothing further -/

theorem forEachRightBound_noop_of (rules : PositionRules α) (item : α) (l : List α) :
    ∀ (fuel : Nat) (bounds : List α),
      (∀ b ∈ bounds, ∀ xi yi, lastIndexOf l item = some xi → indexOf l b = some yi → xi ≤ yi) →
      forEachRightBound rules item fuel l bounds =
        ⟨l, if bounds.length < fuel then .ok else .outOfFuel⟩ := by
  intro fuel
  induction fuel with
  | zero => intro bounds _; simp [forEachRightBound]
  | succ n ih =>
    intro bounds hb
    cases bounds with
    | nil => simp [forEachRightBound]
    | cons rb rest =>
      rw [forEachRightBound]
      cases n with
      | zero => simp [applyRuleLoop, Result.andThen]
      | succ m =>
        have hnoop : applyRuleLoop rules item rb (m + 1) l true = ⟨l, .ok⟩ :=
          applyRuleLoop_noop rules item rb m l (hb rb (by simp))
        rw [hnoop, andThen_of_ok rfl]
        simp only
        rw [ih rest (fun b hb' => hb b (by simp [hb']))]
        simp

theorem forEachRightBound_noop (rules : PositionRules α) (item : α) (l : List α)
    (hv : NoViolation rules l) (fuel : Nat) (bounds : List α)
    (hb : ∀ b ∈ bounds, Stored rules item b) :
    forEachRightBound rules item fuel l bounds =
      ⟨l, if bounds.length < fuel then .ok else .outOfFuel⟩ := by
  have hall := (allRulesHold_iff_noViolation rules l).mpr hv
  apply forEachRightBound_noop_of
  intro b hbb xi yi hx hy
  have hx' := ((lastIndexOf_eq_some l item xi).mp hx).1
  have hy' := ((indexOf_eq_some l b yi).mp hy).1
  have hp := hall item (List.mem_iff_getElem?.mpr ⟨xi, hx'⟩) b
    (List.mem_iff_getElem?.mpr ⟨yi, hy'⟩) (hb b hbb)
  have := (precedes_iff l item b).mp hp xi yi hx' hy'
  omega

/-! ## `_moveStackToRightOfTarget` under the invariant -/

theorem lastIndexOf_of_drop (l : List α) (x : α) (t : Nat) (hx : l[t]? = some x)
    (hlast : x ∉ l.drop (t + 1)) : lastIndexOf l x = some t := by
  rw [lastIndexOf_eq_some]
  refine ⟨hx, ?_⟩
  intro j hj hc
  apply hlast
  rw [List.mem_iff_getElem?]
  refine ⟨j - (t + 1), ?_⟩
  rw [List.getElem?_drop]
  have : t + 1 + (j - (t + 1)) = j := by omega
  rw [this]
  exact hc

theorem not_mem_drop_of_lastIndexOf (l : List α) (x : α) (t : Nat)
    (h : lastIndexOf l x = some t) : x ∉ l.drop (t + 1) := by
  intro hc
  obtain ⟨j, hj⟩ := List.mem_iff_getElem?.mp hc
  rw [List.getElem?_drop] at hj
  exact ((lastIndexOf_eq_some l x t).mp h).2 (t + 1 + j) (by omega) hj

theorem moveStack_safe (rules : PositionRules α) (hr : rules.Readable) :
    ∀ (fuel : Nat) (l : List α) (stack : List Nat) (t : Nat),
      NoViolation rules l → stack.Pairwise (· > ·) → (∀ e ∈ stack, e ≤ t) → t < l.length →
      NoViolation rules (moveStack rules fuel l stack t).list ∧
      (moveStack rules fuel l stack t).status ≠ .typeError ∧
      ((moveStack rules fuel l stack t).status = .ok →
        (∀ x, l[t]? = some x → ∀ e ∈ stack, ∀ a, l[e]? = some a → ¬ Stored rules a x) ∧
        (∀ x, stack ≠ [] → l[t]? = some x → x ∉ l.drop (t + 1) →
          (∀ e ∈ stack, l[e]? ≠ some x) →
          ∃ t', t' < t ∧ lastIndexOf (moveStack rules fuel l stack t).list x = some t')) := by
  intro fuel
  induction fuel with
  | zero =>
    intro l stack t hv _ _ _
    simp [moveStack, hv]
  | succ n ih =>
    intro l stack t hv hsorted hle ht
    cases stack with
    | nil =>
      rw [moveStack_nil]
      simp [hv]
    | cons e rest =>
      have het : e ≤ t := hle e (by simp)
      obtain ⟨hgt, hsorted'⟩ := List.pairwise_cons.mp hsorted
      by_cases heq : e = t
      · subst heq
        obtain ⟨h1, a1, a2, h2⟩ := moveStack_conflict rules hr n l e rest
        refine ⟨by rw [h1]; exact hv, by rw [h2]; simp, ?_⟩
        intro hok
        rw [h2] at hok
        exact Status.noConfusion hok
      · have hlt : e < t := by omega
        have hel : e < l.length := by omega
        obtain ⟨a, ha⟩ : ∃ a, l[e]? = some a := ⟨l[e], List.getElem?_eq_getElem hel⟩
        rcases free_or_bound rules l e t a with hfree | ⟨k, c, hs, hk, hc, hst⟩
        · -- the item at `e` is moved behind the target
          rw [moveStack_move rules hr n l e t rest a ha hlt ht hfree]
          have hv' := moved_noViolation rules l e t a ha hlt hv hfree
          have hfe := forEachRightBound_noop rules a (moved l e t a) hv' n
            (rules.rightBounds a) (fun b hb => hb)
          by_cases hn : (rules.rightBounds a).length < n
          · simp only [hn, if_true] at hfe
            rw [hfe, andThen_of_ok rfl]
            simp only
            have hle' : ∀ e' ∈ rest, e' ≤ t - 1 := by
              intro e' he'
              have := hgt e' he'
              omega
            have hlen := moved_length l e t a hlt ht
            obtain ⟨H1, H2, H3⟩ := ih (moved l e t a) rest (t - 1) hv' hsorted' hle'
              (by rw [hlen]; omega)
            refine ⟨H1, H2, ?_⟩
            intro hok
            obtain ⟨P2, P3⟩ := H3 hok
            have htgt := moved_getElem?_target l e t a hlt ht
            constructor
            · intro x hx e' he' a' ha'
              rcases List.mem_cons.mp he' with rfl | he'
              · rw [ha] at ha'
                have : a = a' := Option.some.inj ha'
                subst this
                exact hfree x (target_mem_crossed l e' t x hlt hx)
              · have hlt' := hgt e' he'
                apply P2 x (by rw [htgt]; exact hx) e' he' a'
                rw [moved_getElem?_below l e t a e' hlt' ht hlt]
                exact ha'
            · intro x _ hx hlast hne
              have hax : a ≠ x := by
                intro hc
                apply hne e (by simp)
                rw [ha, hc]
              have hdrop : x ∉ (moved l e t a).drop (t - 1 + 1) := by
                have : t - 1 + 1 = t := by omega
                rw [this, moved_drop l e t a hlt ht]
                simp only [List.mem_cons, not_or]
                exact ⟨Ne.symm hax, hlast⟩
              by_cases hrest : rest = []
              · subst hrest
                cases n with
                | zero => exact absurd hn (Nat.not_lt_zero _)
                | succ m =>
                  rw [moveStack_nil]
                  refine ⟨t - 1, by omega, ?_⟩
                  exact lastIndexOf_of_drop _ x (t - 1) (by rw [htgt]; exact hx) hdrop
              · have hne' : ∀ e' ∈ rest, (moved l e t a)[e']? ≠ some x := by
                  intro e' he'
                  rw [moved_getElem?_below l e t a e' (hgt e' he') ht hlt]
                  exact hne e' (by simp [he'])
                obtain ⟨t', ht', hl'⟩ := P3 x hrest (by rw [htgt]; exact hx) hdrop hne'
                exact ⟨t', by omega, hl'⟩
          · simp only [hn, if_false] at hfe
            rw [hfe, andThen_of_not_ok (by simp)]
            refine ⟨hv', by simp, ?_⟩
            intro hok
            exact Status.noConfusion hok
        · -- the nearest right bound of the item at `e` is put on the stack
          rw [moveStack_push rules hr n l e t rest a ha hlt k hs hk]
          have hsorted2 : ((e + k + 1) :: e :: rest).Pairwise (· > ·) := by
            rw [List.pairwise_cons]
            refine ⟨?_, hsorted⟩
            intro e' he'
            rcases List.mem_cons.mp he' with rfl | he'
            · omega
            · have := hgt e' he'
              omega
          have hle2 : ∀ e' ∈ ((e + k + 1) :: e :: rest), e' ≤ t := by
            intro e' he'
            rcases List.mem_cons.mp he' with rfl | he'
            · omega
            · exact hle e' he'
          obtain ⟨H1, H2, H3⟩ := ih l ((e + k + 1) :: e :: rest) t hv hsorted2 hle2 ht
          refine ⟨H1, H2, ?_⟩
          intro hok
          obtain ⟨P2, P3⟩ := H3 hok
          constructor
          · intro x hx e' he' a' ha'
            exact P2 x hx e' (List.mem_cons_of_mem _ he') a' ha'
          · intro x _ hx hlast hne
            apply P3 x (by simp) hx hlast
            intro e' he'
            rcases List.mem_cons.mp he' with rfl | he'
            · rw [hc]
              intro hcx
              have hcx' : c = x := Option.some.inj hcx
              subst hcx'
              exact P2 c hx e (by simp) a ha hst
            · exact hne e' he'

/-! ## Termination under the invariant -/

theorem moveStack_done_of_le (rules : PositionRules α) (l : List α) (stack : List Nat)
    (t : Int) (N M : Nat) (hNM : N ≤ M) (h : (moveStack rules N l stack t).Done) :
    moveStack rules M l stack t = moveStack rules N l stack t := by
  have : M = N + (M - N) := by omega
  rw [this]
  exact moveStack_fuel_mono rules l stack t N (M - N) h

theorem applyRuleLoop_done_of_le (rules : PositionRules α) (x y : α) (l : List α)
    (first : Bool) (N M : Nat) (hNM : N ≤ M) (h : (applyRuleLoop rules x y N l first).Done) :
    applyRuleLoop rules x y M l first = applyRuleLoop rules x y N l first := by
  have : M = N + (M - N) := by omega
  rw [this]
  exact applyRuleLoop_fuel_mono rules x y l first N (M - N) h

theorem moveStack_terminates_move (rules : PositionRules α) (hr : rules.Readable) (l : List α) (e t : Nat)
    (rest : List Nat) (a : α) (ha : l[e]? = some a) (hlt : e < t) (ht : t < l.length)
    (hv : NoViolation rules l)
    (hfree : ∀ b ∈ (l.drop (e + 1)).take (t - e), ¬ Stored rules a b)
    (hrec : ∃ N, (moveStack rules N (moved l e t a) rest ((t - 1 : Nat) : Int)).Done) :
    ∃ N, (moveStack rules N l (e :: rest) (t : Int)).Done := by
  obtain ⟨N2, hN2⟩ := hrec
  have hv' := moved_noViolation rules l e t a ha hlt hv hfree
  refine ⟨max ((rules.rightBounds a).length + 1) N2 + 1, ?_⟩
  rw [moveStack_move rules hr _ l e t rest a ha hlt ht hfree]
  rw [forEachRightBound_noop rules a (moved l e t a) hv' _
    (rules.rightBounds a) (fun b hb => hb)]
  have hlt' : (rules.rightBounds a).length
      < max ((rules.rightBounds a).length + 1) N2 := by omega
  simp only [hlt', if_true]
  rw [andThen_of_ok rfl]
  simp only
  rw [moveStack_done_of_le rules _ rest _ N2 _ (by omega) hN2]
  exact hN2

theorem moveStack_terminates (rules : PositionRules α) (hr : rules.Readable) (t : Nat) :
    ∀ (d : Nat) (l : List α) (stack : List Nat),
      NoViolation rules l → stack.Pairwise (· > ·) → (∀ e ∈ stack, e ≤ t) → t < l.length →
      (∀ e, stack.head? = some e → t - e ≤ d) →
      ∃ N, (moveStack rules N l stack (t : Int)).Done := by
  induction t using Nat.strong_induction_on with
  | _ t iht =>
    intro d
    induction d with
    | zero =>
      intro l stack hv hsorted hle ht hgap
      cases stack with
      | nil => exact ⟨1, by rw [moveStack_nil]; simp [Result.Done]⟩
      | cons e rest =>
        have het : e ≤ t := hle e (by simp)
        have := hgap e rfl
        have heq : e = t := by omega
        subst heq
        obtain ⟨_, a1, a2, h2⟩ := moveStack_conflict rules hr 0 l e rest
        exact ⟨1, by simp [Result.Done, h2]⟩
    | succ d ihd =>
      intro l stack hv hsorted hle ht hgap
      cases stack with
      | nil => exact ⟨1, by rw [moveStack_nil]; simp [Result.Done]⟩
      | cons e rest =>
        have het : e ≤ t := hle e (by simp)
        obtain ⟨hgt, hsorted'⟩ := List.pairwise_cons.mp hsorted
        by_cases heq : e = t
        · subst heq
          obtain ⟨_, a1, a2, h2⟩ := moveStack_conflict rules hr 0 l e rest
          exact ⟨1, by simp [Result.Done, h2]⟩
        · have hlt : e < t := by omega
          have hel : e < l.length := by omega
          obtain ⟨a, ha⟩ : ∃ a, l[e]? = some a := ⟨l[e], List.getElem?_eq_getElem hel⟩
          rcases free_or_bound rules l e t a with hfree | ⟨k, c, hs, hk, hc, hst⟩
          · apply moveStack_terminates_move rules hr l e t rest a ha hlt ht hv hfree
            have hv' := moved_noViolation rules l e t a ha hlt hv hfree
            have hlen := moved_length l e t a hlt ht
            apply iht (t - 1) (by omega) (t - 1) (moved l e t a) rest hv' hsorted'
            · intro e' he'
              have := hgt e' he'
              omega
            · rw [hlen]; omega
            · intro e' _
              omega
          · have hsorted2 : ((e + k + 1) :: e :: rest).Pairwise (· > ·) := by
              rw [List.pairwise_cons]
              refine ⟨?_, hsorted⟩
              intro e' he'
              rcases List.mem_cons.mp he' with rfl | he'
              · omega
              · have := hgt e' he'
                omega
            have hle2 : ∀ e' ∈ ((e + k + 1) :: e :: rest), e' ≤ t := by
              intro e' he'
              rcases List.mem_cons.mp he' with rfl | he'
              · omega
              · exact hle e' he'
            have hgap2 : ∀ e', ((e + k + 1) :: e :: rest).head? = some e' → t - e' ≤ d := by
              intro e' he'
              simp only [List.head?_cons, Option.some.injEq] at he'
              have := hgap e rfl
              omega
            obtain ⟨N, hN⟩ := ihd l ((e + k + 1) :: e :: rest) hv hsorted2 hle2 ht hgap2
            refine ⟨N + 1, ?_⟩
            rw [moveStack_push rules hr N l e t rest a ha hlt k hs hk]
            exact hN

/-! ## The enforcement loop under the invariant -/

theorem applyRuleLoop_safe (rules : PositionRules α) (hr : rules.Readable) (x y : α) :
    ∀ (fuel : Nat) (l : List α) (first : Bool),
      NoViolation rules l → (first = false → y ∈ l) →
      NoViolation rules (applyRuleLoop rules x y fuel l first).list ∧
      (applyRuleLoop rules x y fuel l first).status ≠ .typeError := by
  intro fuel
  induction fuel with
  | zero => intro l first hv _; simp [applyRuleLoop, hv]
  | succ n ih =>
    intro l first hv hy
    rw [applyRuleLoop]
    cases hxi : lastIndexOf l x with
    | none => simp [hv]
    | some xi =>
      cases hyi : indexOf l y with
      | none =>
        have hny := (indexOf_eq_none l y).mp hyi
        cases first with
        | true => simp [hv]
        | false => exact absurd (hy rfl) hny
      | some yi =>
        simp only
        by_cases hgt : xi > yi
        · simp only [hgt, if_true]
          have hxl : xi < l.length :=
            (List.getElem?_eq_some.mp ((lastIndexOf_eq_some l x xi).mp hxi).1).1
          obtain ⟨H1, H2, _⟩ := moveStack_safe rules hr n l [yi] xi hv (by simp)
            (by intro e he; simp only [List.mem_singleton] at he; omega) hxl
          by_cases hok : (moveStack rules n l [yi] (xi : Int)).status = .ok
          · rw [andThen_of_ok hok]
            apply ih _ false H1
            intro _
            have hperm := (engine_perm rules n).2.2 l [yi] (xi : Int)
            apply hperm.symm.subset
            exact List.mem_iff_getElem?.mpr ⟨yi, ((indexOf_eq_some l y yi).mp hyi).1⟩
          · rw [andThen_of_not_ok hok]
            exact ⟨H1, H2⟩
        · simp [hgt, hv]

theorem applyRuleLoop_terminates (rules : PositionRules α) (hr : rules.Readable) (x y : α) (hxy : x ≠ y) :
    ∀ (m : Nat) (l : List α) (first : Bool),
      NoViolation rules l → (∀ xi, lastIndexOf l x = some xi → xi ≤ m) →
      ∃ N, (applyRuleLoop rules x y N l first).Done := by
  intro m
  induction m with
  | zero =>
    intro l first hv hm
    refine ⟨1, ?_⟩
    rw [applyRuleLoop]
    cases hxi : lastIndexOf l x with
    | none => simp [Result.Done]
    | some xi =>
      have := hm xi hxi
      cases hyi : indexOf l y with
      | none => cases first <;> simp [Result.Done]
      | some yi =>
        have hgt : ¬ xi > yi := by omega
        simp [hgt, Result.Done]
  | succ m ih =>
    intro l first hv hm
    cases hxi : lastIndexOf l x with
    | none => exact ⟨1, by rw [applyRuleLoop]; simp [hxi, Result.Done]⟩
    | some xi =>
      cases hyi : indexOf l y with
      | none =>
        exact ⟨1, by rw [applyRuleLoop]; cases first <;> simp [hxi, hyi, Result.Done]⟩
      | some yi =>
        by_cases hgt : xi > yi
        · have hxg := (lastIndexOf_eq_some l x xi).mp hxi
          have hyg := (indexOf_eq_some l y yi).mp hyi
          have hxl : xi < l.length := (List.getElem?_eq_some.mp hxg.1).1
          have hsorted : [yi].Pairwise (· > ·) := by simp
          have hle : ∀ e ∈ [yi], e ≤ xi := by
            intro e he; simp only [List.mem_singleton] at he; omega
          obtain ⟨N1, hN1⟩ := moveStack_terminates rules hr xi xi l [yi] hv hsorted hle hxl
            (by intro e _; omega)
          by_cases hok : (moveStack rules N1 l [yi] (xi : Int)).status = .ok
          · obtain ⟨H1, _, H3⟩ := moveStack_safe rules hr N1 l [yi] xi hv hsorted hle hxl
            obtain ⟨_, P3⟩ := H3 hok
            obtain ⟨t', ht', hl'⟩ := P3 x (by simp) hxg.1
              (not_mem_drop_of_lastIndexOf l x xi hxi)
              (by
                intro e he
                simp only [List.mem_singleton] at he
                subst he
                rw [hyg.1]
                intro hc
                exact hxy (Option.some.inj hc).symm)
            have hm' : ∀ xi', lastIndexOf (moveStack rules N1 l [yi] (xi : Int)).list x
                = some xi' → xi' ≤ m := by
              intro xi' hxi'
              rw [hl'] at hxi'
              have := Option.some.inj hxi'
              have := hm xi hxi
              omega
            obtain ⟨N2, hN2⟩ := ih _ false H1 hm'
            refine ⟨max N1 N2 + 1, ?_⟩
            rw [applyRuleLoop]
            simp only [hxi, hyi, hgt, if_true]
            rw [moveStack_done_of_le rules l [yi] _ N1 _ (by omega) hN1]
            rw [andThen_of_ok hok]
            rw [applyRuleLoop_done_of_le rules x y _ false N2 _ (by omega) hN2]
            exact hN2
          · refine ⟨N1 + 1, ?_⟩
            rw [applyRuleLoop]
            simp only [hxi, hyi, hgt, if_true]
            rw [andThen_of_not_ok hok]
            exact hN1
        · exact ⟨1, by rw [applyRuleLoop]; simp [hxi, hyi, hgt, Result.Done]⟩

theorem applyRuleLoop_precedes (rules : PositionRules α) (x y : α) (hxy : x ≠ y) (fuel : Nat)
    (l : List α) (first : Bool) (hret : (applyRuleLoop rules x y fuel l first).status = .ok) :
    Precedes (applyRuleLoop rules x y fuel l first).list x y := by
  rw [precedes_iff_indexOf]
  intro xi yi hx hy
  have hle := applyRuleLoop_exit rules x y fuel l first hret xi yi hx hy
  have h1 := ((lastIndexOf_eq_some _ x xi).mp hx).1
  have h2 := ((indexOf_eq_some _ y yi).mp hy).1
  have hne : xi ≠ yi := by
    intro he
    rw [he, h2] at h1
    exact hxy (Option.some.inj h1).symm
  omega

/-- Under the invariant the enforcement of a rule between distinct items ends,
by a normal return or by `ConflictingRulesError`, and more fuel does not change
the result. -/
theorem applyRuleLoop_outcome (rules : PositionRules α) (hr : rules.Readable) (x y : α) (hxy : x ≠ y) (l : List α)
    (hv : NoViolation rules l) :
    ∃ N, ∀ fuel, N ≤ fuel →
      applyRuleLoop rules x y fuel l true = applyRuleLoop rules x y N l true ∧
      ((applyRuleLoop rules x y fuel l true).Returned ∨
        (applyRuleLoop rules x y fuel l true).Conflict) := by
  obtain ⟨N, hN⟩ := applyRuleLoop_terminates rules hr x y hxy l.length l true hv (by
    intro xi hxi
    have := (List.getElem?_eq_some.mp ((lastIndexOf_eq_some l x xi).mp hxi).1).1
    omega)
  refine ⟨N, ?_⟩
  intro fuel hfuel
  have heq := applyRuleLoop_done_of_le rules x y l true N fuel hfuel hN
  refine ⟨heq, ?_⟩
  rw [heq]
  have hte := (applyRuleLoop_safe rules hr x y N l true hv (by simp)).2
  unfold Result.Done at hN
  unfold Result.Returned Result.Conflict
  cases hs : (applyRuleLoop rules x y N l true).status with
  | ok => exact Or.inl rfl
  | conflict a b => exact Or.inr ⟨a, b, rfl⟩
  | typeError => exact absurd hs hte
  | outOfFuel => exact absurd hs hN

/-! ## Chains of stored rules -/

theorem precedes_trans (l : List α) (a b c : α) (hb : b ∈ l) (h1 : Precedes l a b)
    (h2 : Precedes l b c) : Precedes l a c := by
  rw [precedes_iff] at h1 h2 ⊢
  intro i j hi hj
  obtain ⟨k, hk⟩ := List.mem_iff_getElem?.mp hb
  have := h1 i k hi hk
  have := h2 k j hk hj
  omega

theorem chain_precedes (rules : PositionRules α) (l : List α) (hall : AllRulesHold rules l)
    (a b : α) (h : Relation.TransGen (Link rules l) a b) : Precedes l a b ∧ b ∈ l := by
  induction h with
  | single h1 =>
    obtain ⟨hst, ha, hb⟩ := h1
    exact ⟨hall _ ha _ hb hst, hb⟩
  | tail _ h2 ih =>
    obtain ⟨hst, hb, hc⟩ := h2
    exact ⟨precedes_trans l _ _ _ hb ih.1 (hall _ hb _ hc hst), hc⟩

theorem link_of_perm (rules : PositionRules α) (l l' : List α) (hp : l'.Perm l) (a b : α)
    (h : Link rules l a b) : Link rules l' a b :=
  ⟨h.1, hp.symm.subset h.2.1, hp.symm.subset h.2.2⟩

/-! ## A rule enforced by a single move -/

/-- Above the target index a move changes nothing. -/
theorem moved_getElem?_above (l : List α) (e t : Nat) (a : α) (j : Nat) (het : e < t)
    (ht : t < l.length) (hj : t < j) : (moved l e t a)[j]? = l[j]? := by
  have h1 : ((moved l e t a).drop t)[j - t]? = (moved l e t a)[j]? := by
    rw [List.getElem?_drop]
    congr 1
    omega
  rw [← h1, moved_drop l e t a het ht]
  have h2 : j - t = (j - t - 1) + 1 := by omega
  rw [h2, List.getElem?_cons_succ, List.getElem?_drop]
  congr 1
  omega

/-- Where an item other than the moved one stands after a move, in terms of
where it stood before. -/
theorem moved_getElem?_origin (l : List α) (e t : Nat) (a : α) (j : Nat) (b : α)
    (het : e < t) (ht : t < l.length) (hjt : j ≠ t) (hb : (moved l e t a)[j]? = some b) :
    ∃ i, l[i]? = some b ∧ i ≠ e ∧ (j < t → i ≤ t) := by
  by_cases h1 : j < e
  · rw [moved_getElem?_below l e t a j h1 ht het] at hb
    exact ⟨j, hb, by omega, by omega⟩
  · by_cases h2 : j < t
    · rw [moved_getElem?_between l e t a j (by omega) h2 ht] at hb
      exact ⟨j + 1, hb, by omega, by omega⟩
    · rw [moved_getElem?_above l e t a j het ht (by omega)] at hb
      exact ⟨j, hb, by omega, by omega⟩

theorem applyRuleLoop_single_move (rules : PositionRules α) (hr : rules.Readable) (x y : α) (hxy : x ≠ y)
    (l : List α) (p t : Nat) (hy : l[p]? = some y) (huniq : ∀ j, l[j]? = some y → j = p)
    (hx : lastIndexOf l x = some t) (hpt : p < t)
    (hfree : ∀ j, j ≤ t → ∀ b, l[j]? = some b → ¬ Stored rules y b) :
    applyRuleLoop rules x y ((rules.rightBounds y).length + 3) l true
      = ⟨moved l p t y, .ok⟩ := by
  have hxg := (lastIndexOf_eq_some l x t).mp hx
  have ht : t < l.length := (List.getElem?_eq_some.mp hxg.1).1
  have hyi : indexOf l y = some p := by
    rw [indexOf_eq_some]
    refine ⟨hy, ?_⟩
    intro j hj hc
    have := huniq j hc
    omega
  have hfree' : ∀ b ∈ (l.drop (p + 1)).take (t - p), ¬ Stored rules y b := by
    intro b hb
    obtain ⟨j, hj⟩ := List.mem_iff_getElem?.mp hb
    rw [List.getElem?_take] at hj
    by_cases hjt : j < t - p
    · simp only [hjt, if_true] at hj
      rw [List.getElem?_drop] at hj
      exact hfree (p + 1 + j) (by omega) b hj
    · simp [hjt] at hj
  -- the array after the move
  have hnew := moved_getElem?_new l p t y hpt ht
  have hyonly : ∀ j, (moved l p t y)[j]? = some y → j = t := by
    intro j hj
    by_contra hne
    obtain ⟨i, hi, hip, _⟩ := moved_getElem?_origin l p t y j y hpt ht hne hj
    exact hip (huniq i hi)
  have hylast : lastIndexOf (moved l p t y) y = some t := by
    rw [lastIndexOf_eq_some]
    refine ⟨hnew, ?_⟩
    intro j hj hc
    have := hyonly j hc
    omega
  have hyfirst : indexOf (moved l p t y) y = some t := by
    rw [indexOf_eq_some]
    refine ⟨hnew, ?_⟩
    intro j hj hc
    have := hyonly j hc
    omega
  have hxlast : lastIndexOf (moved l p t y) x = some (t - 1) := by
    apply lastIndexOf_of_drop
    · rw [moved_getElem?_target l p t y hpt ht]
      exact hxg.1
    · have : t - 1 + 1 = t := by omega
      rw [this, moved_drop l p t y hpt ht]
      simp only [List.mem_cons, not_or]
      exact ⟨hxy, not_mem_drop_of_lastIndexOf l x t hx⟩
  have hbounds : ∀ b ∈ rules.rightBounds y, ∀ xi yi,
      lastIndexOf (moved l p t y) y = some xi → indexOf (moved l p t y) b = some yi →
      xi ≤ yi := by
    intro b hb xi yi hxi hyi'
    rw [hylast] at hxi
    have hxt : t = xi := Option.some.inj hxi
    subst hxt
    by_contra hlt
    have hb' := ((indexOf_eq_some _ b yi).mp hyi').1
    obtain ⟨i, hi, _, hit⟩ := moved_getElem?_origin l p t y yi b hpt ht (by omega) hb'
    exact hfree i (hit (by omega)) b hi hb
  -- unfold the calls
  have hgt : t > p := hpt
  rw [applyRuleLoop]
  simp only [hx, hyi, hgt, if_true]
  rw [moveStack_move rules hr _ l p t [] y hy hpt ht hfree']
  rw [forEachRightBound_noop_of rules y (moved l p t y) _ _ hbounds]
  have hlt : (rules.rightBounds y).length
      < (rules.rightBounds y).length + 1 := by omega
  simp only [hlt, if_true]
  have hinner : (({ list := moved l p t y, status := Status.ok } : Result α).andThen
      fun list3 => moveStack rules ((rules.rightBounds y).length + 1) list3 []
        ((t - 1 : Nat) : Int)) = ⟨moved l p t y, .ok⟩ := by
    rw [andThen_of_ok rfl, moveStack_nil]
  rw [hinner, andThen_of_ok rfl]
  try simp only
  rw [applyRuleLoop]
  have hng : ¬ (t - 1 > t) := by omega
  simp only [hxlast, hyfirst, hng, if_false]

/-! ## An index whose getters throw -/

theorem andThen_list_of (P : List α → Prop) {r : Result α} {k : List α → Result α}
    (hr : P r.list) (hk : P r.list → P (k r.list).list) : P (r.andThen k).list := by
  by_cases hs : r.status = .ok
  · rw [andThen_of_ok hs]
    exact hk hr
  · rw [andThen_of_not_ok hs]
    exact hr

theorem andThen_conflict {r : Result α} {k : List α → Result α}
    (h : (r.andThen k).Conflict) : r.Conflict ∨ (r.status = .ok ∧ (k r.list).Conflict) := by
  by_cases hs : r.status = .ok
  · rw [andThen_of_ok hs] at h
    exact Or.inr ⟨hs, h⟩
  · rw [andThen_of_not_ok hs] at h
    exact Or.inl h

theorem limits_nil (rules : PositionRules α) :
    calculateLeftRightMovementLimits ([] : List α) rules = some [] := rfl

/-- When a getter of the index throws, `_moveStackToRightOfTarget` moves
nothing: on an array with items it ends in the `TypeError` of
`calculateLeftRightMovementLimits`. -/
theorem moveStack_not_readable (rules : PositionRules α) (hr : ¬ rules.Readable) (fuel : Nat)
    (l : List α) (stack : List Nat) (t : Int) :
    (moveStack rules fuel l stack t).list = l ∧
    (l ≠ [] → ¬ (moveStack rules fuel l stack t).Conflict) ∧
    (l ≠ [] → stack ≠ [] → (moveStack rules fuel l stack t).status ≠ .ok) := by
  cases fuel with
  | zero => simp [moveStack, Result.Conflict]
  | succ n =>
    cases stack with
    | nil => simp [moveStack, Result.Conflict]
    | cons e rest =>
      by_cases hl : l = []
      · subst hl
        refine ⟨?_, fun h => absurd rfl h, fun h => absurd rfl h⟩
        rw [moveStack, limits_nil]
        simp only
        split
        · rfl
        · simp [_canMoveXAfterY]
      · rw [moveStack, limits_of_not_readable rules hr l hl]
        simp [Result.Conflict]

theorem applyRuleLoop_not_readable (rules : PositionRules α) (hr : ¬ rules.Readable) (x y : α)
    (fuel : Nat) (l : List α) (first : Bool) :
    (applyRuleLoop rules x y fuel l first).list = l ∧
    ¬ (applyRuleLoop rules x y fuel l first).Conflict := by
  cases fuel with
  | zero => simp [applyRuleLoop, Result.Conflict]
  | succ n =>
    rw [applyRuleLoop]
    split
    · rename_i xi yi hxi hyi
      split
      · have hxl := ((lastIndexOf_eq_some l x xi).mp hxi).1
        have hl : l ≠ [] := by
          intro hc
          subst hc
          simp at hxl
        obtain ⟨h1, h2, h3⟩ := moveStack_not_readable rules hr n l [yi] (xi : Int)
        rw [andThen_of_not_ok (h3 hl (by simp))]
        exact ⟨h1, h2 hl⟩
      · simp [Result.Conflict]
    · simp [Result.Conflict]
    · split <;> simp [Result.Conflict]

theorem forEachRightBound_not_readable (rules : PositionRules α) (hr : ¬ rules.Readable)
    (item : α) : ∀ (fuel : Nat) (l bounds : List α),
      (forEachRightBound rules item fuel l bounds).list = l := by
  intro fuel
  induction fuel with
  | zero => intro l bounds; simp [forEachRightBound]
  | succ n ih =>
    intro l bounds
    cases bounds with
    | nil => simp [forEachRightBound]
    | cons rb rest =>
      rw [forEachRightBound]
      refine andThen_list_of (fun l1 => l1 = l)
        (applyRuleLoop_not_readable rules hr item rb n l true).1 ?_
      intro h1
      rw [ih, h1]

/-- The invariant "no stored rule is violated" is kept by
`_applyRuleXBeforeY`, however the call ends and whatever the index is. -/
theorem applyRuleLoop_keeps_invariant (rules : PositionRules α) (x y : α) (fuel : Nat)
    (l : List α) (hv : NoViolation rules l) :
    NoViolation rules (applyRuleLoop rules x y fuel l true).list := by
  by_cases hr : rules.Readable
  · exact (applyRuleLoop_safe rules hr x y fuel l true hv (by simp)).1
  · rw [(applyRuleLoop_not_readable rules hr x y fuel l true).1]
    exact hv

/-- For distinct items in an array where no stored rule is violated, the call
of `_applyRuleXBeforeY` ends from some depth of calls on, with an outcome that
no longer depends on the depth; when the getters can be called it returns
normally or raises `ConflictingRulesError`. -/
theorem applyRuleLoop_terminates_total (rules : PositionRules α) (x y : α) (hxy : x ≠ y)
    (l : List α) (hv : NoViolation rules l) :
    ∃ N, ∀ fuel, N ≤ fuel →
      applyRuleLoop rules x y fuel l true = applyRuleLoop rules x y N l true ∧
      (applyRuleLoop rules x y fuel l true).status ≠ .outOfFuel ∧
      (rules.Readable →
        (applyRuleLoop rules x y fuel l true).Returned ∨
        (applyRuleLoop rules x y fuel l true).Conflict) := by
  by_cases hr : rules.Readable
  · obtain ⟨N, hN⟩ := applyRuleLoop_outcome rules hr x y hxy l hv
    refine ⟨N, ?_⟩
    intro fuel hfuel
    obtain ⟨heq, hout⟩ := hN fuel hfuel
    refine ⟨heq, ?_, fun _ => hout⟩
    rcases hout with h | ⟨a, b, h⟩
    · rw [h]; simp
    · rw [h]; simp
  · have hdone : (applyRuleLoop rules x y 2 l true).Done := by
      unfold Result.Done
      rw [applyRuleLoop]
      split
      · rename_i xi yi hxi hyi
        split
        · have hxl := ((lastIndexOf_eq_some l x xi).mp hxi).1
          have hl : l ≠ [] := by
            intro hc
            subst hc
            simp at hxl
          rw [moveStack, limits_of_not_readable rules hr l hl]
          simp [Result.andThen]
        · simp
      · simp
      · simp
    refine ⟨2, ?_⟩
    intro fuel hfuel
    obtain ⟨k, rfl⟩ := Nat.exists_eq_add_of_le hfuel
    have heq := applyRuleLoop_fuel_mono rules x y l true 2 k hdone
    refine ⟨heq, ?_, fun h => absurd h hr⟩
    rw [heq]
    exact hdone

open SuspendedList

/-! ## The public methods in terms of the engine -/

theorem addRuleXBeforeY_list (fuel : Nat) (s : SuspendedList α) (x y : α) :
    (addRuleXBeforeY fuel s x y).state._list = (applyRuleLoop s._rules x y fuel s._list true).list := by
  unfold addRuleXBeforeY _applyRuleXBeforeY afterRules
  simp only
  cases h : (applyRuleLoop s._rules x y fuel s._list true).status <;> simp

theorem addRuleXBeforeY_rules_of_ok (fuel : Nat) (s : SuspendedList α) (x y : α)
    (h : (applyRuleLoop s._rules x y fuel s._list true).status = .ok) :
    addRuleXBeforeY fuel s x y =
      afterRules { s with _list := (applyRuleLoop s._rules x y fuel s._list true).list }
        (s._rules.addRule x y) := by
  unfold addRuleXBeforeY _applyRuleXBeforeY
  simp only [h]

/-- When `_applyRuleXBeforeY` does not return, `addRuleXBeforeY` ends the same
way and `addRule` is not called. -/
theorem addRuleXBeforeY_of_not_ok (fuel : Nat) (s : SuspendedList α) (x y : α)
    (h : (applyRuleLoop s._rules x y fuel s._list true).status ≠ .ok) :
    addRuleXBeforeY fuel s x y =
      ⟨{ s with _list := (applyRuleLoop s._rules x y fuel s._list true).list },
        (applyRuleLoop s._rules x y fuel s._list true).status⟩ := by
  unfold addRuleXBeforeY _applyRuleXBeforeY
  cases hs : (applyRuleLoop s._rules x y fuel s._list true).status with
  | ok => exact absurd hs h
  | conflict a b => simp only [hs]
  | typeError => simp only [hs]
  | outOfFuel => simp only [hs]

theorem afterRules_status (s : SuspendedList α) (o : RulesOutcome α) :
    (afterRules s o).status = .ok ∨ (afterRules s o).status = .typeError := by
  unfold afterRules
  cases o.threw <;> simp

theorem addRuleXBeforeY_status (fuel : Nat) (s : SuspendedList α) (x y : α)
    (h : (addRuleXBeforeY fuel s x y).status ≠ .typeError) :
    (addRuleXBeforeY fuel s x y).status =
      (applyRuleLoop s._rules x y fuel s._list true).status := by
  by_cases hs : (applyRuleLoop s._rules x y fuel s._list true).status = .ok
  · rw [addRuleXBeforeY_rules_of_ok fuel s x y hs] at h ⊢
    rcases afterRules_status _ (s._rules.addRule x y) with h1 | h1
    · rw [h1, hs]
    · exact absurd h1 h
  · rw [addRuleXBeforeY_of_not_ok fuel s x y hs]

theorem addRuleXBeforeY_outOfFuel (fuel : Nat) (s : SuspendedList α) (x y : α) :
    (addRuleXBeforeY fuel s x y).status = .outOfFuel ↔
      (applyRuleLoop s._rules x y fuel s._list true).status = .outOfFuel := by
  by_cases hs : (applyRuleLoop s._rules x y fuel s._list true).status = .ok
  · rw [addRuleXBeforeY_rules_of_ok fuel s x y hs, hs]
    rcases afterRules_status { s with _list := (applyRuleLoop s._rules x y fuel s._list true).list }
      (s._rules.addRule x y) with h1 | h1
    · rw [h1]
    · rw [h1]; simp
  · rw [addRuleXBeforeY_of_not_ok fuel s x y hs]

theorem addRuleXBeforeY_conflict (fuel : Nat) (s : SuspendedList α) (x y : α) :
    (∃ xString yString, (addRuleXBeforeY fuel s x y).status = .conflict xString yString) ↔
      (applyRuleLoop s._rules x y fuel s._list true).Conflict := by
  unfold Result.Conflict
  by_cases hs : (applyRuleLoop s._rules x y fuel s._list true).status = .ok
  · rw [addRuleXBeforeY_rules_of_ok fuel s x y hs, hs]
    rcases afterRules_status { s with _list := (applyRuleLoop s._rules x y fuel s._list true).list }
      (s._rules.addRule x y) with h1 | h1
    · rw [h1]
    · rw [h1]; simp
  · rw [addRuleXBeforeY_of_not_ok fuel s x y hs]

theorem addRuleXBeforeY_engine_ok (fuel : Nat) (s : SuspendedList α) (x y : α)
    (h : (addRuleXBeforeY fuel s x y).status = .ok) :
    (applyRuleLoop s._rules x y fuel s._list true).status = .ok := by
  rw [← addRuleXBeforeY_status fuel s x y (by rw [h]; simp)]
  exact h

theorem addRuleXBeforeY_fuel_mono (fuel extra : Nat) (s : SuspendedList α) (x y : α)
    (h : (addRuleXBeforeY fuel s x y).status ≠ .outOfFuel) :
    addRuleXBeforeY (fuel + extra) s x y = addRuleXBeforeY fuel s x y := by
  rw [Ne, addRuleXBeforeY_outOfFuel] at h
  unfold addRuleXBeforeY _applyRuleXBeforeY
  rw [applyRuleLoop_fuel_mono _ _ _ _ _ _ _ h]

theorem pushRight_fuel_mono (fuel extra : Nat) (s : SuspendedList α) (item : α)
    (h : (pushRight fuel s item).status ≠ .outOfFuel) :
    pushRight (fuel + extra) s item = pushRight fuel s item := by
  unfold pushRight applyAfterInsertion _applyRulesForItem at h ⊢
  cases hb : s._rules.getRightBoundsForItem item with
  | none => rfl
  | some bounds =>
    simp only [hb] at h ⊢
    rw [forEachRightBound_fuel_mono _ _ _ _ _ _ h]

theorem abcde_fuel_mono (extra : Nat) : abcde (1 + extra) = abcde 1 := by
  unfold abcde
  simp only
  rw [pushRight_fuel_mono 1 extra _ "a" (by decide)]
  rw [pushRight_fuel_mono 1 extra _ "b" (by decide)]
  rw [pushRight_fuel_mono 1 extra _ "c" (by decide)]
  rw [pushRight_fuel_mono 1 extra _ "d" (by decide)]
  rw [pushRight_fuel_mono 1 extra _ "e" (by decide)]

/-! ## Claims -/

/-- C1, amended to distinct items: whenever `addRuleXBeforeY(x, y)` with
`x ≠ y` returns normally, every occurrence of `x` in the resulting array is
at a smaller index than every occurrence of `y`.  The model compares the
items themselves, as the code does, so this covers the identity key function
of the claim. -/
theorem addRuleXBeforeY_orders_distinct_items (fuel : Nat) (s : SuspendedList α) (x y : α)
    (hxy : x ≠ y) (hret : (addRuleXBeforeY fuel s x y).status = .ok) :
    Precedes (addRuleXBeforeY fuel s x y).state._list x y := by
  have hret1 := addRuleXBeforeY_engine_ok fuel s x y hret
  rw [addRuleXBeforeY_list]
  exact applyRuleLoop_precedes s._rules x y hxy fuel s._list true hret1

/-- Witness for C1: on `[b, a]` the call `addRuleXBeforeY(a, b)` returns and
leaves `a` before `b`. -/
theorem addRuleXBeforeY_orders_distinct_items_witness :
    ("a" : String) ≠ "b" ∧
    (addRuleXBeforeY 3 (pushRight 1 (pushRight 1 (SuspendedList.new identity) "b").state "a").state
      "a" "b").status = .ok ∧
    Precedes (addRuleXBeforeY 3
      (pushRight 1 (pushRight 1 (SuspendedList.new identity) "b").state "a").state
      "a" "b").state._list "a" "b" :=
  ⟨by decide, by decide,
    addRuleXBeforeY_orders_distinct_items 3 _ "a" "b" (by decide) (by decide)⟩

/-- C1 as stated fails when the two items are the same: on `[a]` the call
`addRuleXBeforeY(a, a)` returns normally, and the only occurrence of `a` is
not at a smaller index than itself. -/
theorem addRuleXBeforeY_same_item_not_ordered :
    (addRuleXBeforeY 1 (pushRight 1 (SuspendedList.new identity) "a").state "a" "a").status = .ok ∧
    (addRuleXBeforeY 1 (pushRight 1 (SuspendedList.new identity) "a").state "a" "a").state._list
      = ["a"] ∧
    ¬ Precedes (addRuleXBeforeY 1 (pushRight 1 (SuspendedList.new identity) "a").state
      "a" "a").state._list "a" "a" := by
  decide

/-- C2 (the code breaks the invariant): after `addRuleXBeforeY(a, b)` on a new
list, `pushRight(a)` and `pushLeft(b)` all return normally, the array is
`[b, a]` while the rule "`a` before `b`" is stored: `_applyRulesForItem`
enforces only the rules in which the inserted item is the predecessor. -/
theorem pushLeft_of_successor_breaks_stored_rule :
    (addRuleXBeforeY 5 (SuspendedList.new identity) "a" "b").status = .ok ∧
    (pushRight 5 (addRuleXBeforeY 5 (SuspendedList.new identity) "a" "b").state "a").status = .ok ∧
    (pushLeft 5 (pushRight 5
      (addRuleXBeforeY 5 (SuspendedList.new identity) "a" "b").state "a").state "b").status = .ok ∧
    (pushLeft 5 (pushRight 5
      (addRuleXBeforeY 5 (SuspendedList.new identity) "a" "b").state "a").state "b").state._list
      = ["b", "a"] ∧
    Stored (pushLeft 5 (pushRight 5
      (addRuleXBeforeY 5 (SuspendedList.new identity) "a" "b").state "a").state "b").state._rules
      "a" "b" ∧
    ¬ AllRulesHold
      (pushLeft 5 (pushRight 5
        (addRuleXBeforeY 5 (SuspendedList.new identity) "a" "b").state "a").state "b").state._rules
      (pushLeft 5 (pushRight 5
        (addRuleXBeforeY 5 (SuspendedList.new identity) "a" "b").state "a").state "b").state._list := by
  decide

/-- C3 (the code does not terminate): on `[a, a]` with no rules the loop of
`addRuleXBeforeY(a, a)` never ends.  Each iteration moves the first `a` behind
the last one and finds the same array again, so no depth of calls suffices. -/
theorem addRuleXBeforeY_same_item_never_finishes :
    ¬ ∃ fuel, (addRuleXBeforeY fuel
        (pushRight 1 (pushRight 1 (SuspendedList.new identity) "a").state "a").state
        "a" "a").status ≠ .outOfFuel := by
  have key : ∀ (fuel : Nat) (first : Bool),
      applyRuleLoop (PositionRules.new identity) "a" "a" fuel ["a", "a"] first
        = ⟨["a", "a"], .outOfFuel⟩ := by
    intro fuel
    induction fuel with
    | zero => intro first; rfl
    | succ n ih =>
      intro first
      have hx : lastIndexOf ["a", "a"] "a" = some 1 := by decide
      have hy : indexOf ["a", "a"] "a" = some 0 := by decide
      rw [applyRuleLoop]
      simp only [hx, hy]
      have hgt : (1 : Nat) > 0 := by decide
      simp only [hgt, if_true]
      match n, ih with
      | 0, _ => rfl
      | 1, _ => rfl
      | m + 2, ih =>
        have hm : moveStack (PositionRules.new identity) (m + 2) ["a", "a"] [0] ((1 : Nat) : Int)
            = ⟨["a", "a"], .ok⟩ := rfl
        rw [hm, andThen_of_ok rfl]
        exact ih false
  rintro ⟨fuel, h⟩
  apply h
  rw [addRuleXBeforeY_outOfFuel]
  have hs : (pushRight 1 (pushRight 1 (SuspendedList.new identity) "a").state "a").state._list
      = ["a", "a"] := by decide
  have hr : (pushRight 1 (pushRight 1 (SuspendedList.new (identity : String → String)) "a").state
      "a").state._rules = PositionRules.new identity := rfl
  rw [hs, hr, key]

/-- C5 as stated fails: on `[a, b, c, d]` with the rules `a` before `b`, `a`
before `c` and `c` before `d`, the call `addRuleXBeforeY(d, a)` raises
`ConflictingRulesError` after `b` has been moved behind `d`, and leaves
`[a, c, d, b]`. -/
theorem addRuleXBeforeY_conflict_after_a_move :
    (addRuleXBeforeY 2 (addRuleXBeforeY 2 (addRuleXBeforeY 2 (pushRight 1 (pushRight 1
      (pushRight 1 (pushRight 1 (SuspendedList.new identity) "a").state "b").state "c").state
      "d").state "a" "b").state "a" "c").state "c" "d").state._list = ["a", "b", "c", "d"] ∧
    (addRuleXBeforeY 6 (addRuleXBeforeY 2 (addRuleXBeforeY 2 (addRuleXBeforeY 2 (pushRight 1
      (pushRight 1 (pushRight 1 (pushRight 1 (SuspendedList.new identity) "a").state "b").state
      "c").state "d").state "a" "b").state "a" "c").state "c" "d").state "d" "a").status
      = .conflict (some "c") (some "d") ∧
    (addRuleXBeforeY 6 (addRuleXBeforeY 2 (addRuleXBeforeY 2 (addRuleXBeforeY 2 (pushRight 1
      (pushRight 1 (pushRight 1 (pushRight 1 (SuspendedList.new identity) "a").state "b").state
      "c").state "d").state "a" "b").state "a" "c").state "c" "d").state "d" "a").state._list
      = ["a", "c", "d", "b"] := by
  decide

/-- C6: from `[a, b, c, d, e]` built by `pushRight`, the calls
`addRuleXBeforeY(b, c)`, `addRuleXBeforeY(c, d)` and `addRuleXBeforeY(e, b)`
all return normally, with any depth of calls from 8 on, and leave
`[a, e, b, c, d]`. -/
theorem rearrangement_example_e_before_b (n : Nat) :
    (abcde (1 + n))._list = ["a", "b", "c", "d", "e"] ∧
    (addRuleXBeforeY (8 + n) (abcde (1 + n)) "b" "c").status = .ok ∧
    (addRuleXBeforeY (8 + n) (addRuleXBeforeY (8 + n) (abcde (1 + n)) "b" "c").state
      "c" "d").status = .ok ∧
    (addRuleXBeforeY (8 + n) (addRuleXBeforeY (8 + n) (addRuleXBeforeY (8 + n) (abcde (1 + n))
      "b" "c").state "c" "d").state "e" "b").status = .ok ∧
    (addRuleXBeforeY (8 + n) (addRuleXBeforeY (8 + n) (addRuleXBeforeY (8 + n) (abcde (1 + n))
      "b" "c").state "c" "d").state "e" "b").state._list = ["a", "e", "b", "c", "d"] := by
  rw [abcde_fuel_mono]
  rw [addRuleXBeforeY_fuel_mono 8 n (abcde 1) "b" "c" (by decide)]
  rw [addRuleXBeforeY_fuel_mono 8 n _ "c" "d" (by decide)]
  rw [addRuleXBeforeY_fuel_mono 8 n _ "e" "b" (by decide)]
  decide

/-- C7: from `[a, b, c, d, e]` built by `pushRight`, the calls
`addRuleXBeforeY(a, c)`, `addRuleXBeforeY(c, d)` and `addRuleXBeforeY(e, a)`
all return normally, with any depth of calls from 8 on, and leave
`[b, e, a, c, d]`: `c` and `d` are carried across `e` with `a`, and `b`
stays behind. -/
theorem cascading_example_e_before_a (n : Nat) :
    (abcde (1 + n))._list = ["a", "b", "c", "d", "e"] ∧
    (addRuleXBeforeY (8 + n) (abcde (1 + n)) "a" "c").status = .ok ∧
    (addRuleXBeforeY (8 + n) (addRuleXBeforeY (8 + n) (abcde (1 + n)) "a" "c").state
      "c" "d").status = .ok ∧
    (addRuleXBeforeY (8 + n) (addRuleXBeforeY (8 + n) (addRuleXBeforeY (8 + n) (abcde (1 + n))
      "a" "c").state "c" "d").state "e" "a").status = .ok ∧
    (addRuleXBeforeY (8 + n) (addRuleXBeforeY (8 + n) (addRuleXBeforeY (8 + n) (abcde (1 + n))
      "a" "c").state "c" "d").state "e" "a").state._list = ["b", "e", "a", "c", "d"] := by
  rw [abcde_fuel_mono]
  rw [addRuleXBeforeY_fuel_mono 8 n (abcde 1) "a" "c" (by decide)]
  rw [addRuleXBeforeY_fuel_mono 8 n _ "c" "d" (by decide)]
  rw [addRuleXBeforeY_fuel_mono 8 n _ "e" "a" (by decide)]
  decide

/-- C10: `addRuleXAfterY(x, y)` is `addRuleXBeforeY(y, x)` and
`removeRuleXAfterY(x, y)` is `removeRuleXBeforeY(y, x)`: same resulting
array, same rule index, same way of ending. -/
theorem after_is_before_swapped (fuel : Nat) (s : SuspendedList α) (x y : α) :
    addRuleXAfterY fuel s x y = addRuleXBeforeY fuel s y x ∧
    removeRuleXAfterY s x y = removeRuleXBeforeY s y x :=
  ⟨rfl, rfl⟩

/-- Outside the states in which the stored rules hold, the enforcement can
re-enter itself without end even for distinct items: on `[a, b, b]` with both
"`a` before `b`" and "`b` before `a`" stored, moving the first `b` behind the
last one calls `insert`, which applies "`b` before `a`" to the same array
again.  (In JavaScript the recursion ends in a stack overflow.) -/
theorem enforcement_recurses_forever_when_rules_are_violated :
    ∀ (fuel : Nat) (first : Bool),
      applyRuleLoop cyclicRules "b" "a" fuel ["a", "b", "b"] first
        = ⟨["a", "b", "b"], .outOfFuel⟩ := by
  have step : ∀ (j : Nat) (first : Bool),
      applyRuleLoop cyclicRules "b" "a" j ["a", "b", "b"] true = ⟨["a", "b", "b"], .outOfFuel⟩ →
      applyRuleLoop cyclicRules "b" "a" (j + 4) ["a", "b", "b"] first
        = ⟨["a", "b", "b"], .outOfFuel⟩ := by
    intro j first h
    have h1 : applyRuleLoop cyclicRules "b" "a" (j + 4) ["a", "b", "b"] first
        = (((applyRuleLoop cyclicRules "b" "a" j ["a", "b", "b"] true).andThen fun l1 =>
              forEachRightBound cyclicRules "b" j l1 []).andThen fun l3 =>
            moveStack cyclicRules (j + 1) l3 [0] ((2 : Int) - 1)).andThen fun l1 =>
          applyRuleLoop cyclicRules "b" "a" (j + 3) l1 false := rfl
    rw [h1, h]
    rfl
  intro fuel
  induction fuel using Nat.strong_induction_on with
  | _ n ih =>
    intro first
    match n, ih with
    | 0, _ => rfl
    | 1, _ => cases first <;> decide
    | 2, _ => cases first <;> decide
    | 3, _ => cases first <;> decide
    | j + 4, ih => exact step j first (ih j (by omega) true)

/-- In a state where every stored rule holds, `addRuleXBeforeY(x, y)` with
distinct items terminates: from some depth of calls on the call ends, and its
outcome no longer depends on the depth.  When the getters of the index can be
called, `_applyRuleXBeforeY` returns normally or raises
`ConflictingRulesError`. -/
theorem addRuleXBeforeY_terminates (s : SuspendedList α) (x y : α) (hxy : x ≠ y)
    (hall : AllRulesHold s._rules s._list) :
    ∃ N, ∀ fuel, N ≤ fuel →
      addRuleXBeforeY fuel s x y = addRuleXBeforeY N s x y ∧
      (addRuleXBeforeY fuel s x y).status ≠ .outOfFuel ∧
      (s._rules.Readable →
        (_applyRuleXBeforeY s._rules fuel s._list x y).Returned ∨
        (_applyRuleXBeforeY s._rules fuel s._list x y).Conflict) := by
  have hv := (allRulesHold_iff_noViolation _ _).mp hall
  obtain ⟨N, hN⟩ := applyRuleLoop_terminates_total s._rules x y hxy s._list hv
  refine ⟨N, ?_⟩
  intro fuel hfuel
  obtain ⟨heq, hdone, hout⟩ := hN fuel hfuel
  refine ⟨?_, ?_, hout⟩
  · unfold addRuleXBeforeY _applyRuleXBeforeY
    rw [heq]
  · rw [Ne, addRuleXBeforeY_outOfFuel]
    exact hdone

/-- The termination theorem applied to `[b, a]` with no rules and the new
rule "`a` before `b`". -/
theorem addRuleXBeforeY_terminates_witness :
    ("a" : String) ≠ "b" ∧
    AllRulesHold (pushRight 1 (pushRight 1 (SuspendedList.new identity) "b").state "a").state._rules
      (pushRight 1 (pushRight 1 (SuspendedList.new identity) "b").state "a").state._list ∧
    ∃ N, ∀ fuel, N ≤ fuel →
      addRuleXBeforeY fuel (pushRight 1 (pushRight 1 (SuspendedList.new identity) "b").state
          "a").state "a" "b"
        = addRuleXBeforeY N (pushRight 1 (pushRight 1 (SuspendedList.new identity) "b").state
          "a").state "a" "b" :=
  ⟨by decide, by decide,
    match addRuleXBeforeY_terminates
      (pushRight 1 (pushRight 1 (SuspendedList.new identity) "b").state "a").state "a" "b"
      (by decide) (by decide) with
    | ⟨N, hN⟩ => ⟨N, fun fuel hfuel => (hN fuel hfuel).1⟩⟩

/-- In a state where every stored rule holds and the getters of the index can
be called, if `x` and `y` occur in the array and a chain of one or more
stored rules over items of the array leads from `y` to `x`, then
`addRuleXBeforeY(x, y)` raises `ConflictingRulesError` (at every depth of
calls from some depth on). -/
theorem addRuleXBeforeY_conflict_of_chain (s : SuspendedList α) (x y : α)
    (hr : s._rules.Readable) (hall : AllRulesHold s._rules s._list) (hx : x ∈ s._list) (hy : y ∈ s._list)
    (hchain : Relation.TransGen (Link s._rules s._list) y x) :
    ∃ N, ∀ fuel, N ≤ fuel →
      ∃ xString yString, (addRuleXBeforeY fuel s x y).status = .conflict xString yString := by
  have hv := (allRulesHold_iff_noViolation _ _).mp hall
  have hyx := (chain_precedes s._rules s._list hall y x hchain).1
  have hxy : x ≠ y := by
    intro he
    subst he
    obtain ⟨i, hi⟩ := List.mem_iff_getElem?.mp hx
    have := (precedes_iff _ _ _).mp hyx i i hi hi
    omega
  obtain ⟨N, hN⟩ := applyRuleLoop_outcome s._rules hr x y hxy s._list hv
  refine ⟨N, ?_⟩
  intro fuel hfuel
  obtain ⟨_, hout⟩ := hN fuel hfuel
  rw [addRuleXBeforeY_conflict]
  rcases hout with hok | hconf
  · exfalso
    -- a normal return would leave an array on which both orders hold
    have hperm := (engine_perm s._rules fuel).2.1 x y s._list true
    have hv' := applyRuleLoop_keeps_invariant s._rules x y fuel s._list hv
    have hall' := (allRulesHold_iff_noViolation _ _).mpr hv'
    have hxy' := applyRuleLoop_precedes s._rules x y hxy fuel s._list true hok
    have hchain' : Relation.TransGen
        (Link s._rules (applyRuleLoop s._rules x y fuel s._list true).list) y x :=
      Relation.TransGen.mono (fun a b h => link_of_perm s._rules _ _ hperm a b h) hchain
    have hyx' := (chain_precedes s._rules _ hall' y x hchain').1
    obtain ⟨i, hi⟩ := List.mem_iff_getElem?.mp (hperm.symm.subset hx)
    obtain ⟨j, hj⟩ := List.mem_iff_getElem?.mp (hperm.symm.subset hy)
    have h1 := (precedes_iff _ _ _).mp hxy' i j hi hj
    have h2 := (precedes_iff _ _ _).mp hyx' j i hj hi
    omega
  · exact hconf

/-- The conflict on `[a, b, c, d, e]` with the rules "`a` before `b`" and
"`b` before `c`", and the new rule "`c` before `a`". -/
theorem addRuleXBeforeY_conflict_of_chain_witness :
    AllRulesHold (abcdeWithRules "a" "b" "b" "c")._rules
      (abcdeWithRules "a" "b" "b" "c")._list ∧
    ∃ N, ∀ fuel, N ≤ fuel → ∃ xString yString,
      (addRuleXBeforeY fuel (abcdeWithRules "a" "b" "b" "c") "c" "a").status
        = .conflict xString yString :=
  ⟨by decide,
    addRuleXBeforeY_conflict_of_chain (abcdeWithRules "a" "b" "b" "c") "c" "a"
      (by decide) (by decide) (by decide) (by decide)
      (Relation.TransGen.tail
        (Relation.TransGen.single
          (show Link (abcdeWithRules "a" "b" "b" "c")._rules
              (abcdeWithRules "a" "b" "b" "c")._list "a" "b" from
            ⟨by decide, by decide, by decide⟩))
        (show Link (abcdeWithRules "a" "b" "b" "c")._rules
            (abcdeWithRules "a" "b" "b" "c")._list "b" "c" from
          ⟨by decide, by decide, by decide⟩))⟩

/-- C5, amended: whenever `addRuleXBeforeY(x, y)` raises
`ConflictingRulesError`, the array is a permutation of the array before the
call (items may have been moved by the failed call, none is lost or added),
and if every stored rule held before the call, every stored rule still
holds. -/
theorem addRuleXBeforeY_conflict_leaves_permutation (fuel : Nat) (s : SuspendedList α)
    (x y : α)
    (_hconf : ∃ xString yString,
      (addRuleXBeforeY fuel s x y).status = .conflict xString yString) :
    (addRuleXBeforeY fuel s x y).state._list.Perm s._list ∧
    (AllRulesHold s._rules s._list →
      AllRulesHold s._rules (addRuleXBeforeY fuel s x y).state._list) := by
  rw [addRuleXBeforeY_list]
  refine ⟨(engine_perm s._rules fuel).2.1 x y s._list true, ?_⟩
  intro hall
  have hv := (allRulesHold_iff_noViolation _ _).mp hall
  exact (allRulesHold_iff_noViolation _ _).mpr
    (applyRuleLoop_keeps_invariant s._rules x y fuel s._list hv)

/-- Witness for C5: the failed call on `[a, b, c, d, e]` with the rules "`a`
before `b`", "`b` before `c`" and the new rule "`c` before `a`". -/
theorem addRuleXBeforeY_conflict_leaves_permutation_witness :
    (∃ xString yString,
      (addRuleXBeforeY 4 (abcdeWithRules "a" "b" "b" "c") "c" "a").status
        = .conflict xString yString) ∧
    (addRuleXBeforeY 4 (abcdeWithRules "a" "b" "b" "c") "c" "a").state._list.Perm
      (abcdeWithRules "a" "b" "b" "c")._list :=
  ⟨⟨some "b", some "c", by decide⟩,
    (addRuleXBeforeY_conflict_leaves_permutation 4 (abcdeWithRules "a" "b" "b" "c") "c" "a"
      ⟨some "b", some "c", by decide⟩).1⟩

/-- When the getters of the index can be called, `y` occurs exactly once, at
index `p`, the last `x` (with `x ≠ y`) is at index `t > p`, and no stored
successor of `y` occurs at an index up to and including `t`, then
`_applyRuleXBeforeY(x, y)` returns normally and the array is the old one with
`y` taken out of index `p` and put back right behind that last `x`, every
other item keeping its place relative to the others; `addRule(x, y)` is then
called. -/
theorem addRuleXBeforeY_single_move (s : SuspendedList α) (x y : α) (p t n : Nat)
    (hr : s._rules.Readable)
    (hxy : x ≠ y) (hfirst : indexOf s._list y = some p) (hlast : lastIndexOf s._list y = some p)
    (hx : lastIndexOf s._list x = some t) (hpt : p < t)
    (hfree : ∀ b ∈ s._list.take (t + 1), ¬ Stored s._rules y b) :
    addRuleXBeforeY ((s._rules.rightBounds y).length + 3 + n) s x y =
      afterRules
        { s with _list :=
            s._list.take p ++ ((s._list.drop (p + 1)).take (t - p) ++ y :: s._list.drop (t + 1)) }
        (s._rules.addRule x y) := by
  have hf := (indexOf_eq_some s._list y p).mp hfirst
  have hl := (lastIndexOf_eq_some s._list y p).mp hlast
  have huniq : ∀ j, s._list[j]? = some y → j = p := by
    intro j hj
    by_contra hne
    rcases Nat.lt_or_gt_of_ne hne with h | h
    · exact hf.2 j h hj
    · exact hl.2 j h hj
  have hfree' : ∀ j, j ≤ t → ∀ b, s._list[j]? = some b → ¬ Stored s._rules y b := by
    intro j hj b hb
    apply hfree b
    rw [List.mem_iff_getElem?]
    refine ⟨j, ?_⟩
    rw [List.getElem?_take]
    have : j < t + 1 := by omega
    simp [this, hb]
  have hloop := applyRuleLoop_single_move s._rules hr x y hxy s._list p t hf.1 huniq hx hpt hfree'
  have hmono := applyRuleLoop_fuel_mono s._rules x y s._list true
    ((s._rules.rightBounds y).length + 3) n (by rw [hloop]; simp [Result.Done])
  rw [hloop] at hmono
  have hok : (applyRuleLoop s._rules x y ((s._rules.rightBounds y).length + 3 + n)
      s._list true).status = .ok := by rw [hmono]
  rw [addRuleXBeforeY_rules_of_ok _ s x y hok, hmono]
  rfl

/-- The single move on `[a, b, c, d, e]` with the rules "`b` before `c`" and
"`c` before `d`", and the new rule "`d` before `a`", gives `[b, c, d, a, e]`. -/
theorem addRuleXBeforeY_single_move_witness :
    (addRuleXBeforeY
      (((abcdeWithRules "b" "c" "c" "d")._rules.rightBounds "a").length + 3 + 0)
      (abcdeWithRules "b" "c" "c" "d") "d" "a").state._list = ["b", "c", "d", "a", "e"] :=
  (congrArg (fun o => o.state._list)
    (addRuleXBeforeY_single_move (abcdeWithRules "b" "c" "c" "d") "d" "a" 0 3 0
      (by decide) (by decide) (by decide) (by decide) (by decide) (by decide)
      (by decide))).trans (by decide)

/-! ## The rule index, key by key -/

theorem objGet_objSet {β : Type} (o : List (α × β)) (k k1 : α) (v : β) :
    objGet (objSet o k v) k1 = if k = k1 then some v else objGet o k1 := by
  induction o with
  | nil =>
    by_cases h : k = k1 <;> simp [objSet, objGet, h]
  | cons p rest ih =>
    obtain ⟨k2, v2⟩ := p
    unfold objSet
    by_cases h2 : k2 = k
    · subst h2
      by_cases h : k2 = k1 <;> simp [objGet, h]
    · simp only [h2, if_false]
      by_cases h : k = k1
      · subst h
        simp [objGet, h2, ih]
      · by_cases h3 : k2 = k1 <;> simp [objGet, h3, ih, h]

theorem objDelete_cons {β : Type} (k2 : α) (v2 : β) (rest : List (α × β)) (k : α) :
    objDelete ((k2, v2) :: rest) k =
      if k2 = k then objDelete rest k else (k2, v2) :: objDelete rest k := by
  unfold objDelete
  by_cases h : k2 = k <;> simp [List.filter_cons, h]

theorem objGet_objDelete {β : Type} (o : List (α × β)) (k k1 : α) :
    objGet (objDelete o k) k1 = if k = k1 then none else objGet o k1 := by
  induction o with
  | nil => by_cases h : k = k1 <;> simp [objDelete, objGet, h]
  | cons p rest ih =>
    obtain ⟨k2, v2⟩ := p
    rw [objDelete_cons]
    by_cases h2 : k2 = k
    · subst h2
      simp only [if_true, ih]
      by_cases h : k2 = k1
      · simp [h]
      · simp [objGet, h]
    · simp only [h2, if_false]
      by_cases h : k = k1
      · subst h
        simp [objGet, h2, ih]
      · by_cases h3 : k2 = k1 <;> simp [objGet, h3, ih, h]

theorem mem_setAdd (s : List α) (k a : α) : a ∈ setAdd s k ↔ a ∈ s ∨ a = k := by
  unfold setAdd
  by_cases h : k ∈ s
  · simp only [h, if_true]
    constructor
    · exact Or.inl
    · rintro (h1 | rfl)
      · exact h1
      · exact h
  · simp [h]

theorem mem_setDelete (s : List α) (k a : α) : a ∈ setDelete s k ↔ a ∈ s ∧ a ≠ k := by
  unfold setDelete
  simp

theorem setDelete_of_not_mem (s : List α) (k : α) (h : k ∉ s) : setDelete s k = s := by
  unfold setDelete
  rw [List.filter_eq_self]
  intro a ha
  have : a ≠ k := fun hc => h (hc ▸ ha)
  simp [this]

theorem setDelete_nil (k : α) : setDelete ([] : List α) k = [] := rfl

theorem objGet_mem {β : Type} (o : List (α × β)) (k : α) (v : β) (h : objGet o k = some v) :
    (k, v) ∈ o := by
  induction o with
  | nil => simp [objGet] at h
  | cons p rest ih =>
    obtain ⟨k2, v2⟩ := p
    unfold objGet at h
    by_cases h2 : k2 = k
    · rw [if_pos h2] at h
      have hv : v2 = v := Option.some.inj h
      subst h2
      subst hv
      simp
    · rw [if_neg h2] at h
      exact List.mem_cons_of_mem _ (ih h)

theorem mem_objSet {β : Type} (o : List (α × β)) (k : α) (v : β) (p : α × β)
    (h : p ∈ objSet o k v) : p ∈ o ∨ p = (k, v) := by
  induction o with
  | nil =>
    simp only [objSet, List.mem_singleton] at h
    exact Or.inr h
  | cons q rest ih =>
    obtain ⟨k2, v2⟩ := q
    unfold objSet at h
    by_cases h2 : k2 = k
    · rw [if_pos h2] at h
      rcases List.mem_cons.mp h with h1 | h1
      · exact Or.inr h1
      · exact Or.inl (List.mem_cons_of_mem _ h1)
    · rw [if_neg h2] at h
      rcases List.mem_cons.mp h with h1 | h1
      · exact Or.inl (by rw [h1]; simp)
      · rcases ih h1 with h3 | h3
        · exact Or.inl (List.mem_cons_of_mem _ h3)
        · exact Or.inr h3

/-! ## Plain dictionaries -/

theorem plainDict_nil {β : Type} : PlainDict ([] : List (α × β)) := by
  intro p hp
  simp at hp

theorem plainDict_objSet {β : Type} (o : List (α × β)) (k : α) (v : β) (ho : PlainDict o)
    (hk : PlainKey k) : PlainDict (objSet o k v) := by
  intro p hp
  rcases mem_objSet o k v p hp with h | h
  · exact ho p h
  · rw [h]
    exact hk

theorem plainDict_objSet_of_get {β : Type} (o : List (α × β)) (k : α) (v w : β)
    (ho : PlainDict o) (hk : objGet o k = some w) : PlainDict (objSet o k v) :=
  plainDict_objSet o k v ho (ho _ (objGet_mem o k w hk))

theorem plainDict_objDelete {β : Type} (o : List (α × β)) (k : α) (ho : PlainDict o) :
    PlainDict (objDelete o k) := by
  intro p hp
  unfold objDelete at hp
  exact ho p (List.mem_of_mem_filter hp)

theorem shadows_of_plain {β : Type} (o : List (α × β)) (ho : PlainDict o) :
    shadowsHasOwnProperty o = false := by
  unfold shadowsHasOwnProperty
  rw [List.any_eq_false]
  intro p hp
  simp only [decide_eq_true_eq]
  exact (ho p hp).1

theorem setPrototype_of_plain {β : Type} (o : List (α × β)) (ho : PlainDict o) :
    hasSetPrototype o = false := by
  unfold hasSetPrototype
  rw [List.any_eq_false]
  intro p hp
  simp only [decide_eq_true_eq]
  exact (ho p hp).2

/-- On a plain dictionary `hasOwnProperty(k)` returns, and says whether the
dictionary has an entry under `k`. -/
theorem hasOwnProperty_of_plain {β : Type} (o : List (α × β)) (ho : PlainDict o) (k : α) :
    hasOwnProperty o k = some (objGet o k).isSome := by
  unfold hasOwnProperty
  rw [shadows_of_plain o ho]
  simp only [Bool.false_eq_true, if_false]
  by_cases hk : PropertyName.kind k = PropertyKind.proto
  · rw [if_pos hk]
    cases hg : objGet o k with
    | none => rfl
    | some v => exact absurd hk (ho _ (objGet_mem o k v hg)).2
  · rw [if_neg hk]

theorem assignNew_of_plain {β : Type} (o : List (α × β)) (ho : PlainDict o) (k : α) (v : β) :
    assignNew o k v = some (objSet o k v) := by
  unfold assignNew
  rw [setPrototype_of_plain o ho]
  simp

theorem readable_of_plain (r : PositionRules α) (hp : r.Plain) : r.Readable :=
  ⟨shadows_of_plain _ hp.1, shadows_of_plain _ hp.2⟩

theorem new_plain (serializer : α → α) : (PositionRules.new serializer).Plain :=
  ⟨plainDict_nil, plainDict_nil⟩

/-! ## The methods of the index on plain dictionaries -/

theorem addToSet_of_plain (o : List (α × List α)) (ho : PlainDict o) (k m : α) :
    PositionRules.addToSet o k m = some (objSet o k (setAdd (setOf o k) m)) := by
  unfold PositionRules.addToSet setOf
  rw [hasOwnProperty_of_plain o ho]
  cases h : objGet o k with
  | none => simp [assignNew_of_plain o ho]
  | some s => simp

/-- On a plain index `addRule` does not throw and adds the pair to both
dictionaries. -/
theorem addRule_of_plain (r : PositionRules α) (hp : r.Plain) (lhs rhs : α) :
    r.addRule lhs rhs =
      ⟨{ r with
          _rulesLHS := objSet r._rulesLHS (r._serializer lhs)
            (setAdd (r.mustFollow (r._serializer lhs)) (r._serializer rhs))
          _rulesRHS := objSet r._rulesRHS (r._serializer rhs)
            (setAdd (r.mustPrecede (r._serializer rhs)) (r._serializer lhs)) }, false⟩ := by
  unfold PositionRules.addRule
  simp only [addToSet_of_plain _ hp.1, addToSet_of_plain _ hp.2]
  rfl

theorem addRule_plain (r : PositionRules α) (hp : r.Plain) (lhs rhs : α)
    (hl : PlainKey (r._serializer lhs)) (hr : PlainKey (r._serializer rhs)) :
    (r.addRule lhs rhs).rules.Plain := by
  rw [addRule_of_plain r hp]
  exact ⟨plainDict_objSet _ _ _ hp.1 hl, plainDict_objSet _ _ _ hp.2 hr⟩

theorem deleteFromSet_setOf (o : List (α × List α)) (k m k1 : α) :
    setOf (PositionRules.deleteFromSet o k m) k1 =
      if k = k1 then setDelete (setOf o k1) m else setOf o k1 := by
  unfold PositionRules.deleteFromSet setOf
  cases h : objGet o k with
  | none =>
    by_cases hk : k = k1
    · subst hk
      simp [h, setDelete_nil]
    · simp [hk]
  | some s =>
    simp only [objGet_objSet]
    by_cases hk : k = k1
    · subst hk
      simp [h]
    · simp [hk]

theorem deleteFromSet_plain (o : List (α × List α)) (ho : PlainDict o) (k m : α) :
    PlainDict (PositionRules.deleteFromSet o k m) := by
  unfold PositionRules.deleteFromSet
  cases h : objGet o k with
  | none => exact ho
  | some s => exact plainDict_objSet_of_get o k _ s ho h

theorem deleteFromSet_of_none (o : List (α × List α)) (k m : α) (h : objGet o k = none) :
    PositionRules.deleteFromSet o k m = o := by
  unfold PositionRules.deleteFromSet
  rw [h]

/-- On a plain index `removeRule` does not throw and deletes the pair from
both dictionaries. -/
theorem removeRule_of_plain (r : PositionRules α) (hp : r.Plain) (lhs rhs : α) :
    r.removeRule lhs rhs =
      ⟨{ r with
          _rulesLHS := PositionRules.deleteFromSet r._rulesLHS (r._serializer lhs)
            (r._serializer rhs)
          _rulesRHS := PositionRules.deleteFromSet r._rulesRHS (r._serializer rhs)
            (r._serializer lhs) }, false⟩ := by
  unfold PositionRules.removeRule
  simp only [hasOwnProperty_of_plain _ hp.1, hasOwnProperty_of_plain _ hp.2]
  cases h1 : objGet r._rulesLHS (r._serializer lhs) <;>
    cases h2 : objGet r._rulesRHS (r._serializer rhs) <;>
    simp [deleteFromSet_of_none, h1, h2]

theorem removeRule_plain (r : PositionRules α) (hp : r.Plain) (lhs rhs : α) :
    (r.removeRule lhs rhs).rules.Plain := by
  rw [removeRule_of_plain r hp]
  exact ⟨deleteFromSet_plain _ hp.1 _ _, deleteFromSet_plain _ hp.2 _ _⟩

/-- On a plain index the getters return the sets stored under the key. -/
theorem getRightBoundsForItem_of_plain (r : PositionRules α) (hp : r.Plain) (lhs : α) :
    r.getRightBoundsForItem lhs = some (r.mustFollow (r._serializer lhs)) := by
  unfold PositionRules.getRightBoundsForItem PositionRules.mustFollow setOf
  simp only [hasOwnProperty_of_plain _ hp.1]
  cases h : objGet r._rulesLHS (r._serializer lhs) <;> simp

theorem getLeftBoundsForItem_of_plain (r : PositionRules α) (hp : r.Plain) (rhs : α) :
    r.getLeftBoundsForItem rhs = some (r.mustPrecede (r._serializer rhs)) := by
  unfold PositionRules.getLeftBoundsForItem PositionRules.mustPrecede setOf
  simp only [hasOwnProperty_of_plain _ hp.2]
  cases h : objGet r._rulesRHS (r._serializer rhs) <;> simp

theorem rightBounds_of_plain (r : PositionRules α) (hp : r.Plain) (lhs : α) :
    r.rightBounds lhs = r.mustFollow (r._serializer lhs) := by
  unfold PositionRules.rightBounds
  rw [getRightBoundsForItem_of_plain r hp]
  rfl

theorem leftBounds_of_plain (r : PositionRules α) (hp : r.Plain) (rhs : α) :
    r.leftBounds rhs = r.mustPrecede (r._serializer rhs) := by
  unfold PositionRules.leftBounds
  rw [getLeftBoundsForItem_of_plain r hp]
  rfl

theorem setOf_objSet (o : List (α × List α)) (k k1 : α) (v : List α) :
    setOf (objSet o k v) k1 = if k = k1 then v else setOf o k1 := by
  unfold setOf
  rw [objGet_objSet]
  by_cases hk : k = k1 <;> simp [hk]

theorem mustFollow_addRule (r : PositionRules α) (hp : r.Plain) (lhs rhs k : α) :
    (r.addRule lhs rhs).rules.mustFollow k =
      if r._serializer lhs = k then setAdd (r.mustFollow k) (r._serializer rhs)
      else r.mustFollow k := by
  rw [addRule_of_plain r hp]
  unfold PositionRules.mustFollow
  simp only [setOf_objSet]
  by_cases hk : r._serializer lhs = k
  · subst hk
    simp
  · simp [hk]

theorem mustPrecede_addRule (r : PositionRules α) (hp : r.Plain) (lhs rhs k : α) :
    (r.addRule lhs rhs).rules.mustPrecede k =
      if r._serializer rhs = k then setAdd (r.mustPrecede k) (r._serializer lhs)
      else r.mustPrecede k := by
  rw [addRule_of_plain r hp]
  unfold PositionRules.mustPrecede
  simp only [setOf_objSet]
  by_cases hk : r._serializer rhs = k
  · subst hk
    simp
  · simp [hk]

theorem mustFollow_removeRule (r : PositionRules α) (hp : r.Plain) (lhs rhs k : α) :
    (r.removeRule lhs rhs).rules.mustFollow k =
      if r._serializer lhs = k then setDelete (r.mustFollow k) (r._serializer rhs)
      else r.mustFollow k := by
  rw [removeRule_of_plain r hp]
  unfold PositionRules.mustFollow
  exact deleteFromSet_setOf _ _ _ _

theorem mustPrecede_removeRule (r : PositionRules α) (hp : r.Plain) (lhs rhs k : α) :
    (r.removeRule lhs rhs).rules.mustPrecede k =
      if r._serializer rhs = k then setDelete (r.mustPrecede k) (r._serializer lhs)
      else r.mustPrecede k := by
  rw [removeRule_of_plain r hp]
  unfold PositionRules.mustPrecede
  exact deleteFromSet_setOf _ _ _ _

/-! ## removeRulesForItem on a plain symmetric index -/

theorem mustFollow_eq_setOf (r : PositionRules α) (k : α) :
    r.mustFollow k = setOf r._rulesLHS k := rfl

theorem mustPrecede_eq_setOf (r : PositionRules α) (k : α) :
    r.mustPrecede k = setOf r._rulesRHS k := rfl

theorem setOf_objDelete (o : List (α × List α)) (i k : α) :
    setOf (objDelete o i) k = if k = i then [] else setOf o k := by
  unfold setOf
  rw [objGet_objDelete]
  by_cases h : i = k
  · subst h
    simp
  · have h1 : ¬ k = i := fun hc => h hc.symm
    simp [h, h1]

theorem objGet_ne_none_of_mem_setOf (o : List (α × List α)) (k a : α) (h : a ∈ setOf o k) :
    objGet o k ≠ none := by
  unfold setOf at h
  intro hc
  rw [hc] at h
  exact absurd h (List.not_mem_nil a)

theorem setDelete_idem (s : List α) (k : α) : setDelete (setDelete s k) k = setDelete s k := by
  apply setDelete_of_not_mem
  intro h
  exact ((mem_setDelete s k k).mp h).2 rfl

theorem deleteFromEach_spec (item : α) :
    ∀ (ks : List α) (other : List (α × List α)), (∀ k ∈ ks, objGet other k ≠ none) →
      ∃ other1, PositionRules.deleteFromEach other item ks = (other1, false) ∧
        (PlainDict other → PlainDict other1) ∧
        ∀ k, setOf other1 k = if k ∈ ks then setDelete (setOf other k) item else setOf other k := by
  intro ks
  induction ks with
  | nil =>
    intro other _
    exact ⟨other, rfl, id, by simp⟩
  | cons k0 rest ih =>
    intro other h
    cases h0 : objGet other k0 with
    | none => exact absurd h0 (h k0 (by simp))
    | some s0 =>
      have hrest : ∀ k ∈ rest, objGet (objSet other k0 (setDelete s0 item)) k ≠ none := by
        intro k hk
        rw [objGet_objSet]
        by_cases hkk : k0 = k
        · simp [hkk]
        · simp only [hkk, if_false]
          exact h k (by simp [hk])
      obtain ⟨other1, h1, hpl, h2⟩ := ih (objSet other k0 (setDelete s0 item)) hrest
      refine ⟨other1, ?_, ?_, ?_⟩
      · unfold PositionRules.deleteFromEach
        simp only [h0]
        exact h1
      · intro ho
        exact hpl (plainDict_objSet_of_get other k0 _ s0 ho h0)
      · intro k
        rw [h2 k]
        have hs : setOf (objSet other k0 (setDelete s0 item)) k =
            if k0 = k then setDelete s0 item else setOf other k := by
          unfold setOf
          rw [objGet_objSet]
          by_cases hkk : k0 = k <;> simp [hkk]
        rw [hs]
        by_cases hkk : k0 = k
        · subst hkk
          have hso : setOf other k0 = s0 := by
            unfold setOf
            rw [h0]
          simp only [if_true, List.mem_cons, true_or, hso]
          by_cases hr : k0 ∈ rest
          · simp [hr, setDelete_idem]
          · simp [hr]
        · have hkk1 : ¬ k = k0 := fun hc => hkk hc.symm
          simp only [hkk, if_false, List.mem_cons, hkk1, false_or]

/-- One half of `removeRulesForItem` on two dictionaries that mirror each
other: the property `i` is deleted from `A`, and `i` is deleted from every set
of `B`. -/
theorem removeSide_spec (A B : List (α × List α)) (i : α)
    (hsym : ∀ a b, b ∈ setOf A a ↔ a ∈ setOf B b) :
    (objGet A i = none →
      (∀ k, setOf A k = if k = i then [] else setOf A k) ∧
      (∀ k, setOf B k = setDelete (setOf B k) i)) ∧
    (∀ S, objGet A i = some S →
      ∃ B1, PositionRules.deleteFromEach B i S = (B1, false) ∧
        (PlainDict B → PlainDict B1) ∧
        ∀ k, setOf B1 k = setDelete (setOf B k) i) := by
  constructor
  · intro hnone
    have hA : setOf A i = [] := by
      unfold setOf
      rw [hnone]
    constructor
    · intro k
      by_cases hk : k = i
      · subst hk
        simp [hA]
      · simp [hk]
    · intro k
      symm
      apply setDelete_of_not_mem
      intro hc
      have := (hsym i k).mpr hc
      rw [hA] at this
      exact absurd this (List.not_mem_nil k)
  · intro S hS
    have hA : setOf A i = S := by
      unfold setOf
      rw [hS]
    have hkeys : ∀ k ∈ S, objGet B k ≠ none := by
      intro k hk
      rw [← hA] at hk
      exact objGet_ne_none_of_mem_setOf B k i ((hsym i k).mp hk)
    obtain ⟨B1, h1, hpl, h2⟩ := deleteFromEach_spec i S B hkeys
    refine ⟨B1, h1, hpl, ?_⟩
    intro k
    rw [h2 k]
    by_cases hk : k ∈ S
    · simp [hk]
    · simp only [hk, if_false]
      symm
      apply setDelete_of_not_mem
      intro hc
      have := (hsym i k).mpr hc
      rw [hA] at this
      exact hk this

theorem mem_setDelete_if (s : List α) (i k a : α) :
    a ∈ (if k = i then [] else setDelete s i) ↔ a ∈ s ∧ a ≠ i ∧ k ≠ i := by
  by_cases h : k = i
  · simp [h]
  · simp [h, mem_setDelete]

theorem removeAsPredecessor_spec (r : PositionRules α) (i : α) (hp : r.Plain)
    (hsym : ∀ a b, b ∈ setOf r._rulesLHS a ↔ a ∈ setOf r._rulesRHS b) :
    ∃ r1, r.removeAsPredecessor i = ⟨r1, false⟩ ∧ r1._serializer = r._serializer ∧ r1.Plain ∧
      (∀ k, setOf r1._rulesLHS k = if k = i then [] else setOf r._rulesLHS k) ∧
      (∀ k, setOf r1._rulesRHS k = setDelete (setOf r._rulesRHS k) i) := by
  obtain ⟨hn, hs⟩ := removeSide_spec r._rulesLHS r._rulesRHS i hsym
  unfold PositionRules.removeAsPredecessor
  rw [hasOwnProperty_of_plain _ hp.1]
  cases h : objGet r._rulesLHS i with
  | none => exact ⟨r, rfl, rfl, hp, (hn h).1, (hn h).2⟩
  | some S =>
    obtain ⟨B1, h1, hpl, h2⟩ := hs S h
    refine ⟨{ r with _rulesLHS := objDelete r._rulesLHS i, _rulesRHS := B1 }, ?_, rfl,
      ⟨plainDict_objDelete _ _ hp.1, hpl hp.2⟩, ?_, h2⟩
    · simp [h1]
    · intro k
      exact setOf_objDelete _ _ _

theorem removeAsSuccessor_spec (r : PositionRules α) (i : α) (hp : r.Plain)
    (hsym : ∀ a b, b ∈ setOf r._rulesRHS a ↔ a ∈ setOf r._rulesLHS b) :
    ∃ r1, r.removeAsSuccessor i = ⟨r1, false⟩ ∧ r1._serializer = r._serializer ∧ r1.Plain ∧
      (∀ k, setOf r1._rulesRHS k = if k = i then [] else setOf r._rulesRHS k) ∧
      (∀ k, setOf r1._rulesLHS k = setDelete (setOf r._rulesLHS k) i) := by
  obtain ⟨hn, hs⟩ := removeSide_spec r._rulesRHS r._rulesLHS i hsym
  unfold PositionRules.removeAsSuccessor
  rw [hasOwnProperty_of_plain _ hp.2]
  cases h : objGet r._rulesRHS i with
  | none => exact ⟨r, rfl, rfl, hp, (hn h).1, (hn h).2⟩
  | some S =>
    obtain ⟨A1, h1, hpl, h2⟩ := hs S h
    refine ⟨{ r with _rulesLHS := A1, _rulesRHS := objDelete r._rulesRHS i }, ?_, rfl,
      ⟨hpl hp.1, plainDict_objDelete _ _ hp.2⟩, ?_, h2⟩
    · simp [h1]
    · intro k
      exact setOf_objDelete _ _ _

/-- What `removeRulesForItem(item)` does to a plain symmetric index: it
returns, the property of the item's key is gone from both dictionaries, and
the key is gone from every set. -/
theorem removeRulesForItem_spec (r : PositionRules α) (hp : r.Plain) (hsym : r.Symmetric)
    (item : α) :
    ∃ r2, r.removeRulesForItem item = ⟨r2, false⟩ ∧ r2._serializer = r._serializer ∧ r2.Plain ∧
      (∀ k, r2.mustFollow k =
        if k = r._serializer item then [] else setDelete (r.mustFollow k) (r._serializer item)) ∧
      (∀ k, r2.mustPrecede k =
        if k = r._serializer item then []
        else setDelete (r.mustPrecede k) (r._serializer item)) := by
  obtain ⟨r1, hr1, hser1, hp1, hL1, hR1⟩ := removeAsPredecessor_spec r (r._serializer item) hp hsym
  have hsym1 : ∀ a b, b ∈ setOf r1._rulesRHS a ↔ a ∈ setOf r1._rulesLHS b := by
    intro a b
    rw [hR1 a, hL1 b, mem_setDelete]
    by_cases hb : b = r._serializer item
    · simp [hb]
    · simp only [hb, if_false, ne_eq, not_false_eq_true, and_true]
      exact (hsym b a).symm
  obtain ⟨r2, hr2, hser2, hp2, hR2, hL2⟩ :=
    removeAsSuccessor_spec r1 (r._serializer item) hp1 hsym1
  refine ⟨r2, ?_, hser2.trans hser1, hp2, ?_, ?_⟩
  · unfold PositionRules.removeRulesForItem
    simp only [hr1, Bool.false_eq_true, if_false]
    exact hr2
  · intro k
    rw [mustFollow_eq_setOf, hL2 k, hL1 k, mustFollow_eq_setOf]
    by_cases hk : k = r._serializer item
    · simp [hk, setDelete_nil]
    · simp [hk]
  · intro k
    rw [mustPrecede_eq_setOf, hR2 k, hR1 k, mustPrecede_eq_setOf]

theorem removeRulesForItem_symmetric (r : PositionRules α) (hp : r.Plain) (hsym : r.Symmetric)
    (item : α) : (r.removeRulesForItem item).rules.Symmetric := by
  obtain ⟨r3, h3, _, _, hF, hP⟩ := removeRulesForItem_spec r hp hsym item
  rw [h3]
  intro a b
  rw [hF a, hP b, mem_setDelete_if, mem_setDelete_if]
  have := hsym a b
  constructor
  · rintro ⟨h1, h2, h3⟩
    exact ⟨this.mp h1, h3, h2⟩
  · rintro ⟨h1, h2, h3⟩
    exact ⟨this.mpr h1, h3, h2⟩

theorem new_symmetric (serializer : α → α) : (PositionRules.new serializer).Symmetric := by
  intro a b
  simp [PositionRules.mustFollow, PositionRules.mustPrecede, PositionRules.new, setOf, objGet]

theorem addRule_symmetric (r : PositionRules α) (hp : r.Plain) (hsym : r.Symmetric)
    (lhs rhs : α) : (r.addRule lhs rhs).rules.Symmetric := by
  intro a b
  rw [mustFollow_addRule r hp, mustPrecede_addRule r hp]
  have := hsym a b
  by_cases h1 : r._serializer lhs = a <;> by_cases h2 : r._serializer rhs = b
  · subst h1
    subst h2
    simp only [if_true, mem_setAdd, this]
  · simp only [h1, h2, if_true, if_false, mem_setAdd, this]
    constructor
    · rintro (h | h)
      · exact h
      · exact absurd h.symm h2
    · exact Or.inl
  · simp only [h1, h2, if_true, if_false, mem_setAdd, this]
    constructor
    · exact Or.inl
    · rintro (h | h)
      · exact h
      · exact absurd h.symm h1
  · simp only [h1, h2, if_false, this]

theorem removeRule_symmetric (r : PositionRules α) (hp : r.Plain) (hsym : r.Symmetric)
    (lhs rhs : α) : (r.removeRule lhs rhs).rules.Symmetric := by
  intro a b
  rw [mustFollow_removeRule r hp, mustPrecede_removeRule r hp]
  have := hsym a b
  by_cases h1 : r._serializer lhs = a <;> by_cases h2 : r._serializer rhs = b
  · subst h1
    subst h2
    simp only [if_true, mem_setDelete, this]
    constructor
    · rintro ⟨h, h3⟩
      exact ⟨h, fun _ => h3 rfl⟩
    · rintro ⟨h, h3⟩
      exact ⟨h, fun _ => h3 rfl⟩
  · simp only [h1, h2, if_true, if_false, mem_setDelete, this]
    constructor
    · rintro ⟨h, _⟩
      exact h
    · intro h
      exact ⟨h, fun hc => h2 hc.symm⟩
  · simp only [h1, h2, if_true, if_false, mem_setDelete, this]
    constructor
    · intro h
      exact ⟨h, fun hc => h1 hc.symm⟩
    · rintro ⟨h, _⟩
      exact h
  · simp only [h1, h2, if_false, this]

/-- An index built by its methods without the keys `hasOwnProperty` and
`__proto__` is plain and symmetric, and has the serializer it was built
with. -/
theorem reachable_invariant (serializer : α → α) (r : PositionRules α)
    (h : PositionRules.Reachable serializer r) :
    r.Plain ∧ r.Symmetric ∧ r._serializer = serializer := by
  induction h with
  | new => exact ⟨new_plain serializer, new_symmetric serializer, rfl⟩
  | addRule lhs rhs _ hl hr ih =>
    obtain ⟨hp, hsym, hser⟩ := ih
    refine ⟨addRule_plain _ hp lhs rhs (by rw [hser]; exact hl) (by rw [hser]; exact hr),
      addRule_symmetric _ hp hsym lhs rhs, ?_⟩
    rw [addRule_of_plain _ hp]
    exact hser
  | removeRule lhs rhs _ ih =>
    obtain ⟨hp, hsym, hser⟩ := ih
    refine ⟨removeRule_plain _ hp lhs rhs, removeRule_symmetric _ hp hsym lhs rhs, ?_⟩
    rw [removeRule_of_plain _ hp]
    exact hser
  | removeRulesForItem item _ ih =>
    obtain ⟨hp, hsym, hser⟩ := ih
    obtain ⟨r2, h2, hser2, hp2, _⟩ := removeRulesForItem_spec _ hp hsym item
    refine ⟨?_, removeRulesForItem_symmetric _ hp hsym item, ?_⟩
    · rw [h2]; exact hp2
    · rw [h2]; exact hser2.trans hser

theorem reachable_symmetric (serializer : α → α) (r : PositionRules α)
    (h : PositionRules.Reachable serializer r) : r.Symmetric :=
  (reachable_invariant serializer r h).2.1

open SuspendedList

/-! ## The rule index without the names `hasOwnProperty` and `__proto__` -/

/-- When `x` or `y` does not occur in the array, the index is plain and the
keys of `x` and `y` are plain, `addRuleXBeforeY(x, y)` returns normally (any
positive depth of calls), leaves the array unchanged and records the rule:
the key of `y` is among the right bounds of `x` and the key of `x` among the
left bounds of `y`. -/
theorem addRuleXBeforeY_of_absent (n : Nat) (s : SuspendedList α) (x y : α)
    (hp : s._rules.Plain) (hkx : PlainKey (s._rules._serializer x))
    (hky : PlainKey (s._rules._serializer y))
    (h : x ∉ s._list ∨ y ∉ s._list) :
    (addRuleXBeforeY (n + 1) s x y).status = .ok ∧
    (addRuleXBeforeY (n + 1) s x y).state._list = s._list ∧
    (addRuleXBeforeY (n + 1) s x y).state._rules = (s._rules.addRule x y).rules ∧
    (addRuleXBeforeY (n + 1) s x y).state._rules.getRightBoundsForItem x =
      some (setAdd (s._rules.mustFollow (s._rules._serializer x)) (s._rules._serializer y)) ∧
    (addRuleXBeforeY (n + 1) s x y).state._rules.getLeftBoundsForItem y =
      some (setAdd (s._rules.mustPrecede (s._rules._serializer y)) (s._rules._serializer x)) := by
  have hloop : applyRuleLoop s._rules x y (n + 1) s._list true = ⟨s._list, .ok⟩ := by
    apply applyRuleLoop_noop
    intro xi yi hx hy
    rcases h with h | h
    · rw [(lastIndexOf_eq_none _ _).mpr h] at hx
      exact Option.noConfusion hx
    · rw [(indexOf_eq_none _ _).mpr h] at hy
      exact Option.noConfusion hy
  have hok : (applyRuleLoop s._rules x y (n + 1) s._list true).status = .ok := by rw [hloop]
  have hp1 := addRule_plain s._rules hp x y hkx hky
  have hF := mustFollow_addRule s._rules hp x y (s._rules._serializer x)
  have hP := mustPrecede_addRule s._rules hp x y (s._rules._serializer y)
  have hser : (s._rules.addRule x y).rules._serializer = s._rules._serializer := by
    rw [addRule_of_plain s._rules hp]
  rw [addRuleXBeforeY_rules_of_ok (n + 1) s x y hok, hloop]
  unfold afterRules
  refine ⟨?_, rfl, rfl, ?_, ?_⟩
  · rw [addRule_of_plain s._rules hp]
    simp
  · rw [getRightBoundsForItem_of_plain _ hp1, hser, hF]
    simp
  · rw [getLeftBoundsForItem_of_plain _ hp1, hser, hP]
    simp

/-- On a list whose index was built by its methods without the keys
`hasOwnProperty` and `__proto__`, `removeRuleXBeforeY(x, y)`,
`removeRuleXAfterY(x, y)` and `removeRulesForItem(item)` return normally and
leave the array unchanged. -/
theorem removing_rules_keeps_the_array (serializer : α → α) (s : SuspendedList α)
    (hreach : PositionRules.Reachable serializer s._rules) (x y item : α) :
    (removeRuleXBeforeY s x y).status = .ok ∧
    (removeRuleXBeforeY s x y).state._list = s._list ∧
    (removeRuleXAfterY s x y).status = .ok ∧
    (removeRuleXAfterY s x y).state._list = s._list ∧
    (s.removeRulesForItem item).status = .ok ∧
    (s.removeRulesForItem item).state._list = s._list := by
  obtain ⟨hp, hsym, _⟩ := reachable_invariant serializer s._rules hreach
  obtain ⟨r2, hr2, _⟩ := removeRulesForItem_spec s._rules hp hsym item
  unfold removeRuleXBeforeY removeRuleXAfterY SuspendedList.removeRulesForItem afterRules
  rw [removeRule_of_plain _ hp, removeRule_of_plain _ hp, hr2]
  exact ⟨rfl, rfl, rfl, rfl, rfl, rfl⟩

/-- After any finite sequence of `addRule`, `removeRule` and
`removeRulesForItem` calls on a new index, none of which adds a rule for the
key `hasOwnProperty` or `__proto__`, for all keys `a` and `b`: `b` is in the
set of keys that must follow `a` exactly when `a` is in the set of keys that
must precede `b`; and for items `x` and `y` with keys `a` and `b`, the getters
return, and `b` is in `getRightBoundsForItem(x)` exactly when `a` is in
`getLeftBoundsForItem(y)`. -/
theorem reachable_index_is_symmetric (serializer : α → α) (r : PositionRules α)
    (hreach : PositionRules.Reachable serializer r) :
    (∀ a b, b ∈ r.mustFollow a ↔ a ∈ r.mustPrecede b) ∧
    (∀ x, r.getRightBoundsForItem x = some (r.mustFollow (r._serializer x))) ∧
    (∀ y, r.getLeftBoundsForItem y = some (r.mustPrecede (r._serializer y))) ∧
    (∀ x y, r._serializer y ∈ r.rightBounds x ↔ r._serializer x ∈ r.leftBounds y) := by
  obtain ⟨hp, hsym, _⟩ := reachable_invariant serializer r hreach
  refine ⟨hsym, getRightBoundsForItem_of_plain r hp, getLeftBoundsForItem_of_plain r hp, ?_⟩
  intro x y
  rw [rightBounds_of_plain r hp, leftBounds_of_plain r hp]
  exact hsym _ _

/-- On a plain index `addRule(l, r)` returns; the successor set of the key of
`l` is its previous successor set plus the key of `r`, the predecessor set of
the key of `r` is its previous predecessor set plus the key of `l`, and the
sets of every other key are unchanged. -/
theorem addRule_adds_one_rule (r : PositionRules α) (hp : r.Plain) (lhs rhs : α) :
    (r.addRule lhs rhs).threw = false ∧
    (∀ k, (r.addRule lhs rhs).rules.mustFollow k =
      if r._serializer lhs = k then setAdd (r.mustFollow k) (r._serializer rhs)
      else r.mustFollow k) ∧
    (∀ k, (r.addRule lhs rhs).rules.mustPrecede k =
      if r._serializer rhs = k then setAdd (r.mustPrecede k) (r._serializer lhs)
      else r.mustPrecede k) ∧
    (∀ k a, a ∈ r.mustFollow k → a ∈ (r.addRule lhs rhs).rules.mustFollow k) ∧
    (∀ k a, a ∈ r.mustPrecede k → a ∈ (r.addRule lhs rhs).rules.mustPrecede k) := by
  refine ⟨by rw [addRule_of_plain r hp], mustFollow_addRule r hp lhs rhs,
    mustPrecede_addRule r hp lhs rhs, ?_, ?_⟩
  · intro k a ha
    rw [mustFollow_addRule r hp]
    by_cases hk : r._serializer lhs = k
    · simp only [hk, if_true, mem_setAdd]
      exact Or.inl ha
    · simp only [hk, if_false]
      exact ha
  · intro k a ha
    rw [mustPrecede_addRule r hp]
    by_cases hk : r._serializer rhs = k
    · simp only [hk, if_true, mem_setAdd]
      exact Or.inl ha
    · simp only [hk, if_false]
      exact ha

/-- On a plain index `removeRule(l, r)` returns; it leaves the key of `r` out
of the successors of the key of `l` and the key of `l` out of the
predecessors of the key of `r`; every other stored rule stays stored; and when
the rule was not stored, every successor and predecessor set is as before. -/
theorem removeRule_removes_one_rule (r : PositionRules α) (hp : r.Plain) (lhs rhs : α) :
    (r.removeRule lhs rhs).threw = false ∧
    r._serializer rhs ∉ (r.removeRule lhs rhs).rules.mustFollow (r._serializer lhs) ∧
    r._serializer lhs ∉ (r.removeRule lhs rhs).rules.mustPrecede (r._serializer rhs) ∧
    (∀ p s, s ∈ r.mustFollow p → ¬ (p = r._serializer lhs ∧ s = r._serializer rhs) →
      s ∈ (r.removeRule lhs rhs).rules.mustFollow p) ∧
    (∀ p s, p ∈ r.mustPrecede s → ¬ (p = r._serializer lhs ∧ s = r._serializer rhs) →
      p ∈ (r.removeRule lhs rhs).rules.mustPrecede s) ∧
    (r._serializer rhs ∉ r.mustFollow (r._serializer lhs) →
      ∀ k, (r.removeRule lhs rhs).rules.mustFollow k = r.mustFollow k) ∧
    (r._serializer lhs ∉ r.mustPrecede (r._serializer rhs) →
      ∀ k, (r.removeRule lhs rhs).rules.mustPrecede k = r.mustPrecede k) := by
  refine ⟨by rw [removeRule_of_plain r hp], ?_, ?_, ?_, ?_, ?_, ?_⟩
  · rw [mustFollow_removeRule r hp]
    simp [mem_setDelete]
  · rw [mustPrecede_removeRule r hp]
    simp [mem_setDelete]
  · intro p s hs hne
    rw [mustFollow_removeRule r hp]
    by_cases hk : r._serializer lhs = p
    · simp only [hk, if_true, mem_setDelete]
      exact ⟨hs, fun hc => hne ⟨hk.symm, hc⟩⟩
    · simp only [hk, if_false]
      exact hs
  · intro p s hs hne
    rw [mustPrecede_removeRule r hp]
    by_cases hk : r._serializer rhs = s
    · simp only [hk, if_true, mem_setDelete]
      exact ⟨hs, fun hc => hne ⟨hc, hk.symm⟩⟩
    · simp only [hk, if_false]
      exact hs
  · intro hns k
    rw [mustFollow_removeRule r hp]
    by_cases hk : r._serializer lhs = k
    · subst hk
      simp only [if_true]
      exact setDelete_of_not_mem _ _ hns
    · simp only [hk, if_false]
  · intro hns k
    rw [mustPrecede_removeRule r hp]
    by_cases hk : r._serializer rhs = k
    · subst hk
      simp only [if_true]
      exact setDelete_of_not_mem _ _ hns
    · simp only [hk, if_false]

/-- On an index built from a new one by `addRule`, `removeRule` and
`removeRulesForItem` without the keys `hasOwnProperty` and `__proto__`, the
call `removeRulesForItem(item)` returns; afterwards the successor set and the
predecessor set of the item's key are empty, the key is in no set of the
index, and every stored rule between two other keys is still stored. -/
theorem removeRulesForItem_removes_the_key (serializer : α → α) (r : PositionRules α)
    (hreach : PositionRules.Reachable serializer r) (item : α) :
    (r.removeRulesForItem item).threw = false ∧
    (r.removeRulesForItem item).rules.mustFollow (r._serializer item) = [] ∧
    (r.removeRulesForItem item).rules.mustPrecede (r._serializer item) = [] ∧
    (∀ k, r._serializer item ∉ (r.removeRulesForItem item).rules.mustFollow k ∧
      r._serializer item ∉ (r.removeRulesForItem item).rules.mustPrecede k) ∧
    (∀ p s, p ≠ r._serializer item → s ≠ r._serializer item →
      (s ∈ r.mustFollow p → s ∈ (r.removeRulesForItem item).rules.mustFollow p) ∧
      (p ∈ r.mustPrecede s → p ∈ (r.removeRulesForItem item).rules.mustPrecede s)) := by
  obtain ⟨hp, hsym, _⟩ := reachable_invariant serializer r hreach
  obtain ⟨r2, hr2, _, _, hF, hP⟩ := removeRulesForItem_spec r hp hsym item
  rw [hr2]
  simp only
  refine ⟨trivial, ?_, ?_, ?_, ?_⟩
  · rw [hF]; simp
  · rw [hP]; simp
  · intro k
    rw [hF k, hP k, mem_setDelete_if, mem_setDelete_if]
    exact ⟨fun h => h.2.1 rfl, fun h => h.2.1 rfl⟩
  · intro p s hp1 hs
    rw [hF p, hP s, mem_setDelete_if, mem_setDelete_if]
    exact ⟨fun h => ⟨h, hs, hp1⟩, fun h => ⟨h, hp1, hs⟩⟩

open SuspendedList

/-! ## Insertion and removal -/

theorem applyAfterInsertion_of_no_bounds (n : Nat) (s : SuspendedList α) (list : List α)
    (item : α) (h : s._rules.getRightBoundsForItem item = some []) :
    applyAfterInsertion (n + 1) s list item = ⟨{ s with _list := list }, .ok⟩ := by
  unfold applyAfterInsertion _applyRulesForItem
  rw [h]
  simp only
  rw [forEachRightBound]

theorem take_drop_eq_erase (x : α) : ∀ (l : List α) (i : Nat), indexOf l x = some i →
    l.take i ++ l.drop (i + 1) = l.erase x := by
  intro l
  induction l with
  | nil => intro i h; simp [indexOf] at h
  | cons a rest ih =>
    intro i h
    unfold indexOf at h
    by_cases hax : a = x
    · rw [if_pos hax] at h
      have hi : i = 0 := (Option.some.inj h).symm
      subst hi
      subst hax
      simp
    · rw [if_neg hax] at h
      cases hr : indexOf rest x with
      | none => rw [hr] at h; simp at h
      | some j =>
        rw [hr] at h
        have hi : i = j + 1 := (Option.some.inj h).symm
        subst hi
        have hne : (a == x) = false := by simpa using hax
        rw [List.erase_cons, hne]
        simp only [List.take_succ_cons, List.drop_succ_cons, List.cons_append, Bool.false_eq_true,
          if_false]
        rw [ih j hr]

theorem remove_list (s : SuspendedList α) (item : α) :
    (SuspendedList.remove s item)._list = s._list.erase item := by
  unfold SuspendedList.remove
  cases h : indexOf s._list item with
  | none =>
    have hn := (indexOf_eq_none _ _).mp h
    simp only
    exact (List.erase_of_not_mem hn).symm
  | some i =>
    simp only
    have hi := ((indexOf_eq_some _ _ _).mp h).1
    obtain ⟨hlt, _⟩ := List.getElem?_eq_some.mp hi
    rw [splice_remove _ _ hlt]
    exact take_drop_eq_erase item _ _ h

theorem applyAfterInsertion_perm (fuel : Nat) (s : SuspendedList α) (list : List α)
    (item : α) : ((applyAfterInsertion fuel s list item).state._list).Perm list := by
  unfold applyAfterInsertion _applyRulesForItem
  cases h : s._rules.getRightBoundsForItem item with
  | none => exact List.Perm.refl _
  | some bounds => exact (engine_perm s._rules fuel).1 item list _

/-- When `getRightBoundsForItem(item)` returns an empty Set, insertion (any
positive depth of calls) returns normally and is plain positional insertion:
`pushLeft(item)` gives the item followed by the old array, `pushRight(item)`
the old array followed by the item, and `insert(item, i)` with
`0 <= i <= length` the old array with the item at index `i`. -/
theorem insertion_without_successors_is_plain (n : Nat) (s : SuspendedList α) (item : α)
    (h : s._rules.getRightBoundsForItem item = some []) :
    pushLeft (n + 1) s item = ⟨{ s with _list := item :: s._list }, .ok⟩ ∧
    pushRight (n + 1) s item = ⟨{ s with _list := s._list ++ [item] }, .ok⟩ ∧
    ∀ i : Nat, i ≤ s._list.length →
      SuspendedList.insert (n + 1) s item (i : Int) =
        ⟨{ s with _list := s._list.take i ++ item :: s._list.drop i }, .ok⟩ := by
  refine ⟨applyAfterInsertion_of_no_bounds n s _ item h,
    applyAfterInsertion_of_no_bounds n s _ item h, ?_⟩
  intro i hi
  unfold SuspendedList.insert
  rw [applyAfterInsertion_of_no_bounds n s _ item h, splice_insert, spliceStart_natCast,
    Nat.min_eq_left hi]

/-- The rule "`a` before `b`" is added and removed again, then `b` is pushed
left and `a` pushed right: the array is `[b, a]`. -/
theorem insertion_without_successors_is_plain_witness :
    (pushRight (0 + 1) (pushLeft 1 (removeRuleXBeforeY
        (addRuleXBeforeY 1 (SuspendedList.new identity) "a" "b").state "a" "b").state "b").state
      "a").state._list = ["b", "a"] :=
  congrArg (fun o => o.state._list)
    (insertion_without_successors_is_plain 0 (pushLeft 1 (removeRuleXBeforeY
        (addRuleXBeforeY 1 (SuspendedList.new identity) "a" "b").state "a" "b").state "b").state
      "a" (by decide)).2.1

/-- C15: no insertion or removal of an item changes the rule index: after
`pushLeft`, `pushRight`, `insert`, `remove`, `removeAtIndex`, `popLeft` or
`popRight`, however the call ends, the rule index is the one before the call. -/
theorem insertion_and_removal_keep_the_rules (fuel : Nat) (s : SuspendedList α) (item : α)
    (index : Int) :
    (pushLeft fuel s item).state._rules = s._rules ∧
    (pushRight fuel s item).state._rules = s._rules ∧
    (SuspendedList.insert fuel s item index).state._rules = s._rules ∧
    (SuspendedList.remove s item)._rules = s._rules ∧
    (removeAtIndex s index)._rules = s._rules ∧
    (popLeft s).2._rules = s._rules ∧
    (popRight s).2._rules = s._rules := by
  refine ⟨rfl, rfl, rfl, ?_, rfl, rfl, rfl⟩
  unfold SuspendedList.remove
  split <;> rfl

/-- C16: `removeAtIndex(i)` with `0 <= i < length` gives the array without
the element at index `i`, the others in their order; `remove(item)` gives the
array without the first occurrence of `item`, and the same array when `item`
does not occur; both leave the rule index as it is. -/
theorem removal_deletes_one_element (s : SuspendedList α) (i : Nat) (item : α)
    (hi : i < s._list.length) :
    (removeAtIndex s (i : Int))._list = s._list.eraseIdx i ∧
    (removeAtIndex s (i : Int))._list = s._list.take i ++ s._list.drop (i + 1) ∧
    (SuspendedList.remove s item)._list = s._list.erase item ∧
    (∀ j, indexOf s._list item = some j →
      (SuspendedList.remove s item)._list = s._list.take j ++ s._list.drop (j + 1)) ∧
    (item ∉ s._list → (SuspendedList.remove s item)._list = s._list) := by
  have h1 : (removeAtIndex s (i : Int))._list = s._list.take i ++ s._list.drop (i + 1) := by
    unfold removeAtIndex
    exact splice_remove _ _ hi
  refine ⟨?_, h1, remove_list s item, ?_, ?_⟩
  · rw [h1, List.eraseIdx_eq_take_drop_succ]
  · intro j hj
    rw [remove_list, take_drop_eq_erase item _ _ hj]
  · intro hn
    rw [remove_list]
    exact List.erase_of_not_mem hn

/-- Witness for C16: `removeAtIndex(1)` on `[a, b, c, d, e]`. -/
theorem removal_deletes_one_element_witness :
    (removeAtIndex (abcde 1) ((1 : Nat) : Int))._list = (abcde 1)._list.eraseIdx 1 :=
  (removal_deletes_one_element (abcde 1) 1 "b" (by decide)).1

/-- C17 (the code diverges): `copy()` never returns a list: its first
statement reads the undeclared identifier `thjs` and throws. -/
theorem copy_always_throws (s : SuspendedList α) : s.copy = none := rfl

/-- C28: when `addRuleXBeforeY(x, y)` raises `ConflictingRulesError`, the rule
index afterwards is the rule index before the call; the same holds whenever
`_applyRuleXBeforeY` does not return normally, since `addRule` is called only
after it has returned. -/
theorem addRuleXBeforeY_rejected_rule_not_recorded (fuel : Nat) (s : SuspendedList α)
    (x y : α) :
    ((_applyRuleXBeforeY s._rules fuel s._list x y).status ≠ .ok →
      (addRuleXBeforeY fuel s x y).state._rules = s._rules) ∧
    ((∃ xString yString, (addRuleXBeforeY fuel s x y).status = .conflict xString yString) →
      (addRuleXBeforeY fuel s x y).state._rules = s._rules) := by
  have h1 : (_applyRuleXBeforeY s._rules fuel s._list x y).status ≠ .ok →
      (addRuleXBeforeY fuel s x y).state._rules = s._rules := by
    intro h
    unfold _applyRuleXBeforeY at h
    rw [addRuleXBeforeY_of_not_ok fuel s x y h]
  refine ⟨h1, ?_⟩
  intro hc
  apply h1
  unfold _applyRuleXBeforeY
  obtain ⟨a, b, hab⟩ := (addRuleXBeforeY_conflict fuel s x y).mp hc
  rw [hab]
  simp

/-- Witness for C28: the rejected rule "`c` before `a`" on `[a, b, c, d, e]`
with the rules "`a` before `b`" and "`b` before `c`". -/
theorem addRuleXBeforeY_rejected_rule_not_recorded_witness :
    (addRuleXBeforeY 4 (abcdeWithRules "a" "b" "b" "c") "c" "a").status
      = .conflict (some "b") (some "c") ∧
    (addRuleXBeforeY 4 (abcdeWithRules "a" "b" "b" "c") "c" "a").state._rules
      = (abcdeWithRules "a" "b" "b" "c")._rules :=
  ⟨by decide,
   (addRuleXBeforeY_rejected_rule_not_recorded 4 (abcdeWithRules "a" "b" "b" "c") "c" "a").2
     ⟨some "b", some "c", by decide⟩⟩

/-- C30: the array after `addRuleXBeforeY(x, y)`, however the call ends, is a
permutation of the array before; the array after `pushLeft`, `pushRight` or
`insert` of an item is a permutation of the old array plus that item. -/
theorem rearrangement_is_a_permutation (fuel : Nat) (s : SuspendedList α) (x y item : α)
    (index : Int) :
    ((addRuleXBeforeY fuel s x y).state._list).Perm s._list ∧
    ((addRuleXBeforeY fuel s x y).state._list).length = s._list.length ∧
    ((pushLeft fuel s item).state._list).Perm (item :: s._list) ∧
    ((pushRight fuel s item).state._list).Perm (item :: s._list) ∧
    ((SuspendedList.insert fuel s item index).state._list).Perm (item :: s._list) := by
  have h1 : ((addRuleXBeforeY fuel s x y).state._list).Perm s._list := by
    rw [addRuleXBeforeY_list]
    exact (engine_perm s._rules fuel).2.1 x y s._list true
  refine ⟨h1, h1.length_eq, applyAfterInsertion_perm fuel s _ item, ?_, ?_⟩
  · exact (applyAfterInsertion_perm fuel s _ item).trans
      (List.perm_append_comm.trans (by simp))
  · refine (applyAfterInsertion_perm fuel s _ item).trans ?_
    rw [splice_insert]
    exact List.perm_middle.trans (List.Perm.cons _ (by rw [List.take_append_drop]))

open SuspendedList

/-! ## A legal move breaks no stored rule, whatever the state -/

/-- Where an item stands after a move, in terms of where it stood before. -/
theorem moved_getElem?_cases (l : List α) (e t : Nat) (a : α) (k : Nat) (b : α)
    (het : e < t) (ht : t < l.length) (hb : (moved l e t a)[k]? = some b) :
    (k = t ∧ b = a) ∨
    ∃ k0, l[k0]? = some b ∧
      ((k < e ∧ k0 = k) ∨ (e ≤ k ∧ k < t ∧ k0 = k + 1) ∨ (t < k ∧ k0 = k)) := by
  by_cases h1 : k < e
  · rw [moved_getElem?_below l e t a k h1 ht het] at hb
    exact Or.inr ⟨k, hb, Or.inl ⟨h1, rfl⟩⟩
  · by_cases h2 : k < t
    · rw [moved_getElem?_between l e t a k (by omega) h2 ht] at hb
      exact Or.inr ⟨k + 1, hb, Or.inr (Or.inl ⟨by omega, h2, rfl⟩)⟩
    · by_cases h3 : k = t
      · subst h3
        rw [moved_getElem?_new l e k a het ht] at hb
        exact Or.inl ⟨rfl, (Option.some.inj hb).symm⟩
      · rw [moved_getElem?_above l e t a k het ht (by omega)] at hb
        exact Or.inr ⟨k, hb, Or.inr (Or.inr ⟨by omega, rfl⟩)⟩

theorem moved_precedes (rules : PositionRules α) (l : List α) (e t : Nat) (a : α)
    (h : l[e]? = some a) (het : e < t) (ht : t < l.length)
    (hfree : ∀ b ∈ (l.drop (e + 1)).take (t - e), ¬ Stored rules a b)
    (p s : α) (hst : Stored rules p s) (hp : Precedes l p s) :
    Precedes (moved l e t a) p s := by
  rw [precedes_iff] at hp ⊢
  intro i j hi hj
  rcases moved_getElem?_cases l e t a i p het ht hi with ⟨hit, hpa⟩ | ⟨i0, hi0, hic⟩
  · rcases moved_getElem?_cases l e t a j s het ht hj with ⟨hjt, hsa⟩ | ⟨j0, hj0, hjc⟩
    · rw [hpa] at hp
      rw [hsa] at hp
      have := hp e e h h
      omega
    · rw [hpa] at hp hst
      have h0 := hp e j0 h hj0
      rcases hjc with ⟨h1, h2⟩ | ⟨h1, h2, h3⟩ | ⟨h1, h2⟩
      · omega
      · exfalso
        apply hfree s _ hst
        rw [List.mem_iff_getElem?]
        refine ⟨j - e, ?_⟩
        rw [List.getElem?_take]
        have hlt : j - e < t - e := by omega
        simp only [hlt, if_true]
        rw [List.getElem?_drop]
        have : e + 1 + (j - e) = j0 := by omega
        rw [this]
        exact hj0
      · omega
  · rcases moved_getElem?_cases l e t a j s het ht hj with ⟨hjt, hsa⟩ | ⟨j0, hj0, hjc⟩
    · rw [hsa] at hp
      have h0 := hp i0 e hi0 h
      rcases hic with ⟨h1, h2⟩ | ⟨h1, h2, h3⟩ | ⟨h1, h2⟩ <;> omega
    · have h0 := hp i0 j0 hi0 hj0
      rcases hic with ⟨h1, h2⟩ | ⟨h1, h2, h3⟩ | ⟨h1, h2⟩ <;>
        rcases hjc with ⟨h4, h5⟩ | ⟨h4, h5, h6⟩ | ⟨h4, h5⟩ <;> omega

/-- Every stored rule that holds in the array before a call of
`_applyRulesForItem`, `_applyRuleXBeforeY` or `_moveStackToRightOfTarget`
holds in the array after it, however the call ends and whether or not the
other stored rules hold. -/
theorem engine_keeps_rule_readable (rules : PositionRules α) (hr : rules.Readable) (p s : α)
    (hst : Stored rules p s) :
    ∀ fuel : Nat,
    (∀ item list bounds, Precedes list p s →
      Precedes (forEachRightBound rules item fuel list bounds).list p s) ∧
    (∀ x y list first, Precedes list p s →
      Precedes (applyRuleLoop rules x y fuel list first).list p s) ∧
    (∀ list stack (t : Nat), stack.Pairwise (· > ·) → (∀ e ∈ stack, e ≤ t) → t < list.length →
      Precedes list p s → Precedes (moveStack rules fuel list stack t).list p s) := by
  intro fuel
  induction fuel with
  | zero =>
    refine ⟨?_, ?_, ?_⟩
    · intro item list bounds h; simpa [forEachRightBound] using h
    · intro x y list first h; simpa [applyRuleLoop] using h
    · intro list stack t _ _ _ h; simpa [moveStack] using h
  | succ n ih =>
    obtain ⟨ih1, ih2, ih3⟩ := ih
    refine ⟨?_, ?_, ?_⟩
    · intro item list bounds h
      cases bounds with
      | nil => simpa [forEachRightBound] using h
      | cons rb rest =>
        rw [forEachRightBound]
        exact andThen_list_of (fun l1 => Precedes l1 p s) (ih2 _ _ _ _ h) (fun h1 => ih1 _ _ _ h1)
    · intro x y list first h
      rw [applyRuleLoop]
      split
      · rename_i xi yi hx hy
        split
        · rename_i hgt
          have hxl := ((lastIndexOf_eq_some list x xi).mp hx).1
          obtain ⟨hlt, _⟩ := List.getElem?_eq_some.mp hxl
          refine andThen_list_of (fun l1 => Precedes l1 p s) (ih3 list [yi] xi (List.pairwise_singleton _ _) ?_ hlt h) (fun h1 => ih2 _ _ _ _ h1)
          intro e he
          have : e = yi := by simpa using he
          omega
        · exact h
      · exact h
      · split <;> exact h
    · intro l stack t hsorted hle ht h
      cases stack with
      | nil => rw [moveStack_nil]; exact h
      | cons e rest =>
        have het : e ≤ t := hle e (by simp)
        obtain ⟨hgt, hsorted1⟩ := List.pairwise_cons.mp hsorted
        by_cases heq : e = t
        · subst heq
          rw [(moveStack_conflict rules hr n l e rest).1]
          exact h
        · have hlt : e < t := by omega
          have hel : e < l.length := by omega
          obtain ⟨a, ha⟩ : ∃ a, l[e]? = some a := ⟨l[e], List.getElem?_eq_getElem hel⟩
          rcases free_or_bound rules l e t a with hfree | ⟨k, c, hs, hk, _, _⟩
          · rw [moveStack_move rules hr n l e t rest a ha hlt ht hfree]
            have hm := moved_precedes rules l e t a ha hlt ht hfree p s hst h
            have hlen := moved_length l e t a hlt ht
            refine andThen_list_of (fun l1 => Precedes l1 p s) (ih1 _ _ _ hm) (fun h1 => ih3 _ rest (t - 1) hsorted1 ?_ ?_ h1)
            · intro e1 he1
              have := hgt e1 he1
              omega
            · rw [((engine_perm rules n).1 a (moved l e t a) _).length_eq, hlen]
              omega
          · rw [moveStack_push rules hr n l e t rest a ha hlt k hs hk]
            apply ih3 l _ t _ _ ht h
            · rw [List.pairwise_cons]
              refine ⟨?_, hsorted⟩
              intro e1 he1
              rcases List.mem_cons.mp he1 with rfl | he1
              · omega
              · have := hgt e1 he1
                omega
            · intro e1 he1
              rcases List.mem_cons.mp he1 with rfl | he1
              · omega
              · exact hle e1 he1

theorem engine_keeps_rule (rules : PositionRules α) (p s : α) (hst : Stored rules p s)
    (fuel : Nat) :
    (∀ item list bounds, Precedes list p s →
      Precedes (forEachRightBound rules item fuel list bounds).list p s) ∧
    (∀ x y list first, Precedes list p s →
      Precedes (applyRuleLoop rules x y fuel list first).list p s) := by
  by_cases hr : rules.Readable
  · exact ⟨(engine_keeps_rule_readable rules hr p s hst fuel).1,
      (engine_keeps_rule_readable rules hr p s hst fuel).2.1⟩
  · constructor
    · intro item list bounds h
      rw [forEachRightBound_not_readable rules hr item fuel list bounds]
      exact h
    · intro x y list first h
      rw [(applyRuleLoop_not_readable rules hr x y fuel list first).1]
      exact h

/-- After `_applyRulesForItem(item)` returns, the item stands before every
right bound visited, other than the item itself. -/
theorem forEachRightBound_precedes (rules : PositionRules α) (item : α) :
    ∀ (fuel : Nat) (list bounds : List α),
      (∀ b ∈ bounds, Stored rules item b) →
      (forEachRightBound rules item fuel list bounds).status = .ok →
      ∀ b ∈ bounds, b ≠ item →
        Precedes (forEachRightBound rules item fuel list bounds).list item b := by
  intro fuel
  induction fuel with
  | zero =>
    intro list bounds _ hok
    simp [forEachRightBound] at hok
  | succ n ih =>
    intro list bounds hst hok b hb hne
    cases bounds with
    | nil => simp at hb
    | cons rb rest =>
      rw [forEachRightBound] at hok ⊢
      by_cases hs : (applyRuleLoop rules item rb n list true).status = .ok
      · rw [andThen_of_ok hs] at hok ⊢
        rcases List.mem_cons.mp hb with rfl | hb1
        · have h1 := applyRuleLoop_precedes rules item b (Ne.symm hne) n list true hs
          exact (engine_keeps_rule rules item b (hst b (by simp)) n).1 item _ rest h1
        · exact ih _ rest (fun c hc => hst c (by simp [hc])) hok b hb1 hne
      · rw [andThen_of_not_ok hs] at hok
        exact absurd hok hs

open SuspendedList

/-! ## Insertion and the rules of the inserted item -/

theorem applyAfterInsertion_orders (fuel : Nat) (s : SuspendedList α) (list : List α)
    (item : α) (hmem : item ∈ list)
    (hok : (applyAfterInsertion fuel s list item).status = .ok) :
    item ∈ (applyAfterInsertion fuel s list item).state._list ∧
    ∀ y, Stored s._rules item y → y ≠ item →
      Precedes (applyAfterInsertion fuel s list item).state._list item y := by
  constructor
  · exact (applyAfterInsertion_perm fuel s list item).symm.subset hmem
  · intro y hy hne
    unfold Stored PositionRules.rightBounds at hy
    unfold applyAfterInsertion _applyRulesForItem at hok ⊢
    cases hb : s._rules.getRightBoundsForItem item with
    | none =>
      rw [hb] at hok
      simp at hok
    | some bounds =>
      rw [hb] at hok hy
      simp only at hok ⊢
      have hst : ∀ b ∈ bounds, Stored s._rules item b := by
        intro b hbb
        unfold Stored PositionRules.rightBounds
        rw [hb]
        exact hbb
      exact forEachRightBound_precedes s._rules item fuel list bounds hst hok y hy hne

theorem getRight_of_not_shadowed (r : PositionRules α)
    (h : shadowsHasOwnProperty r._rulesLHS = false) (x : α) :
    r.getRightBoundsForItem x =
      some (if PropertyName.kind (r._serializer x) = .proto then []
        else setOf r._rulesLHS (r._serializer x)) := by
  unfold PositionRules.getRightBoundsForItem hasOwnProperty setOf
  simp only [h, Bool.false_eq_true, if_false]
  by_cases hk : PropertyName.kind (r._serializer x) = PropertyKind.proto
  · simp [hk]
  · simp only [hk, if_false]
    cases objGet r._rulesLHS (r._serializer x) <;> simp

theorem rightBounds_of_shadowed (r : PositionRules α)
    (h : shadowsHasOwnProperty r._rulesLHS = true) (x : α) : r.rightBounds x = [] := by
  unfold PositionRules.rightBounds
  rw [getRight_of_not_readable_left r h]
  rfl

/-- What a half of `addRule` that returned has done to its dictionary. -/
theorem addToSet_some (o o1 : List (α × List α)) (k m : α)
    (h : PositionRules.addToSet o k m = some o1) :
    shadowsHasOwnProperty o = false ∧
    ∃ v, o1 = objSet o k v ∧
      ∀ q ∈ v, q = m ∨ (q ∈ setOf o k ∧ PropertyName.kind k ≠ .proto) := by
  unfold PositionRules.addToSet at h
  have hsh : shadowsHasOwnProperty o = false := by
    by_contra hc
    have hc1 : shadowsHasOwnProperty o = true := by simpa using hc
    unfold hasOwnProperty at h
    simp [hc1] at h
  refine ⟨hsh, ?_⟩
  cases hh : hasOwnProperty o k with
  | none =>
    rw [hh] at h
    simp at h
  | some has =>
    rw [hh] at h
    cases has with
    | false =>
      simp only at h
      unfold assignNew at h
      split at h
      · simp at h
      · refine ⟨setAdd [] m, (Option.some.inj h).symm, ?_⟩
        intro q hq
        left
        simpa [setAdd] using hq
    | true =>
      simp only at h
      refine ⟨_, (Option.some.inj h).symm, ?_⟩
      intro q hq
      rw [mem_setAdd] at hq
      rcases hq with hq | hq
      · right
        constructor
        · unfold setOf
          cases hg : objGet o k with
          | none => rw [hg] at hq; simp at hq
          | some v => rw [hg] at hq; simpa using hq
        · intro hk
          unfold hasOwnProperty at hh
          simp [hsh, hk] at hh
      · exact Or.inl hq

/-- A rule stored after an `addRule(x, y)` that returned was stored before or
is the rule added (keys being the items themselves). -/
theorem stored_addRule_cases (r : PositionRules α) (hser : ∀ a, r._serializer a = a)
    (x y p q : α) (hret : (r.addRule x y).threw = false)
    (hst : Stored (r.addRule x y).rules p q) : Stored r p q ∨ (p = x ∧ q = y) := by
  unfold PositionRules.addRule at hret hst
  simp only [hser] at hret hst
  cases h1 : PositionRules.addToSet r._rulesLHS x y with
  | none =>
    rw [h1] at hret
    simp at hret
  | some o1 =>
    rw [h1] at hret hst
    obtain ⟨hsh, v, hv, hmem⟩ := addToSet_some _ _ _ _ h1
    have hst1 : q ∈ PositionRules.rightBounds
        ({ r with _rulesLHS := o1 } : PositionRules α) p := by
      cases h2 : PositionRules.addToSet r._rulesRHS y x with
      | none =>
        rw [h2] at hst
        exact hst
      | some o2 =>
        rw [h2] at hst
        exact hst
    by_cases hs1 : shadowsHasOwnProperty o1 = true
    · rw [rightBounds_of_shadowed _ hs1] at hst1
      simp at hst1
    · have hs2 : shadowsHasOwnProperty o1 = false := by simpa using hs1
      unfold PositionRules.rightBounds at hst1
      rw [getRight_of_not_shadowed _ hs2] at hst1
      simp only [hser, Option.getD_some] at hst1
      by_cases hk : PropertyName.kind p = PropertyKind.proto
      · simp [hk] at hst1
      · simp only [hk, if_false] at hst1
        rw [hv, setOf_objSet] at hst1
        have hold : q ∈ setOf r._rulesLHS p → Stored r p q := by
          intro hq
          unfold Stored PositionRules.rightBounds
          rw [getRight_of_not_shadowed r hsh]
          simp only [hser, hk, if_false, Option.getD_some]
          exact hq
        by_cases hxp : x = p
        · subst hxp
          simp only [if_true] at hst1
          rcases hmem q hst1 with h3 | ⟨h3, _⟩
          · exact Or.inr ⟨rfl, h3⟩
          · exact Or.inl (hold h3)
        · simp only [hxp, if_false] at hst1
          exact Or.inl (hold hst1)

/-- C13 (amended): whenever `pushLeft(item)`, `pushRight(item)` or
`insert(item, i)` returns normally, the array contains the item and, for every
stored right bound `y` of the item other than the item itself, every
occurrence of the item is before every occurrence of `y`. -/
theorem insertion_orders_item_before_successors (fuel : Nat) (s : SuspendedList α) (item : α)
    (index : Int) :
    ((pushLeft fuel s item).status = .ok →
      item ∈ (pushLeft fuel s item).state._list ∧
      ∀ y, Stored s._rules item y → y ≠ item →
        Precedes (pushLeft fuel s item).state._list item y) ∧
    ((pushRight fuel s item).status = .ok →
      item ∈ (pushRight fuel s item).state._list ∧
      ∀ y, Stored s._rules item y → y ≠ item →
        Precedes (pushRight fuel s item).state._list item y) ∧
    ((SuspendedList.insert fuel s item index).status = .ok →
      item ∈ (SuspendedList.insert fuel s item index).state._list ∧
      ∀ y, Stored s._rules item y → y ≠ item →
        Precedes (SuspendedList.insert fuel s item index).state._list item y) := by
  refine ⟨?_, ?_, ?_⟩
  · exact applyAfterInsertion_orders fuel s _ item (by simp)
  · exact applyAfterInsertion_orders fuel s _ item (by simp)
  · apply applyAfterInsertion_orders fuel s _ item
    rw [splice_insert]
    simp

/-- Witness for C13: the rule "`a` before `b`" is recorded on an empty list,
then `b` is pushed left and `a` pushed right; the call returns and `a` stands
before `b`. -/
theorem insertion_orders_item_before_successors_witness :
    (pushRight 8 (pushLeft 1 (addRuleXBeforeY 1 (SuspendedList.new identity) "a" "b").state
      "b").state "a").state._list = ["a", "b"] ∧
    Precedes (pushRight 8 (pushLeft 1 (addRuleXBeforeY 1 (SuspendedList.new identity)
      "a" "b").state "b").state "a").state._list "a" "b" :=
  ⟨by decide,
   ((insertion_orders_item_before_successors 8
      (pushLeft 1 (addRuleXBeforeY 1 (SuspendedList.new identity) "a" "b").state "b").state
      "a" 0).2.1 (by decide)).2 "b" (by decide) (by decide)⟩

/-- Counterexample to C13 as stated: the rule "`a` before `a`" is recorded on
an empty list; `pushRight(a)` then returns normally with the array `[a]`, in
which `a` is a stored successor of `a` and no occurrence of `a` is before the
occurrence of `a`. -/
theorem pushRight_self_rule_not_ordered :
    (addRuleXBeforeY 1 (SuspendedList.new identity) "a" "a").status = .ok ∧
    (pushRight 3 (addRuleXBeforeY 1 (SuspendedList.new identity) "a" "a").state "a").status
      = .ok ∧
    (pushRight 3 (addRuleXBeforeY 1 (SuspendedList.new identity) "a" "a").state
      "a").state._list = ["a"] ∧
    Stored (addRuleXBeforeY 1 (SuspendedList.new identity) "a" "a").state._rules "a" "a" ∧
    ¬ Precedes (pushRight 3 (addRuleXBeforeY 1 (SuspendedList.new identity) "a" "a").state
      "a").state._list "a" "a" := by
  decide

/-- C26: in a state where every stored rule holds, for distinct `x` and `y`,
if `addRuleXBeforeY(x, y)` returns normally then every rule stored before the
call holds in the resulting array, `x` stands before `y` in it, and (keys
being the items themselves) every rule of the resulting index, the new one
included, holds in the resulting array. -/
theorem addRuleXBeforeY_keeps_rules_in_force (fuel : Nat) (s : SuspendedList α) (x y : α)
    (hser : ∀ a, s._rules._serializer a = a)
    (hall : AllRulesHold s._rules s._list) (hxy : x ≠ y)
    (hok : (addRuleXBeforeY fuel s x y).status = .ok) :
    AllRulesHold s._rules (addRuleXBeforeY fuel s x y).state._list ∧
    Precedes (addRuleXBeforeY fuel s x y).state._list x y ∧
    AllRulesHold (addRuleXBeforeY fuel s x y).state._rules
      (addRuleXBeforeY fuel s x y).state._list := by
  have hok1 := addRuleXBeforeY_engine_ok fuel s x y hok
  have hv := (allRulesHold_iff_noViolation _ _).mp hall
  have h1 : AllRulesHold s._rules (addRuleXBeforeY fuel s x y).state._list := by
    rw [addRuleXBeforeY_list]
    exact (allRulesHold_iff_noViolation _ _).mpr
      (applyRuleLoop_keeps_invariant s._rules x y fuel s._list hv)
  have h2 : Precedes (addRuleXBeforeY fuel s x y).state._list x y := by
    rw [addRuleXBeforeY_list]
    exact applyRuleLoop_precedes s._rules x y hxy fuel s._list true hok1
  refine ⟨h1, h2, ?_⟩
  have hr : (addRuleXBeforeY fuel s x y).state._rules = (s._rules.addRule x y).rules := by
    rw [addRuleXBeforeY_rules_of_ok fuel s x y hok1]
    rfl
  have hthrew : (s._rules.addRule x y).threw = false := by
    rw [addRuleXBeforeY_rules_of_ok fuel s x y hok1] at hok
    unfold afterRules at hok
    cases ht : (s._rules.addRule x y).threw with
    | false => rfl
    | true => rw [ht] at hok; simp at hok
  rw [hr]
  intro p hp q hq hst
  rcases stored_addRule_cases s._rules hser x y p q hthrew hst with h | ⟨rfl, rfl⟩
  · exact h1 p hp q hq h
  · exact h2

/-- Witness for C26: on `[a, b, c, d, e]` with the rules "`b` before `c`" and
"`c` before `d`", `addRuleXBeforeY(e, b)` returns and `e` stands before `b`. -/
theorem addRuleXBeforeY_keeps_rules_in_force_witness :
    (addRuleXBeforeY 8 (abcdeWithRules "b" "c" "c" "d") "e" "b").status = .ok ∧
    Precedes (addRuleXBeforeY 8 (abcdeWithRules "b" "c" "c" "d") "e" "b").state._list
      "e" "b" :=
  ⟨by decide,
   (addRuleXBeforeY_keeps_rules_in_force 8 (abcdeWithRules "b" "c" "c" "d") "e" "b"
      (fun _ => rfl) (by decide) (by decide) (by decide)).2.1⟩

open SuspendedList

/-! ## Copies and keys -/

/-- C22 (the code diverges): `copy()` copies the two dictionaries but not the
Set objects they refer to.  After `addRule(a, b)`, `copy()`, and then
`addRule(a, c)` on the original, the copy answers `getRightBoundsForItem(a)`
with `b` and `c`, and `getLeftBoundsForItem(b)` is shared in the same way
after `addRule(d, b)`; a rule under a key the original did not have at the
time of the copy (`addRule(b, c)`) does not reach the copy. -/
theorem copy_shares_the_sets_with_the_original :
    RulesObject.getRightBoundsForItem
      (RulesObject.addRule [] (RulesObject.new identity) "a" "b").heap
      (RulesObject.addRule [] (RulesObject.new identity) "a" "b").rules.copy "a"
      = some ["b"] ∧
    RulesObject.getRightBoundsForItem
      (RulesObject.addRule (RulesObject.addRule [] (RulesObject.new identity) "a" "b").heap
        (RulesObject.addRule [] (RulesObject.new identity) "a" "b").rules "a" "c").heap
      (RulesObject.addRule [] (RulesObject.new identity) "a" "b").rules.copy "a"
      = some ["b", "c"] ∧
    RulesObject.getLeftBoundsForItem
      (RulesObject.addRule (RulesObject.addRule [] (RulesObject.new identity) "a" "b").heap
        (RulesObject.addRule [] (RulesObject.new identity) "a" "b").rules "d" "b").heap
      (RulesObject.addRule [] (RulesObject.new identity) "a" "b").rules.copy "b"
      = some ["a", "d"] ∧
    RulesObject.getRightBoundsForItem
      (RulesObject.addRule (RulesObject.addRule [] (RulesObject.new identity) "a" "b").heap
        (RulesObject.addRule [] (RulesObject.new identity) "a" "b").rules "b" "c").heap
      (RulesObject.addRule [] (RulesObject.new identity) "a" "b").rules.copy "b"
      = some [] := by
  decide

/-- C25 (the code diverges): with the serializer that takes the first letter
as key, the rule "`a1` before `b1`" is stored under the keys `a` and `b`; the
limits of `[a1, b1]` are all `null` although the key of `b1` is a stored
successor of the key of `a1` and the key of `a1` a stored predecessor of the
key of `b1`; and after `pushRight(b1)`, `pushRight(a1)` the array is
`[b1, a1]`, as it is after `addRuleXBeforeY(a1, b1)` on `[b1, a2]`: the items
are looked up by identity and compared with keys. -/
theorem rule_matching_is_not_by_key :
    (addRuleXBeforeY 1 (SuspendedList.new firstLetter) "a1" "b1").state._rules._rulesLHS
      = [("a", ["b"])] ∧
    firstLetter "b1" ∈ (addRuleXBeforeY 1 (SuspendedList.new firstLetter) "a1"
      "b1").state._rules.rightBounds "a1" ∧
    firstLetter "a1" ∈ (addRuleXBeforeY 1 (SuspendedList.new firstLetter) "a1"
      "b1").state._rules.leftBounds "b1" ∧
    calculateLeftRightMovementLimits ["a1", "b1"]
      (addRuleXBeforeY 1 (SuspendedList.new firstLetter) "a1" "b1").state._rules
      = some [⟨none, none⟩, ⟨none, none⟩] ∧
    (pushRight 8 (pushRight 8 (addRuleXBeforeY 1 (SuspendedList.new firstLetter) "a1"
      "b1").state "b1").state "a1").status = .ok ∧
    (pushRight 8 (pushRight 8 (addRuleXBeforeY 1 (SuspendedList.new firstLetter) "a1"
      "b1").state "b1").state "a1").state._list = ["b1", "a1"] ∧
    (addRuleXBeforeY 8 (pushRight 1 (pushRight 1 (SuspendedList.new firstLetter)
      "b1").state "a2").state "a1" "b1").status = .ok ∧
    (addRuleXBeforeY 8 (pushRight 1 (pushRight 1 (SuspendedList.new firstLetter)
      "b1").state "a2").state "a1" "b1").state._list = ["b1", "a2"] := by
  decide

open SuspendedList

/-! ## A conflict comes from a chain of stored rules -/

theorem moved_perm (l : List α) (e t : Nat) (a : α) (h : l[e]? = some a) (het : e < t)
    (ht : t < l.length) : (moved l e t a).Perm l := by
  rw [← splice_move_eq l e t a h het ht]
  exact splice_move_perm l e t a h

theorem transGen_link_of_perm (rules : PositionRules α) (l l1 : List α) (hp : l1.Perm l)
    (a b : α) (h : Relation.TransGen (Link rules l) a b) :
    Relation.TransGen (Link rules l1) a b :=
  Relation.TransGen.mono (fun c d hl => link_of_perm rules l l1 hp c d hl) h

/-- Every index on the stack holds an item reached from `y0` by a chain of
stored rules, or `y0` itself below the target; so when the top of the stack
is the target, a chain leads from `y0` to the item at the target. -/
theorem moveStack_conflict_chain (rules : PositionRules α) (hr : rules.Readable) (y0 x : α) :
    ∀ (fuel : Nat) (l : List α) (stack : List Nat) (t : Nat),
      NoViolation rules l → stack.Pairwise (· > ·) → (∀ e ∈ stack, e ≤ t) → t < l.length →
      l[t]? = some x →
      (∀ e ∈ stack, ∃ a, l[e]? = some a ∧
        (Relation.TransGen (Link rules l) y0 a ∨ (a = y0 ∧ e < t))) →
      (moveStack rules fuel l stack t).Conflict →
      Relation.TransGen (Link rules l) y0 x := by
  intro fuel
  induction fuel with
  | zero =>
    intro l stack t _ _ _ _ _ _ hc
    simp [moveStack, Result.Conflict] at hc
  | succ n ih =>
    intro l stack t hv hsorted hle ht hx hinv hc
    cases stack with
    | nil =>
      rw [moveStack_nil] at hc
      simp [Result.Conflict] at hc
    | cons e rest =>
      have het : e ≤ t := hle e (by simp)
      obtain ⟨hgt, hsorted1⟩ := List.pairwise_cons.mp hsorted
      obtain ⟨a, ha, hca⟩ := hinv e (by simp)
      by_cases heq : e = t
      · subst heq
        rw [hx] at ha
        have hxa : x = a := Option.some.inj ha
        subst hxa
        rcases hca with h1 | ⟨_, h2⟩
        · exact h1
        · omega
      · have hlt : e < t := by omega
        rcases free_or_bound rules l e t a with hfree | ⟨k, c, hs, hk, hcg, hst⟩
        · rw [moveStack_move rules hr n l e t rest a ha hlt ht hfree] at hc
          have hv1 := moved_noViolation rules l e t a ha hlt hv hfree
          have hfe := forEachRightBound_noop rules a (moved l e t a) hv1 n
            (rules.rightBounds a) (fun b hb => hb)
          have hperm := moved_perm l e t a ha hlt ht
          by_cases hn : (rules.rightBounds a).length < n
          · simp only [hn, if_true] at hfe
            rw [hfe, andThen_of_ok rfl] at hc
            simp only at hc
            have hlen := moved_length l e t a hlt ht
            have hres := ih (moved l e t a) rest (t - 1) hv1 hsorted1
              (by intro e1 he1; have := hgt e1 he1; omega)
              (by rw [hlen]; omega)
              (by rw [moved_getElem?_target l e t a hlt ht]; exact hx)
              (by
                intro e1 he1
                have hlt1 := hgt e1 he1
                obtain ⟨b, hb, hcb⟩ := hinv e1 (by simp [he1])
                refine ⟨b, ?_, ?_⟩
                · rw [moved_getElem?_below l e t a e1 hlt1 ht hlt]
                  exact hb
                · rcases hcb with h1 | ⟨h1, _⟩
                  · exact Or.inl (transGen_link_of_perm rules l _ hperm y0 b h1)
                  · exact Or.inr ⟨h1, by omega⟩)
              hc
            exact transGen_link_of_perm rules _ l hperm.symm y0 x hres
          · simp only [hn, if_false] at hfe
            rw [hfe, andThen_of_not_ok (by simp)] at hc
            simp [Result.Conflict] at hc
        · rw [moveStack_push rules hr n l e t rest a ha hlt k hs hk] at hc
          apply ih l ((e + k + 1) :: e :: rest) t hv _ _ ht hx _ hc
          · rw [List.pairwise_cons]
            refine ⟨?_, hsorted⟩
            intro e1 he1
            rcases List.mem_cons.mp he1 with rfl | he1
            · omega
            · have := hgt e1 he1
              omega
          · intro e1 he1
            rcases List.mem_cons.mp he1 with rfl | he1
            · omega
            · exact hle e1 he1
          · intro e1 he1
            rcases List.mem_cons.mp he1 with rfl | he1
            · refine ⟨c, hcg, Or.inl ?_⟩
              have hlink : Link rules l a c :=
                ⟨hst, List.mem_iff_getElem?.mpr ⟨e, ha⟩, List.mem_iff_getElem?.mpr ⟨_, hcg⟩⟩
              rcases hca with h1 | ⟨h1, _⟩
              · exact Relation.TransGen.tail h1 hlink
              · rw [← h1]
                exact Relation.TransGen.single hlink
            · exact hinv e1 he1

theorem applyRuleLoop_conflict_chain_readable (rules : PositionRules α) (hr : rules.Readable)
    (x y : α) :
    ∀ (fuel : Nat) (l : List α) (first : Bool),
      NoViolation rules l → (applyRuleLoop rules x y fuel l first).Conflict →
      Relation.TransGen (Link rules l) y x := by
  intro fuel
  induction fuel with
  | zero =>
    intro l first _ hc
    simp [applyRuleLoop, Result.Conflict] at hc
  | succ n ih =>
    intro l first hv hc
    rw [applyRuleLoop] at hc
    split at hc
    · rename_i xi yi hxi hyi
      split at hc
      · rename_i hgt
        have hxl := ((lastIndexOf_eq_some l x xi).mp hxi).1
        have hyl := ((indexOf_eq_some l y yi).mp hyi).1
        obtain ⟨hlt, _⟩ := List.getElem?_eq_some.mp hxl
        have hle : ∀ e ∈ [yi], e ≤ xi := by
          intro e he
          have : e = yi := by simpa using he
          omega
        rcases andThen_conflict hc with h1 | ⟨hok, h2⟩
        · apply moveStack_conflict_chain rules hr y x n l [yi] xi hv (List.pairwise_singleton _ _)
            hle hlt hxl _ h1
          intro e he
          have : e = yi := by simpa using he
          subst this
          exact ⟨y, hyl, Or.inr ⟨rfl, hgt⟩⟩
        · have hv1 := (moveStack_safe rules hr n l [yi] xi hv (List.pairwise_singleton _ _)
            hle hlt).1
          have hperm := (engine_perm rules n).2.2 l [yi] (xi : Int)
          exact transGen_link_of_perm rules _ l hperm.symm y x (ih _ false hv1 h2)
      · simp [Result.Conflict] at hc
    · simp [Result.Conflict] at hc
    · split at hc <;> simp [Result.Conflict] at hc

theorem applyRuleLoop_conflict_chain (rules : PositionRules α) (x y : α) (fuel : Nat)
    (l : List α) (first : Bool) (hv : NoViolation rules l)
    (hc : (applyRuleLoop rules x y fuel l first).Conflict) :
    Relation.TransGen (Link rules l) y x := by
  by_cases hr : rules.Readable
  · exact applyRuleLoop_conflict_chain_readable rules hr x y fuel l first hv hc
  · exact absurd hc (applyRuleLoop_not_readable rules hr x y fuel l first).2

/-- C27: in a state where every stored rule holds, if `addRuleXBeforeY(x, y)`
raises `ConflictingRulesError`, then a chain of one or more stored rules over
items of the array leads from `y` to `x`; with the rule "`x` before `y`" it
closes a cycle. -/
theorem addRuleXBeforeY_conflict_only_of_chain (fuel : Nat) (s : SuspendedList α) (x y : α)
    (hall : AllRulesHold s._rules s._list)
    (hconf : ∃ xString yString,
      (addRuleXBeforeY fuel s x y).status = .conflict xString yString) :
    Relation.TransGen (Link s._rules s._list) y x := by
  have hv := (allRulesHold_iff_noViolation _ _).mp hall
  rw [addRuleXBeforeY_conflict] at hconf
  exact applyRuleLoop_conflict_chain s._rules x y fuel s._list true hv hconf

/-- Witness for C27: the conflict on `[a, b, c, d, e]` with the rules "`a`
before `b`" and "`b` before `c`" when "`c` before `a`" is asked for. -/
theorem addRuleXBeforeY_conflict_only_of_chain_witness :
    (addRuleXBeforeY 4 (abcdeWithRules "a" "b" "b" "c") "c" "a").status
      = .conflict (some "b") (some "c") ∧
    Relation.TransGen (Link (abcdeWithRules "a" "b" "b" "c")._rules
      (abcdeWithRules "a" "b" "b" "c")._list) "a" "c" :=
  ⟨by decide,
   addRuleXBeforeY_conflict_only_of_chain 4 (abcdeWithRules "a" "b" "b" "c") "c" "a"
     (by decide) ⟨some "b", some "c", by decide⟩⟩

open SuspendedList

/-! ## Rearrangement is local -/

/-- Only the indices from the lowest index on the stack up to the target are
touched by `_moveStackToRightOfTarget`. -/
theorem moveStack_local (rules : PositionRules α) (hr : rules.Readable) :
    ∀ (fuel : Nat) (l : List α) (stack : List Nat) (t m : Nat),
      NoViolation rules l → stack.Pairwise (· > ·) → (∀ e ∈ stack, m ≤ e ∧ e ≤ t) →
      t < l.length →
      ∀ j, (j < m ∨ t < j) → (moveStack rules fuel l stack t).list[j]? = l[j]? := by
  intro fuel
  induction fuel with
  | zero =>
    intro l stack t m _ _ _ _ j _
    simp [moveStack]
  | succ n ih =>
    intro l stack t m hv hsorted hle ht j hj
    cases stack with
    | nil => rw [moveStack_nil]
    | cons e rest =>
      obtain ⟨hme, het⟩ := hle e (by simp)
      obtain ⟨hgt, hsorted1⟩ := List.pairwise_cons.mp hsorted
      by_cases heq : e = t
      · subst heq
        rw [(moveStack_conflict rules hr n l e rest).1]
      · have hlt : e < t := by omega
        have hel : e < l.length := by omega
        obtain ⟨a, ha⟩ : ∃ a, l[e]? = some a := ⟨l[e], List.getElem?_eq_getElem hel⟩
        rcases free_or_bound rules l e t a with hfree | ⟨k, c, hs, hk, _, _⟩
        · rw [moveStack_move rules hr n l e t rest a ha hlt ht hfree]
          have hv1 := moved_noViolation rules l e t a ha hlt hv hfree
          have hfe := forEachRightBound_noop rules a (moved l e t a) hv1 n
            (rules.rightBounds a) (fun b hb => hb)
          have hlen := moved_length l e t a hlt ht
          have hmoved : (moved l e t a)[j]? = l[j]? := by
            rcases hj with hj | hj
            · exact moved_getElem?_below l e t a j (by omega) ht hlt
            · exact moved_getElem?_above l e t a j hlt ht hj
          by_cases hn : (rules.rightBounds a).length < n
          · simp only [hn, if_true] at hfe
            rw [hfe, andThen_of_ok rfl]
            simp only
            rw [ih (moved l e t a) rest (t - 1) m hv1 hsorted1
              (by
                intro e1 he1
                have h1 := hgt e1 he1
                have h2 := (hle e1 (by simp [he1])).1
                omega)
              (by rw [hlen]; omega) j (by omega)]
            exact hmoved
          · simp only [hn, if_false] at hfe
            rw [hfe, andThen_of_not_ok (by simp)]
            exact hmoved
        · rw [moveStack_push rules hr n l e t rest a ha hlt k hs hk]
          apply ih l _ t m hv _ _ ht j hj
          · rw [List.pairwise_cons]
            refine ⟨?_, hsorted⟩
            intro e1 he1
            rcases List.mem_cons.mp he1 with rfl | he1
            · omega
            · have := hgt e1 he1
              omega
          · intro e1 he1
            rcases List.mem_cons.mp he1 with rfl | he1
            · omega
            · exact hle e1 he1

/-- Below the first `y` and above the last `x` the loop of
`_applyRuleXBeforeY(x, y)` changes nothing. -/
theorem applyRuleLoop_local_readable (rules : PositionRules α) (hr : rules.Readable)
    (x y : α) (p t : Nat) :
    ∀ (fuel : Nat) (l : List α) (first : Bool),
      NoViolation rules l → (∀ i, i < p → l[i]? ≠ some y) → (∀ i, t < i → l[i]? ≠ some x) →
      ∀ j, (j < p ∨ t < j) → (applyRuleLoop rules x y fuel l first).list[j]? = l[j]? := by
  intro fuel
  induction fuel with
  | zero =>
    intro l first _ _ _ j _
    simp [applyRuleLoop]
  | succ n ih =>
    intro l first hv hy hx
    rw [applyRuleLoop]
    split
    · rename_i xi yi hxi hyi
      split
      · rename_i hgt
        have hxl := ((lastIndexOf_eq_some l x xi).mp hxi).1
        have hyl := ((indexOf_eq_some l y yi).mp hyi).1
        obtain ⟨hlt, _⟩ := List.getElem?_eq_some.mp hxl
        have hpy : p ≤ yi := by
          by_contra hc
          exact hy yi (by omega) hyl
        have hxt : xi ≤ t := by
          by_contra hc
          exact hx xi (by omega) hxl
        have hle : ∀ e ∈ [yi], yi ≤ e ∧ e ≤ xi := by
          intro e he
          have : e = yi := by simpa using he
          omega
        have hle1 : ∀ e ∈ [yi], e ≤ xi := fun e he => (hle e he).2
        have h1 : ∀ j, (j < p ∨ t < j) → (moveStack rules n l [yi] xi).list[j]? = l[j]? := by
          intro j hj
          exact moveStack_local rules hr n l [yi] xi yi hv (List.pairwise_singleton _ _) hle hlt j
            (by omega)
        have hv1 := (moveStack_safe rules hr n l [yi] xi hv (List.pairwise_singleton _ _)
          hle1 hlt).1
        refine andThen_list_of (fun l1 => ∀ j, (j < p ∨ t < j) → l1[j]? = l[j]?) h1 ?_
        intro _ j hj
        rw [ih _ false hv1 (by intro i hi; rw [h1 i (Or.inl hi)]; exact hy i hi)
          (by intro i hi; rw [h1 i (Or.inr hi)]; exact hx i hi) j hj]
        exact h1 j hj
      · intro j _; rfl
    · intro j _; rfl
    · split <;> (intro j _; rfl)

theorem applyRuleLoop_local (rules : PositionRules α) (x y : α) (p t : Nat) (fuel : Nat)
    (l : List α) (hv : NoViolation rules l) (hy : ∀ i, i < p → l[i]? ≠ some y)
    (hx : ∀ i, t < i → l[i]? ≠ some x) (j : Nat) (hj : j < p ∨ t < j) :
    (applyRuleLoop rules x y fuel l true).list[j]? = l[j]? := by
  by_cases hr : rules.Readable
  · exact applyRuleLoop_local_readable rules hr x y p t fuel l true hv hy hx j hj
  · rw [(applyRuleLoop_not_readable rules hr x y fuel l true).1]

/-- C29: in a state where every stored rule holds, with the first `y` at
index `p` and the last `x` at index `t`, after `addRuleXBeforeY(x, y)`, however
the call ends, every index below `p` and every index above `t` holds the item
it held before; when `t < p` the whole array is as before. -/
theorem addRuleXBeforeY_is_local (fuel : Nat) (s : SuspendedList α) (x y : α) (p t : Nat)
    (hall : AllRulesHold s._rules s._list)
    (hp : indexOf s._list y = some p) (ht : lastIndexOf s._list x = some t) :
    (∀ j, j < p ∨ t < j →
      (addRuleXBeforeY fuel s x y).state._list[j]? = s._list[j]?) ∧
    (t < p → (addRuleXBeforeY fuel s x y).state._list = s._list) := by
  have hv := (allRulesHold_iff_noViolation _ _).mp hall
  have h1 : ∀ j, j < p ∨ t < j →
      (addRuleXBeforeY fuel s x y).state._list[j]? = s._list[j]? := by
    intro j hj
    rw [addRuleXBeforeY_list]
    exact applyRuleLoop_local s._rules x y p t fuel s._list hv
      ((indexOf_eq_some _ _ _).mp hp).2 ((lastIndexOf_eq_some _ _ _).mp ht).2 j hj
  refine ⟨h1, ?_⟩
  intro htp
  apply List.ext_getElem?
  intro j
  exact h1 j (by omega)

/-- Witness for C29: `addRuleXBeforeY(e, b)` on `[a, b, c, d, e]` with the
rules "`b` before `c`" and "`c` before `d`" leaves index 0 alone. -/
theorem addRuleXBeforeY_is_local_witness :
    (addRuleXBeforeY 8 (abcdeWithRules "b" "c" "c" "d") "e" "b").state._list[0]?
      = (abcdeWithRules "b" "c" "c" "d")._list[0]? :=
  (addRuleXBeforeY_is_local 8 (abcdeWithRules "b" "c" "c" "d") "e" "b" 1 4
    (by decide) (by decide) (by decide)).1 0 (Or.inl (by decide))

open SuspendedList

/-! ## The movement limits, position by position -/

theorem scanForBound_some_of (bs l : List α) (k : Nat) (b : α) (hk : l[k]? = some b)
    (hb : b ∈ bs) (hfree : ∀ m c, m < k → l[m]? = some c → c ∉ bs) :
    scanForBound bs l = some k := by
  rw [scanForBound_eq_some]
  refine ⟨⟨b, hk, hb⟩, ?_⟩
  intro c hc
  obtain ⟨m, hm⟩ := List.mem_iff_getElem?.mp hc
  rw [List.getElem?_take] at hm
  by_cases hmk : m < k
  · simp only [hmk, if_true] at hm
    exact hfree m c hmk hm
  · simp [hmk] at hm

theorem scanForBound_none_of (bs l : List α)
    (hfree : ∀ (m : Nat) (c : α), l[m]? = some c → c ∉ bs) :
    scanForBound bs l = none := by
  rw [scanForBound_eq_none]
  intro c hc
  obtain ⟨m, hm⟩ := List.mem_iff_getElem?.mp hc
  exact hfree m c hm

/-- The items the backward loop at index `i` visits, by the number of items
visited before. -/
theorem take_reverse_getElem? (l : List α) (i m : Nat) (hi : i ≤ l.length) (hm : m < i) :
    (l.take i).reverse[m]? = l[i - 1 - m]? := by
  have hlen : (l.take i).length = i := by
    simp only [List.length_take]; omega
  rw [List.getElem?_reverse (by rw [hlen]; exact hm), hlen, List.getElem?_take]
  have : i - 1 - m < i := by omega
  simp [this]

theorem take_reverse_getElem?_some (l : List α) (i m : Nat) (c : α) (hi : i ≤ l.length)
    (h : (l.take i).reverse[m]? = some c) : m < i ∧ l[i - 1 - m]? = some c := by
  have hlen : (l.take i).reverse.length = i := by
    simp only [List.length_reverse, List.length_take]; omega
  have hm : m < i := by
    rw [← hlen]
    exact (List.getElem?_eq_some.mp h).1
  exact ⟨hm, by rw [← take_reverse_getElem? l i m hi hm]; exact h⟩

theorem limits_left (l : List α) (rules : PositionRules α) (e : Nat) (a : α)
    (h : l[e]? = some a) :
    (limitsOf l rules)[e]?.bind (·.left) =
      scanForBound (rules.leftBounds a) (l.take e).reverse := by
  rw [limits_getElem?, h]
  rfl

theorem limit_of_getElem? (l : List α) (rules : PositionRules α) (i : Nat) (a : α)
    (lim : LeftRightMovementLimit) (ha : l[i]? = some a)
    (hlim : (limitsOf l rules)[i]? = some lim) :
    lim.left = scanForBound (rules.leftBounds a) (l.take i).reverse ∧
    lim.right = scanForBound (rules.rightBounds a) (l.drop (i + 1)) := by
  have h1 := limits_left l rules i a ha
  have h2 := limits_right l rules i a ha
  rw [hlim] at h1 h2
  exact ⟨h1, h2⟩

/-- When the getters of the index can be called,
`calculateLeftRightMovementLimits` returns one limit per position, and for
each position `i`: `left` is `i - j - 1` for the greatest index `j` below `i`
whose item is among the left bounds of the item at `i`, and `null` if there
is none; `right` is `j - i - 1` for the smallest index `j` above `i` whose
item is among its right bounds, and `null` if there is none.  For
`[a, b, c, d]` with the rule "`b` before `d`" the limit of `b` is
`left: null, right: 1`; an empty array gives `[]`; an index without rules
gives `null` everywhere. -/
theorem limits_position_by_position (list : List α) (rules : PositionRules α)
    (hr : rules.Readable) :
    calculateLeftRightMovementLimits list rules = some (limitsOf list rules) ∧
    (limitsOf list rules).length = list.length ∧
    (∀ i item, list[i]? = some item →
      ∃ lim, (limitsOf list rules)[i]? = some lim ∧
        ((∀ j b, j < i → list[j]? = some b → b ∉ rules.leftBounds item) →
          lim.left = none) ∧
        (∀ j b, j < i → list[j]? = some b → b ∈ rules.leftBounds item →
          (∀ j1 b1, j < j1 → j1 < i → list[j1]? = some b1 →
            b1 ∉ rules.leftBounds item) →
          lim.left = some (i - j - 1)) ∧
        ((∀ j b, i < j → list[j]? = some b → b ∉ rules.rightBounds item) →
          lim.right = none) ∧
        (∀ j b, i < j → list[j]? = some b → b ∈ rules.rightBounds item →
          (∀ j1 b1, i < j1 → j1 < j → list[j1]? = some b1 →
            b1 ∉ rules.rightBounds item) →
          lim.right = some (j - i - 1))) ∧
    (∀ serializer : α → α, calculateLeftRightMovementLimits list (PositionRules.new serializer)
      = some (List.replicate list.length ⟨none, none⟩)) ∧
    calculateLeftRightMovementLimits ([] : List α) rules = some [] ∧
    calculateLeftRightMovementLimits ["a", "b", "c", "d"]
      ((PositionRules.new identity).addRule "b" "d").rules
      = some [⟨none, none⟩, ⟨none, some 1⟩, ⟨none, none⟩, ⟨some 1, none⟩] := by
  refine ⟨limits_of_readable rules hr list, ?_, ?_, ?_, rfl, by decide⟩
  · unfold limitsOf
    exact List.length_mapIdx
  · intro i item hi
    obtain ⟨hil, _⟩ := List.getElem?_eq_some.mp hi
    refine ⟨limitOf list rules i item, by rw [limits_getElem?, hi]; rfl, ?_, ?_, ?_, ?_⟩
    · intro hnone
      apply scanForBound_none_of
      intro m c hm
      obtain ⟨hmi, hc⟩ := take_reverse_getElem?_some list i m c (by omega) hm
      exact hnone (i - 1 - m) c (by omega) hc
    · intro j b hj hb hmem hfree
      apply scanForBound_some_of _ _ (i - j - 1) b _ hmem
      · intro m c hm hc
        rw [take_reverse_getElem? list i m (by omega) (by omega)] at hc
        exact hfree (i - 1 - m) c (by omega) (by omega) hc
      · rw [take_reverse_getElem? list i _ (by omega) (by omega)]
        have : i - 1 - (i - j - 1) = j := by omega
        rw [this]
        exact hb
    · intro hnone
      apply scanForBound_none_of
      intro m c hm
      rw [List.getElem?_drop] at hm
      exact hnone (i + 1 + m) c (by omega) hm
    · intro j b hj hb hmem hfree
      apply scanForBound_some_of _ _ (j - i - 1) b _ hmem
      · intro m c hm hc
        rw [List.getElem?_drop] at hc
        exact hfree (i + 1 + m) c (by omega) (by omega) hc
      · rw [List.getElem?_drop]
        have : i + 1 + (j - i - 1) = j := by omega
        rw [this]
        exact hb
  · intro serializer
    have hrn : (PositionRules.new serializer).Readable :=
      readable_of_plain _ (new_plain serializer)
    rw [limits_of_readable _ hrn]
    congr 1
    apply List.ext_getElem?
    intro i
    rw [limits_getElem?, List.getElem?_replicate]
    by_cases hi : i < list.length
    · rw [List.getElem?_eq_getElem hi]
      simp only [hi, if_true, Option.map_some']
      congr 1
      unfold limitOf
      have h1 : ∀ l1 : List α, scanForBound ([] : List α) l1 = none := by
        intro l1
        apply scanForBound_none_of
        intro m c _
        simp
      have h2 : ∀ x, (PositionRules.new serializer).leftBounds x = [] := fun x => by
        rw [leftBounds_of_plain _ (new_plain serializer)]
        rfl
      have h3 : ∀ x, (PositionRules.new serializer).rightBounds x = [] := fun x => by
        rw [rightBounds_of_plain _ (new_plain serializer)]
        rfl
      rw [h2, h3, h1, h1]
    · simp only [hi, if_false]
      rw [List.getElem?_eq_none (by omega)]
      rfl

open SuspendedList

/-! ## The limits are how far an item can move -/

/-- On an index built by its methods without the keys `hasOwnProperty` and
`__proto__`, with items as their own keys, `b` is a left bound of `a` exactly
when the rule "`b` before `a`" is stored. -/
theorem stored_iff_leftBound (rules : PositionRules α)
    (hreach : PositionRules.Reachable identity rules) (a b : α) :
    Stored rules b a ↔ b ∈ rules.leftBounds a := by
  obtain ⟨hp, hsym, hser⟩ := reachable_invariant identity rules hreach
  unfold Stored
  rw [rightBounds_of_plain rules hp, leftBounds_of_plain rules hp, hser]
  exact hsym b a

/-- Moving one item to the left across items none of which has to precede it
keeps the invariant. -/
theorem noViolation_move_left (rules : PositionRules α) (A B C : List α) (a : α)
    (h : NoViolation rules (A ++ (B ++ a :: C))) (hB : ∀ b ∈ B, ¬ Stored rules b a) :
    NoViolation rules (A ++ a :: (B ++ C)) := by
  unfold NoViolation at h ⊢
  obtain ⟨hpw, hdiag⟩ := h
  constructor
  · simp only [List.pairwise_append, List.pairwise_cons, List.mem_append, List.mem_cons] at hpw ⊢
    obtain ⟨hA, ⟨hB1, ⟨haC, hC⟩, hBC⟩, hA2⟩ := hpw
    refine ⟨hA, ⟨?_, hB1, hC, ?_⟩, ?_⟩
    · intro c hc
      rcases hc with hc | hc
      · exact hB c hc
      · exact haC c hc
    · intro b hb c hc
      exact hBC b hb c (Or.inr hc)
    · intro c hc d hd
      rcases hd with rfl | hd | hd
      · exact hA2 c hc d (Or.inr (Or.inl rfl))
      · exact hA2 c hc d (Or.inl hd)
      · exact hA2 c hc d (Or.inr (Or.inr hd))
  · intro c hc
    apply hdiag
    simp only [List.mem_append, List.mem_cons] at hc ⊢
    tauto

theorem list_eq_split_left (l : List α) (i d : Nat) (a : α) (h : l[i]? = some a) :
    l = l.take (i - d) ++ ((l.take i).drop (i - d) ++ a :: l.drop (i + 1)) := by
  have h1 := list_split_at l i a h
  have h2 : l.take (i - d) = (l.take i).take (i - d) := by
    rw [List.take_take]
    congr 1
    omega
  rw [h2, ← List.append_assoc, List.take_append_drop]
  exact h1

theorem moved_self (l : List α) (i : Nat) (a : α) (h : l[i]? = some a) :
    moved l i (i + 0) a = l := by
  unfold moved
  have h1 := list_split_at l i a h
  simp only [Nat.add_zero, Nat.sub_self, List.take_zero, List.nil_append]
  exact h1.symm

theorem movedLeft_getElem?_new (l : List α) (i d : Nat) (a : α) (hi : i < l.length)
    (hd : d ≤ i) : (movedLeft l i d a)[i - d]? = some a := by
  unfold movedLeft
  have hA : (l.take (i - d)).length = i - d := by
    simp only [List.length_take]; omega
  rw [List.getElem?_append_right (by rw [hA]), hA]
  simp

theorem movedLeft_getElem?_next (l : List α) (i d : Nat) (a : α) (hi : i < l.length)
    (hd : d ≤ i) (hpos : 0 < d) : (movedLeft l i d a)[i - d + 1]? = l[i - d]? := by
  unfold movedLeft
  have hA : (l.take (i - d)).length = i - d := by
    simp only [List.length_take]; omega
  rw [List.getElem?_append_right (by rw [hA]; omega), hA]
  have h1 : i - d + 1 - (i - d) = 0 + 1 := by omega
  rw [h1, List.getElem?_cons_succ]
  have hB : 0 < ((l.take i).drop (i - d)).length := by
    simp only [List.length_drop, List.length_take]; omega
  rw [List.getElem?_append_left hB, List.getElem?_drop, List.getElem?_take]
  have : i - d < i := by omega
  rw [Nat.add_zero, if_pos this]

/-- In an array where every stored rule holds (index built by its methods
without the keys `hasOwnProperty` and `__proto__`, items as their own keys),
the item at index `i` moved `d` positions
to the right leaves every stored rule in force when `limits[i].right` is
`null` or `d <= limits[i].right`, and breaks a stored rule when
`d = limits[i].right + 1`; the same to the left with `limits[i].left`. -/
theorem limits_are_how_far_an_item_can_move (rules : PositionRules α)
    (hreach : PositionRules.Reachable identity rules) (l : List α)
    (hall : AllRulesHold rules l) (i : Nat) (a : α) (lim : LeftRightMovementLimit)
    (ha : l[i]? = some a)
    (hlim : (limitsOf l rules)[i]? = some lim) :
    (∀ d, i + d < l.length → (lim.right = none ∨ ∃ r, lim.right = some r ∧ d ≤ r) →
      AllRulesHold rules (moved l i (i + d) a)) ∧
    (∀ r, lim.right = some r →
      i + (r + 1) < l.length ∧ ¬ AllRulesHold rules (moved l i (i + (r + 1)) a)) ∧
    (∀ d, d ≤ i → (lim.left = none ∨ ∃ r, lim.left = some r ∧ d ≤ r) →
      AllRulesHold rules (movedLeft l i d a)) ∧
    (∀ r, lim.left = some r →
      r + 1 ≤ i ∧ ¬ AllRulesHold rules (movedLeft l i (r + 1) a)) := by
  obtain ⟨hleft, hright⟩ := limit_of_getElem? l rules i a lim ha hlim
  have hv := (allRulesHold_iff_noViolation _ _).mp hall
  obtain ⟨hil, _⟩ := List.getElem?_eq_some.mp ha
  refine ⟨?_, ?_, ?_, ?_⟩
  · intro d hd hok
    rw [allRulesHold_iff_noViolation]
    by_cases hd0 : d = 0
    · subst hd0
      rw [moved_self l i a ha]
      exact hv
    · apply moved_noViolation rules l i (i + d) a ha (by omega) hv
      rcases free_or_bound rules l i (i + d) a with hfree | ⟨k, c, hs, hk, _, _⟩
      · exact hfree
      · exfalso
        rw [hs] at hright
        rcases hok with h1 | ⟨r, h1, h2⟩
        · rw [h1] at hright
          exact Option.noConfusion hright
        · rw [h1] at hright
          have := Option.some.inj hright
          omega
  · intro r hr
    rw [hright] at hr
    obtain ⟨⟨c, hc, hcb⟩, _⟩ := (scanForBound_eq_some _ _ r).mp hr
    rw [List.getElem?_drop] at hc
    have hidx : i + 1 + r = i + (r + 1) := by omega
    rw [hidx] at hc
    obtain ⟨ht, _⟩ := List.getElem?_eq_some.mp hc
    refine ⟨ht, ?_⟩
    intro hall1
    have hnew := moved_getElem?_new l i (i + (r + 1)) a (by omega) ht
    have htgt := moved_getElem?_target l i (i + (r + 1)) a (by omega) ht
    rw [hc] at htgt
    have hp := hall1 a (List.mem_iff_getElem?.mpr ⟨_, hnew⟩) c
      (List.mem_iff_getElem?.mpr ⟨_, htgt⟩) hcb
    have := (precedes_iff _ _ _).mp hp _ _ hnew htgt
    omega
  · intro d hd hok
    rw [allRulesHold_iff_noViolation]
    unfold movedLeft
    apply noViolation_move_left
    · rw [← list_eq_split_left l i d a ha]
      exact hv
    · intro b hb hst
      rw [stored_iff_leftBound rules hreach] at hst
      obtain ⟨m, hm⟩ := List.mem_iff_getElem?.mp hb
      rw [List.getElem?_drop, List.getElem?_take] at hm
      have hmi : i - d + m < i := by
        by_contra hc
        simp [hc] at hm
      simp only [hmi, if_true] at hm
      have hrev := take_reverse_getElem? l i (i - 1 - (i - d + m)) (by omega) (by omega)
      have hidx : i - 1 - (i - 1 - (i - d + m)) = i - d + m := by omega
      rw [hidx, hm] at hrev
      have hbm : b ∈ (l.take i).reverse := List.mem_iff_getElem?.mpr ⟨_, hrev⟩
      rcases hok with h1 | ⟨r, h1, h2⟩
      · rw [hleft] at h1
        exact (scanForBound_eq_none _ _).mp h1 b hbm hst
      · rw [hleft] at h1
        apply ((scanForBound_eq_some _ _ r).mp h1).2 b _ hst
        rw [List.mem_iff_getElem?]
        refine ⟨i - 1 - (i - d + m), ?_⟩
        rw [List.getElem?_take]
        have : i - 1 - (i - d + m) < r := by omega
        simp only [this, if_true]
        exact hrev
  · intro r hr
    rw [hleft] at hr
    obtain ⟨⟨c, hc, hcb⟩, _⟩ := (scanForBound_eq_some _ _ r).mp hr
    obtain ⟨hri, hc1⟩ := take_reverse_getElem?_some l i r c (by omega) hc
    refine ⟨by omega, ?_⟩
    intro hall1
    have hnew := movedLeft_getElem?_new l i (r + 1) a hil (by omega)
    have hnext := movedLeft_getElem?_next l i (r + 1) a hil (by omega) (by omega)
    have hidx : i - (r + 1) = i - 1 - r := by omega
    rw [hidx] at hnew hnext
    rw [hc1] at hnext
    have hst : Stored rules c a := (stored_iff_leftBound rules hreach a c).mpr hcb
    have hp := hall1 c (List.mem_iff_getElem?.mpr ⟨_, hnext⟩) a
      (List.mem_iff_getElem?.mpr ⟨_, hnew⟩) hst
    have := (precedes_iff _ _ _).mp hp _ _ hnext hnew
    omega

/-- The example of the docstring: `[a, b, c]` with the rules "`a` before `b`" and "`a`
before `c`": `c` has the limit `left: 1`; moved one step to the left it gives
`[a, c, b]`, where both rules hold, and moved two steps `[c, a, b]`, where
"`a` before `c`" is broken. -/
theorem limits_are_how_far_an_item_can_move_witness :
    calculateLeftRightMovementLimits ["a", "b", "c"]
      (((PositionRules.new identity).addRule "a" "b").rules.addRule "a" "c").rules
      = some [⟨none, some 0⟩, ⟨some 0, none⟩, ⟨some 1, none⟩] ∧
    movedLeft ["a", "b", "c"] 2 1 "c" = ["a", "c", "b"] ∧
    AllRulesHold (((PositionRules.new identity).addRule "a" "b").rules.addRule "a" "c").rules
      (movedLeft ["a", "b", "c"] 2 1 "c") ∧
    movedLeft ["a", "b", "c"] 2 2 "c" = ["c", "a", "b"] ∧
    ¬ AllRulesHold (((PositionRules.new identity).addRule "a" "b").rules.addRule "a" "c").rules
      (movedLeft ["a", "b", "c"] 2 (1 + 1) "c") :=
  ⟨by decide, by decide,
   (limits_are_how_far_an_item_can_move
      (((PositionRules.new identity).addRule "a" "b").rules.addRule "a" "c").rules
      (PositionRules.Reachable.addRule "a" "c"
        (PositionRules.Reachable.addRule "a" "b" PositionRules.Reachable.new
          (by decide) (by decide)) (by decide) (by decide))
      ["a", "b", "c"] (by decide) 2 "c" ⟨some 1, none⟩ (by decide) (by decide)).2.2.1 1
      (by decide) (Or.inr ⟨1, rfl, by decide⟩),
   by decide,
   ((limits_are_how_far_an_item_can_move
      (((PositionRules.new identity).addRule "a" "b").rules.addRule "a" "c").rules
      (PositionRules.Reachable.addRule "a" "c"
        (PositionRules.Reachable.addRule "a" "b" PositionRules.Reachable.new
          (by decide) (by decide)) (by decide) (by decide))
      ["a", "b", "c"] (by decide) 2 "c" ⟨some 1, none⟩ (by decide) (by decide)).2.2.2 1
      rfl).2⟩

open SuspendedList

/-! ## Rules for the keys `hasOwnProperty` and `__proto__`

The dictionaries of the index are plain objects whose property names are
the keys the caller passes, and every method asks `dict.hasOwnProperty(key)`
through the dictionary itself.  A rule for the key `hasOwnProperty` is stored
as an own property of that name, after which the call is a call of a Set; a
Set assigned to `dict['__proto__']` becomes the prototype and no own
property.  The theorems of this section evaluate the methods on such
states. -/

/-- On a plain index and for keys other than `hasOwnProperty` and
`__proto__`, `addRule` applied twice with the same pair equals applying it
once. -/
theorem addRule_idem (r : PositionRules α) (hp : r.Plain) (lhs rhs : α)
    (hl : PlainKey (r._serializer lhs)) (hr : PlainKey (r._serializer rhs)) :
    (r.addRule lhs rhs).rules.addRule lhs rhs = r.addRule lhs rhs := by
  have hp2 := addRule_plain r hp lhs rhs hl hr
  rw [addRule_of_plain _ hp2]
  rw [addRule_of_plain r hp]
  simp [PositionRules.mustFollow, PositionRules.mustPrecede, setOf, objGet_objSet_same,
    objSet_objSet_same, setAdd_idem]

/-- On a plain index and for keys other than `hasOwnProperty` and
`__proto__`: when `addRuleXBeforeY(x, y)` returns normally, a second call
right after it returns normally (any positive depth of calls suffices) and
leaves the array and the rule index as the first call left them. -/
theorem addRuleXBeforeY_twice (fuel fuel2 : Nat) (s : SuspendedList α) (x y : α)
    (hp : s._rules.Plain) (hx : PlainKey (s._rules._serializer x))
    (hy : PlainKey (s._rules._serializer y))
    (hret : (addRuleXBeforeY fuel s x y).status = .ok) :
    addRuleXBeforeY (fuel2 + 1) (addRuleXBeforeY fuel s x y).state x y
      = ⟨(addRuleXBeforeY fuel s x y).state, .ok⟩ := by
  have heng := addRuleXBeforeY_engine_ok fuel s x y hret
  have hexit := applyRuleLoop_exit s._rules x y fuel s._list true heng
  have hthrew : (s._rules.addRule x y).threw = false := by
    rw [addRule_of_plain s._rules hp]
  have hnoop := applyRuleLoop_noop (s._rules.addRule x y).rules x y fuel2 _ hexit
  rw [addRuleXBeforeY_rules_of_ok fuel s x y heng]
  unfold addRuleXBeforeY _applyRuleXBeforeY afterRules
  simp only [hnoop, addRule_idem s._rules hp x y hx hy, hthrew]
  rfl

/-- The repetition of `addRuleXBeforeY(a, b)` on `[b, a]`: the first call
returns `[a, b]`, and so does the second, with the same state. -/
theorem addRuleXBeforeY_twice_example :
    (addRuleXBeforeY 3 (pushRight 1 (pushRight 1 (SuspendedList.new identity) "b").state "a").state
      "a" "b").status = .ok ∧
    addRuleXBeforeY (0 + 1) (addRuleXBeforeY 3
        (pushRight 1 (pushRight 1 (SuspendedList.new identity) "b").state "a").state "a" "b").state
        "a" "b"
      = ⟨(addRuleXBeforeY 3
        (pushRight 1 (pushRight 1 (SuspendedList.new identity) "b").state "a").state "a" "b").state,
        .ok⟩ :=
  ⟨by decide, addRuleXBeforeY_twice 3 0 _ "a" "b" (by decide) (by decide) (by decide)
    (by decide)⟩

/-- A `TypeError` of `addRule` can leave the index half updated: after
`addRuleXBeforeY('q', 'hasOwnProperty')` on a new list, the call
`addRuleXBeforeY('x', 'y')` records `y` as successor of `x` and then throws
when it asks `_rulesRHS.hasOwnProperty('y')`. -/
theorem addRule_throws_half_done :
    (addRuleXBeforeY 1 (SuspendedList.new identity) "q" "hasOwnProperty").status = .ok ∧
    (addRuleXBeforeY 1
      (addRuleXBeforeY 1 (SuspendedList.new identity) "q" "hasOwnProperty").state
      "x" "y").status = .typeError ∧
    (addRuleXBeforeY 1
      (addRuleXBeforeY 1 (SuspendedList.new identity) "q" "hasOwnProperty").state
      "x" "y").state._rules._rulesLHS = [("q", ["hasOwnProperty"]), ("x", ["y"])] ∧
    (addRuleXBeforeY 1
      (addRuleXBeforeY 1 (SuspendedList.new identity) "q" "hasOwnProperty").state
      "x" "y").state._rules._rulesRHS = [("hasOwnProperty", ["q"])] := by
  decide

/-- C4 (the code diverges): on `[a, b, c, d, e]` after `addRuleXBeforeY('a', 'b')`
and `addRuleXBeforeY('q', 'hasOwnProperty')`, both of which return, every
stored rule holds and the stored rule "`a` before `b`" is a chain from `a` to
`b` over items of the array; `addRuleXBeforeY('b', 'a')` does not raise
`ConflictingRulesError`: at every depth of calls it ends in a `TypeError`,
thrown by `_rulesRHS.hasOwnProperty(...)` in `getLeftBoundsForItem`, where
`_rulesRHS.hasOwnProperty` is the Set of predecessors of the key
`hasOwnProperty`. -/
theorem addRuleXBeforeY_chain_ends_in_typeError (fuel : Nat) :
    (addRuleXBeforeY 2 (abcde 1) "a" "b").status = .ok ∧
    (addRuleXBeforeY 2 (addRuleXBeforeY 2 (abcde 1) "a" "b").state
      "q" "hasOwnProperty").status = .ok ∧
    (abcdeWithRules "a" "b" "q" "hasOwnProperty")._list = ["a", "b", "c", "d", "e"] ∧
    AllRulesHold (abcdeWithRules "a" "b" "q" "hasOwnProperty")._rules
      (abcdeWithRules "a" "b" "q" "hasOwnProperty")._list ∧
    Relation.TransGen
      (Link (abcdeWithRules "a" "b" "q" "hasOwnProperty")._rules
        (abcdeWithRules "a" "b" "q" "hasOwnProperty")._list) "a" "b" ∧
    (addRuleXBeforeY (2 + fuel) (abcdeWithRules "a" "b" "q" "hasOwnProperty")
      "b" "a").status = .typeError ∧
    (addRuleXBeforeY (2 + fuel) (abcdeWithRules "a" "b" "q" "hasOwnProperty")
      "b" "a").state._list = ["a", "b", "c", "d", "e"] := by
  rw [addRuleXBeforeY_fuel_mono 2 fuel _ "b" "a" (by decide)]
  exact ⟨by decide, by decide, by decide, by decide,
    Relation.TransGen.single ⟨by decide, by decide, by decide⟩, by decide, by decide⟩

/-- C8 (the code diverges): on `[a, b, c, d, e]` after `addRuleXBeforeY('b', 'c')`
and `addRuleXBeforeY('hasOwnProperty', 'q')`, both of which return, `a` occurs
once, at index 0, the last `d` is at index 3 and `a` has no stored successor;
`addRuleXBeforeY('d', 'a')` does not return `[b, c, d, a, e]`: at every depth
of calls it ends in a `TypeError` and leaves `[a, b, c, d, e]`.  With the rule
"`c` before `d`" in the place of the rule for `hasOwnProperty` the same call
returns `[b, c, d, a, e]`. -/
theorem addRuleXBeforeY_single_move_ends_in_typeError (fuel : Nat) :
    (addRuleXBeforeY 2 (abcde 1) "b" "c").status = .ok ∧
    (addRuleXBeforeY 2 (addRuleXBeforeY 2 (abcde 1) "b" "c").state
      "hasOwnProperty" "q").status = .ok ∧
    (abcdeWithRules "b" "c" "hasOwnProperty" "q")._list = ["a", "b", "c", "d", "e"] ∧
    (abcdeWithRules "b" "c" "hasOwnProperty" "q")._rules.mustFollow "a" = [] ∧
    (addRuleXBeforeY (2 + fuel) (abcdeWithRules "b" "c" "hasOwnProperty" "q")
      "d" "a").status = .typeError ∧
    (addRuleXBeforeY (2 + fuel) (abcdeWithRules "b" "c" "hasOwnProperty" "q")
      "d" "a").state._list = ["a", "b", "c", "d", "e"] ∧
    (addRuleXBeforeY (3 + fuel) (abcdeWithRules "b" "c" "c" "d") "d" "a").status = .ok ∧
    (addRuleXBeforeY (3 + fuel) (abcdeWithRules "b" "c" "c" "d") "d" "a").state._list
      = ["b", "c", "d", "a", "e"] := by
  rw [addRuleXBeforeY_fuel_mono 2 fuel _ "d" "a" (by decide),
    addRuleXBeforeY_fuel_mono 3 fuel _ "d" "a" (by decide)]
  decide

/-- C9 (the code diverges): on a new list `addRuleXBeforeY('hasOwnProperty', 'b')`
returns normally and records the rule; the same call made again at once ends
in a `TypeError`, at every depth of calls, because `_rulesLHS.hasOwnProperty`
is now the Set of successors of the key `hasOwnProperty`.  The same holds for
`addRule('hasOwnProperty', 'b')` called twice on a new index. -/
theorem addRuleXBeforeY_second_call_throws (fuel : Nat) :
    (addRuleXBeforeY (1 + fuel) (SuspendedList.new identity) "hasOwnProperty" "b").status
      = .ok ∧
    (addRuleXBeforeY (1 + fuel)
      (addRuleXBeforeY (1 + fuel) (SuspendedList.new identity) "hasOwnProperty" "b").state
      "hasOwnProperty" "b").status = .typeError ∧
    ((PositionRules.new identity).addRule "hasOwnProperty" "b").threw = false ∧
    (((PositionRules.new identity).addRule "hasOwnProperty" "b").rules.addRule
      "hasOwnProperty" "b").threw = true := by
  rw [addRuleXBeforeY_fuel_mono 1 fuel (SuspendedList.new identity) "hasOwnProperty" "b"
    (by decide),
    addRuleXBeforeY_fuel_mono 1 fuel _ "hasOwnProperty" "b" (by decide)]
  decide

/-- C11 (the code diverges): in the state a new list is in after
`addRuleXBeforeY('hasOwnProperty', 'b')` the array is empty, and
`addRuleXBeforeY('x', 'y')` ends in a `TypeError` at every depth of calls and
records nothing.  On a new list `addRuleXBeforeY('__proto__', 'y')` returns
normally, but `y` is not among the right bounds of `__proto__` afterwards,
while `__proto__` is among the left bounds of `y`. -/
theorem addRuleXBeforeY_of_absent_throws_or_forgets (fuel : Nat) :
    shadowedList._list = [] ∧
    (addRuleXBeforeY (1 + fuel) shadowedList "x" "y").status = .typeError ∧
    (addRuleXBeforeY (1 + fuel) shadowedList "x" "y").state._rules._rulesLHS
      = [("hasOwnProperty", ["b"])] ∧
    (addRuleXBeforeY (1 + fuel) shadowedList "x" "y").state._rules._rulesRHS
      = [("b", ["hasOwnProperty"])] ∧
    (addRuleXBeforeY (1 + fuel) (SuspendedList.new identity) "__proto__" "y").status = .ok ∧
    (addRuleXBeforeY (1 + fuel) (SuspendedList.new identity) "__proto__" "y").state._list
      = [] ∧
    (addRuleXBeforeY (1 + fuel) (SuspendedList.new identity)
      "__proto__" "y").state._rules.getRightBoundsForItem "__proto__" = some [] ∧
    (addRuleXBeforeY (1 + fuel) (SuspendedList.new identity)
      "__proto__" "y").state._rules.getLeftBoundsForItem "y" = some ["__proto__"] := by
  rw [addRuleXBeforeY_fuel_mono 1 fuel shadowedList "x" "y" (by decide),
    addRuleXBeforeY_fuel_mono 1 fuel (SuspendedList.new identity) "__proto__" "y" (by decide)]
  decide

/-- C12 (the code diverges): the state a new list is in after
`addRuleXBeforeY('hasOwnProperty', 'b')` has returned is reachable through the
public operations, and in it `removeRuleXBeforeY('hasOwnProperty', 'b')`,
`removeRuleXAfterY('b', 'hasOwnProperty')` and `removeRulesForItem('b')` each
end in a `TypeError`. -/
theorem removing_rules_throws :
    (addRuleXBeforeY 1 (SuspendedList.new identity) "hasOwnProperty" "b").status = .ok ∧
    (removeRuleXBeforeY shadowedList "hasOwnProperty" "b").status = .typeError ∧
    (removeRuleXAfterY shadowedList "b" "hasOwnProperty").status = .typeError ∧
    (SuspendedList.removeRulesForItem shadowedList "b").status = .typeError := by
  decide

/-- C14 (the code diverges): in the state a new list is in after
`addRuleXBeforeY('hasOwnProperty', 'b')` the item `z` has no stored
successor, and `pushLeft('z')`, `pushRight('z')` and `insert('z', 0)` each end
in a `TypeError` at every depth of calls, after the item has been put into
the array: `_applyRulesForItem` calls `getRightBoundsForItem`, which calls
`_rulesLHS.hasOwnProperty`. -/
theorem insertion_without_successors_throws (fuel : Nat) :
    shadowedList._rules.mustFollow "z" = [] ∧
    pushLeft fuel shadowedList "z" = ⟨{ shadowedList with _list := ["z"] }, .typeError⟩ ∧
    pushRight fuel shadowedList "z" = ⟨{ shadowedList with _list := ["z"] }, .typeError⟩ ∧
    SuspendedList.insert fuel shadowedList "z" 0
      = ⟨{ shadowedList with _list := ["z"] }, .typeError⟩ := by
  have h : shadowedList._rules.getRightBoundsForItem "z" = none := by decide
  have hl : shadowedList._list = [] := by decide
  refine ⟨by decide, ?_, ?_, ?_⟩
  · unfold pushLeft applyAfterInsertion _applyRulesForItem
    simp only [h, hl]
  · unfold pushRight applyAfterInsertion _applyRulesForItem
    simp only [h, hl, List.nil_append]
  · unfold SuspendedList.insert applyAfterInsertion _applyRulesForItem
    simp only [h, hl]
    rfl

/-- C18 (the code diverges): on a new index `addRule('__proto__', 'b')` returns
normally; afterwards `__proto__` is in `getLeftBoundsForItem('b')` but `b` is
not in `getRightBoundsForItem('__proto__')`, which is empty: the assignment
`_rulesLHS['__proto__'] = lhsSet` made the Set the prototype of the
dictionary and no own property. -/
theorem proto_rule_breaks_symmetry :
    ((PositionRules.new identity).addRule "__proto__" "b").threw = false ∧
    protoRules.getLeftBoundsForItem "b" = some ["__proto__"] ∧
    protoRules.getRightBoundsForItem "__proto__" = some [] := by
  decide

/-- C19 (the code diverges): on a new index `addRule('a', '__proto__')` returns
normally and the successor set of `a` gains `__proto__`, but the predecessor
set of `__proto__` the index answers with is still empty; and on the index
left by `addRule('hasOwnProperty', 'q')`, `addRule('a', 'b')` ends in a
`TypeError` and adds nothing. -/
theorem addRule_forgets_or_throws :
    ((PositionRules.new identity).addRule "a" "__proto__").threw = false ∧
    ((PositionRules.new identity).addRule "a" "__proto__").rules.getRightBoundsForItem "a"
      = some ["__proto__"] ∧
    ((PositionRules.new identity).addRule "a" "__proto__").rules.getLeftBoundsForItem
      "__proto__" = some [] ∧
    ((PositionRules.new identity).addRule "hasOwnProperty" "q").threw = false ∧
    (shadowedRules.addRule "a" "b").threw = true ∧
    (shadowedRules.addRule "a" "b").rules._rulesLHS = [("hasOwnProperty", ["q"])] ∧
    (shadowedRules.addRule "a" "b").rules._rulesRHS = [("q", ["hasOwnProperty"])] := by
  decide

/-- C20 (the code diverges): on the index left by `addRule('hasOwnProperty', 'q')`,
which returns normally, `removeRule('hasOwnProperty', 'q')` ends in a
`TypeError` and the rule stays in both dictionaries; `removeRule('a', 'b')`,
for a rule that is not stored, ends in a `TypeError` too. -/
theorem removeRule_throws :
    ((PositionRules.new identity).addRule "hasOwnProperty" "q").threw = false ∧
    (shadowedRules.removeRule "hasOwnProperty" "q").threw = true ∧
    (shadowedRules.removeRule "hasOwnProperty" "q").rules.mustFollow "hasOwnProperty"
      = ["q"] ∧
    (shadowedRules.removeRule "hasOwnProperty" "q").rules.mustPrecede "q"
      = ["hasOwnProperty"] ∧
    (shadowedRules.removeRule "a" "b").threw = true := by
  decide

/-- C21 (the code diverges): on a new index `addRule('a', 'hasOwnProperty')`
returns normally; `removeRulesForItem('a')` then removes the rule and ends in
a `TypeError` when it asks `_rulesRHS.hasOwnProperty('a')`, because
`_rulesRHS.hasOwnProperty` is the (now empty) Set of predecessors of the key
`hasOwnProperty`. -/
theorem removeRulesForItem_throws_midway :
    ((PositionRules.new identity).addRule "a" "hasOwnProperty").threw = false ∧
    (((PositionRules.new identity).addRule "a" "hasOwnProperty").rules.removeRulesForItem
      "a").threw = true ∧
    (((PositionRules.new identity).addRule "a" "hasOwnProperty").rules.removeRulesForItem
      "a").rules._rulesLHS = [] ∧
    (((PositionRules.new identity).addRule "a" "hasOwnProperty").rules.removeRulesForItem
      "a").rules._rulesRHS = [("hasOwnProperty", [])] := by
  decide

/-- C23 (the code diverges): with the index left by
`addRule('hasOwnProperty', 'q')`, which returns normally,
`calculateLeftRightMovementLimits(['a'], rules)` returns no limits: it ends in
a `TypeError` at `_rulesLHS.hasOwnProperty('a')` in `getRightBoundsForItem`. -/
theorem limits_throw :
    ((PositionRules.new identity).addRule "hasOwnProperty" "q").threw = false ∧
    shadowedRules.getLeftBoundsForItem "a" = some [] ∧
    shadowedRules.getRightBoundsForItem "a" = none ∧
    calculateLeftRightMovementLimits ["a"] shadowedRules = none := by
  decide

/-- C24 (the code diverges): with the index left by `addRule('__proto__', 'b')`
and the array `[__proto__, b]`, in which the rule holds, the limits are
`left: null, right: null` for `__proto__` and `left: 0, right: null` for `b`.
Moving `__proto__` one step to the right and moving `b` one step to the left
give the same array `[b, __proto__]`: the first limit says that no rule is
broken in it, the second that one is. -/
theorem limits_disagree_about_one_exchange :
    ((PositionRules.new identity).addRule "__proto__" "b").threw = false ∧
    Precedes ["__proto__", "b"] "__proto__" "b" ∧
    calculateLeftRightMovementLimits ["__proto__", "b"] protoRules
      = some [⟨none, none⟩, ⟨some 0, none⟩] ∧
    moved ["__proto__", "b"] 0 (0 + 1) "__proto__" = ["b", "__proto__"] ∧
    movedLeft ["__proto__", "b"] 1 (0 + 1) "b" = ["b", "__proto__"] := by
  decide

end Suspended
